import Mathlib

/-!
# FlowMail: the flow scheduling engine

A shallow embedding of `backend/controllers/flowController.js`
(`buildGraph`, `traverseAndSchedule`, `scheduleEmailsForFlow`, `activateFlow`,
`updateFlow`, `deactivateFlow`)
and `backend/services/agendaService.js` (`scheduleEmail`,
`cancelScheduledEmails`), over the document model of `backend/models/Flow.js`.

Modelling conventions.

* A JavaScript Number is a `JsNum`: `NaN`, an infinity, or an integer-valued
  IEEE-754 double. Every arithmetic result is rounded to the nearest double,
  ties to even (`toDouble`). Negative zero is identified with zero, as `===` does.
* `async` functions are state passing over a `World` (the agenda job
  collection, the flow collection and the trace of `scheduleEmail` calls).
  A rejected promise is the outcome `threw`, which keeps the world reached.
* The recursion of `traverseAndSchedule` is bounded by a fuel argument counting
  the depth of the walk; `outOfFuel` is the outcome of a walk deeper than that,
  with the world reached when the bound was hit.
* The clock and the success of each `agenda.schedule` call are read from an
  environment `Env`, indexed by the number of `scheduleEmail` calls made so far.
* An entry of the `graph` object is made from the plain object `node.toObject()`,
  which leaves empty objects out (schema option `minimize`, on by default): its
  `data` is undefined when no field of the node's data is set (`dataObject`), and
  reading a property of it then raises a TypeError.
* A field of a document is a string or absent (`null` is not modelled), and node
  ids do not collide with the property names of `Object.prototype`.
* The reads and writes of the flow collection and `agenda.cancel` succeed; only
  `agenda.schedule` is allowed to reject.
-/

namespace FlowMail

/-! ## Numbers -/

/-- The values a JavaScript Number takes in this program. -/
inductive JsNum where
  | nan
  | posInf
  | negInf
  | fin (v : Int)
  deriving DecidableEq, Repr

/-- Number of low-order binary digits of `a` that do not fit a 53-bit significand. -/
def excessBits : Nat → Nat → Nat
  | 0, _ => 0
  | fuel + 1, a => if a < 2 ^ 53 then 0 else excessBits fuel (a / 2) + 1

/-- Round a natural number to 53 significant bits, to nearest, ties to even. -/
def roundNat (a : Nat) : Nat :=
  let e := excessBits a a
  let q := a / 2 ^ e
  let r := a % 2 ^ e
  let m := if 2 * r < 2 ^ e then q else if 2 ^ e < 2 * r then q + 1 else if q % 2 = 0 then q else q + 1
  m * 2 ^ e

/-- The least magnitude that overflows to an infinity once rounded: `2 ^ 1024`. -/
def doubleOverflow : Nat :=
  179769313486231590772930519078902473361797697894230657273430081157732675805500963132708477322407536021120113879871393357658789768814416622492847430639474124377767893424865485276302219601246094119453082952085005768838150682342462881473913110540827237163350510684586298239947245938479716304835356329624224137216

/-- The Number value of a mathematical integer. -/
def toDouble (x : Int) : JsNum :=
  let v := roundNat x.natAbs
  if doubleOverflow ≤ v then (if x < 0 then .negInf else .posInf)
  else .fin (if x < 0 then -(v : Int) else (v : Int))

namespace JsNum

/-- Sign of an infinity-or-finite operand, used for products with an infinity. -/
def sgn : JsNum → Int
  | nan => 0
  | posInf => 1
  | negInf => -1
  | fin v => v.sign

/-- JavaScript `*` on Numbers. -/
def mul : JsNum → JsNum → JsNum
  | nan, _ => nan
  | _, nan => nan
  | fin a, fin b => toDouble (a * b)
  | a, b => if a.sgn * b.sgn = 0 then nan else if a.sgn * b.sgn < 0 then negInf else posInf

/-- JavaScript `+` on Numbers. -/
def add : JsNum → JsNum → JsNum
  | nan, _ => nan
  | _, nan => nan
  | fin a, fin b => toDouble (a + b)
  | posInf, negInf => nan
  | negInf, posInf => nan
  | posInf, _ => posInf
  | negInf, _ => negInf
  | _, posInf => posInf
  | _, negInf => negInf

instance : Mul JsNum := ⟨mul⟩
instance : Add JsNum := ⟨add⟩
instance (n : Nat) : OfNat JsNum n := ⟨fin n⟩

end JsNum

/-! ## Strings: `includes` and `parseInt` -/

/-- The code points `StrWhiteSpaceChar` of ECMAScript (white space and line terminators). -/
def isStrWhiteSpaceChar (c : Char) : Bool :=
  c.toNat ∈ [0x09, 0x0A, 0x0B, 0x0C, 0x0D, 0x20, 0xA0, 0x1680, 0x2000, 0x2001, 0x2002,
    0x2003, 0x2004, 0x2005, 0x2006, 0x2007, 0x2008, 0x2009, 0x200A, 0x2028, 0x2029,
    0x202F, 0x205F, 0x3000, 0xFEFF]

/-- Value of a character as a digit (radix up to 36). -/
def digitValue (c : Char) : Option Nat :=
  if 48 ≤ c.toNat ∧ c.toNat ≤ 57 then some (c.toNat - 48)
  else if 97 ≤ c.toNat ∧ c.toNat ≤ 122 then some (c.toNat - 87)
  else if 65 ≤ c.toNat ∧ c.toNat ≤ 90 then some (c.toNat - 55)
  else none

/-- The longest leading run of radix-`R` digits, as digit values. -/
def takeDigits (R : Nat) : List Char → List Nat
  | [] => []
  | c :: cs =>
    match digitValue c with
    | some d => if d < R then d :: takeDigits R cs else []
    | none => []

/-- The integer written by a list of digits, most significant first. -/
def digitsValue (R : Nat) (ds : List Nat) : Nat :=
  ds.foldl (fun acc d => acc * R + d) 0

/-- Strip the sign of `parseInt`: the sign and the rest of the input. -/
def splitSign (s : List Char) : Int × List Char :=
  match s with
  | c :: t => if c = '-' then (-1, t) else if c = '+' then (1, t) else (1, s)
  | [] => (1, s)

/-- Strip the hexadecimal marker of `parseInt`: the radix and the rest of the input. -/
def splitRadix (s : List Char) : Nat × List Char :=
  match s with
  | a :: b :: t => if a = '0' ∧ (b = 'x' ∨ b = 'X') then (16, t) else (10, s)
  | _ => (10, s)

/-- ECMAScript `parseInt(string)` with no radix argument. -/
def parseInt (string : String) : JsNum :=
  let s := string.toList.dropWhile isStrWhiteSpaceChar
  let (sign, s) := splitSign s
  let (R, s) := splitRadix s
  let z := takeDigits R s
  if z = [] then .nan else toDouble (sign * (digitsValue R z : Int))

/-- `String.prototype.includes` with a one-character search string. -/
def includes (s : String) (c : Char) : Bool :=
  s.toList.contains c

/-! ## The duration resolver -/

/-- The delay computed from a token by the `if / else if` chain shared by
`traverseAndSchedule` (lines 336-342) and `scheduleEmail` (lines 41-47);
`none` when the token has none of the three unit letters. -/
def unitDelay (delay : String) : Option JsNum :=
  if includes delay 'm' then some (parseInt delay * 60 * 1000)
  else if includes delay 'h' then some (parseInt delay * 60 * 60 * 1000)
  else if includes delay 'd' then some (parseInt delay * 24 * 60 * 60 * 1000)
  else none

/-- The `delayMs` of a Wait node: `nodeObj.data.delay || '0m'` then the unit
chain, starting from `let delayMs = 0`. -/
def waitDelayMs (delay : Option String) : JsNum :=
  let delayStr := match delay with
    | some s => if s = "" then "0m" else s
    | none => "0m"
  (unitDelay delayStr).getD 0

/-! ## The document model (`models/Flow.js`) -/

/-- The `type` enum of `NodeSchema`. -/
inductive NodeType where
  | coldEmail
  | wait
  | leadSource
  deriving DecidableEq, Repr

/-- The `data.email` object of a node; every field is optional (`to_` is the field `to`). -/
structure Email where
  subject : Option String
  body : Option String
  to_ : Option String
  deriving DecidableEq, Repr

/-- The `data` object of a node. -/
structure NodeData where
  label : Option String
  delay : Option String
  email : Option Email
  leadSource : Option String
  deriving DecidableEq, Repr

/-- A document of `NodeSchema` (the display position is never read). -/
structure Node where
  id : String
  type : NodeType
  data : NodeData
  deriving DecidableEq, Repr

/-- The `email` property of the plain object of a node's `data`: `toObject()` leaves an
empty object out, so it is `none`, for undefined, when no field of the email is set. -/
def emailObject : Option Email → Option Email
  | some email =>
    if email.subject = none ∧ email.body = none ∧ email.to_ = none then none else some email
  | none => none

/-- The `data` property of the plain object `node.toObject()`: `none`, for undefined, when
no field of the node's `data` is set, those of its email included. -/
def dataObject (data : NodeData) : Option NodeData :=
  if data.label = none ∧ data.delay = none ∧ emailObject data.email = none ∧
      data.leadSource = none then none
  else some { data with email := emailObject data.email }

/-- A document of `EdgeSchema`. -/
structure Edge where
  id : String
  source : String
  target : String
  deriving DecidableEq, Repr

/-- The `executionStatus` enum of `FlowSchema`. -/
inductive ExecutionStatus where
  | draft
  | scheduled
  | running
  | completed
  | failed
  deriving DecidableEq, Repr

/-- A document of `FlowSchema`; object ids are natural numbers. -/
structure Flow where
  _id : Nat
  user : Nat
  nodes : List Node
  edges : List Edge
  isActive : Bool
  executionStatus : ExecutionStatus
  deriving DecidableEq, Repr

/-! ## The job store (`services/agendaService.js`) -/

/-- The `data` attribute of a `send email` job. -/
structure JobData where
  to_ : Option String
  subject : Option String
  html : Option String
  flowId : Option Nat
  nodeId : Option String
  deriving DecidableEq, Repr

/-- A document of the agenda `jobs` collection. `nextRunAt` is the time value of
the date the job is due (`nan` for an invalid date); agenda sets it to null,
here `none`, once the job has run, so a job is pending while it is `some`. -/
structure Job where
  name : String
  nextRunAt : Option JsNum
  data : JobData
  deriving DecidableEq, Repr

/-- The `delay` argument of `scheduleEmail`: a Number or a String. -/
inductive Delay where
  | num (ms : JsNum)
  | str (s : String)
  deriving DecidableEq, Repr

/-- One call of `agendaService.scheduleEmail`, with its six arguments. -/
structure Call where
  to_ : Option String
  subject : Option String
  html : Option String
  delay : Delay
  flowId : Option Nat
  nodeId : Option String
  deriving DecidableEq, Repr

/-- The mutable state the controller and the service act on. -/
structure World where
  jobs : List Job
  flows : List Flow
  calls : List Call
  deriving DecidableEq, Repr

/-- What the code reads from outside: for the `k`-th call of `scheduleEmail`
(counted from 0 over the whole run) the value of `Date.now()`, and whether
`agenda.schedule` resolves; and `Date.parse` for the string dates. -/
structure Env where
  now : Nat → Nat
  dbOk : Nat → Bool
  dateParse : String → JsNum

/-- An exception raised while scheduling. -/
inductive JsError where
  | typeError
  | scheduleRejected
  deriving DecidableEq, Repr

/-- The result of awaiting an `async` helper. -/
inductive Outcome where
  | ok (w : World)
  | threw (e : JsError) (w : World)
  | outOfFuel (w : World)
  deriving DecidableEq, Repr

/-- The time value of `new Date(v)` for a Number `v` (`TimeClip`). -/
def newDate : JsNum → JsNum
  | .fin v => if v.natAbs ≤ 8640000000000000 then .fin v else .nan
  | _ => .nan

/-- Lines 39-48 of `scheduleEmail`: a String delay with a unit letter becomes a Number. -/
def resolveDelay : Delay → Delay
  | .num ms => .num ms
  | .str s =>
    match unitDelay s with
    | some ms => .num ms
    | none => .str s

/-- The time value of `new Date(Date.now() + delayMs)`; with a String `delayMs`
the sum is a concatenation, parsed as a date. -/
def sendTime (env : Env) (now : Nat) : Delay → JsNum
  | .num ms => newDate (JsNum.fin now + ms)
  | .str s => newDate (env.dateParse (toString now ++ s))

/-- Embedding of `scheduleEmail` of `agendaService.js`. -/
def scheduleEmail (env : Env) (to_ subject html : Option String) (delay : Delay)
    (flowId : Option Nat) (nodeId : Option String) (w : World) : Outcome :=
  let k := w.calls.length
  let delayMs := resolveDelay delay
  let when := sendTime env (env.now k) delayMs
  let w1 := { w with calls := w.calls ++ [⟨to_, subject, html, delay, flowId, nodeId⟩] }
  if env.dbOk k then
    .ok { w1 with jobs := w1.jobs ++ [⟨"send email", some when, ⟨to_, subject, html, flowId, nodeId⟩⟩] }
  else
    .threw .scheduleRejected w1

/-- Embedding of `cancelScheduledEmails`: `agenda.cancel` removes every job
whose `data.flowId` equals `flowId`. -/
def cancelScheduledEmails (flowId : Nat) (w : World) : World :=
  { w with jobs := w.jobs.filter (fun job => job.data.flowId != some flowId) }

/-! ## The graph compiler and the traversal (`controllers/flowController.js`) -/

/-- An entry of the `graph` object: the fields of the node with its `children` array.
The entry is spread from `node.toObject()`, so the walk reads its `data` as `dataObject`
of the node's data. -/
structure GraphNode extends Node where
  children : List String
  deriving DecidableEq, Repr

/-- The `graph` object of `buildGraph`, keyed by node id. -/
abbrev Graph := String → Option GraphNode

/-- Assignment `graph[key] = value`. -/
def graphSet (graph : Graph) (key : String) (value : GraphNode) : Graph :=
  fun k => if k = key then some value else graph k

/-- The callback of `nodes.forEach` in `buildGraph`: the node with an empty `children`. -/
def addNode (graph : Graph) (node : Node) : Graph :=
  graphSet graph node.id { node with children := [] }

/-- The callback of `edges.forEach` in `buildGraph`: push the target onto the children of
the source, if the source is in the graph. -/
def addEdge (graph : Graph) (edge : Edge) : Graph :=
  match graph edge.source with
  | some src => graphSet graph edge.source { src with children := src.children ++ [edge.target] }
  | none => graph

/-- Embedding of `buildGraph`. -/
def buildGraph (nodes : List Node) (edges : List Edge) : Graph :=
  let graph := nodes.foldl addNode (fun _ => none)
  edges.foldl addEdge graph

/-- The world an outcome leaves. -/
def Outcome.world : Outcome → World
  | .ok w => w
  | .threw _ w => w
  | .outOfFuel w => w

/-- Sequencing of awaited steps: the continuation runs on a fulfilled promise only. -/
def Outcome.andThen : Outcome → (World → Outcome) → Outcome
  | .ok w, k => k w
  | o, _ => o

/-- A `for ... of` loop whose body is awaited: the first rejection ends the loop. -/
def forEachAwait {α : Type} (body : α → World → Outcome) : List α → World → Outcome
  | [], w => .ok w
  | x :: xs, w => (body x w).andThen (forEachAwait body xs)

/-- Embedding of `traverseAndSchedule`. The argument `node` is `none` for
`undefined`, on which `node.id` raises a TypeError; so do `nodeObj.data.delay` on a Wait
node and `nodeObj.data.email` on an Action node when `nodeObj.data` is undefined. -/
def traverseAndSchedule (env : Env) : Nat → Option Node → Graph → Nat → JsNum → World → Outcome
  | 0, _, _, _, _, w => .outOfFuel w
  | fuel + 1, node, graph, flowId, cumulativeDelay, w =>
    match node with
    | none => .threw .typeError w
    | some node =>
      match graph node.id with
      | none => .ok w
      | some nodeObj =>
        let data := dataObject nodeObj.data
        let currentDelay :=
          match nodeObj.type, data with
          | .wait, some data => cumulativeDelay + waitDelayMs data.delay
          | _, _ => cumulativeDelay
        let scheduled : Outcome :=
          match nodeObj.type, data with
          | .wait, none => .threw .typeError w
          | .coldEmail, none => .threw .typeError w
          | .coldEmail, some data =>
            match data.email with
            | some email =>
              scheduleEmail env email.to_ email.subject email.body (.num currentDelay)
                (some flowId) (some nodeObj.id) w
            | none => .ok w
          | _, _ => .ok w
        scheduled.andThen (fun w1 =>
          forEachAwait (fun childId w2 =>
            traverseAndSchedule env fuel ((graph childId).map (·.toNode)) graph flowId
              currentDelay w2) nodeObj.children w1)

/-- The `startNodes` of `scheduleEmailsForFlow`: nodes that are no edge's target. -/
def startNodes (flow : Flow) : List Node :=
  flow.nodes.filter (fun node => !flow.edges.any (fun edge => edge.target == node.id))

/-- Embedding of `scheduleEmailsForFlow`. -/
def scheduleEmailsForFlow (env : Env) (fuel : Nat) (flow : Flow) (w : World) : Outcome :=
  let graph := buildGraph flow.nodes flow.edges
  forEachAwait (fun startNode w1 =>
    traverseAndSchedule env fuel (some startNode) graph flow._id 0 w1) (startNodes flow) w

/-- A request: the `:id` parameter and the authenticated user. -/
structure Request where
  id : Nat
  user : Nat
  deriving DecidableEq, Repr

/-- A response: the HTTP status and, on success, the flow returned as `data`. -/
structure Response where
  status : Nat
  success : Bool
  data : Option Flow
  deriving DecidableEq, Repr

/-- `Flow.findById`. -/
def findById (w : World) (id : Nat) : Option Flow :=
  w.flows.find? (fun flow => flow._id == id)

/-- The effect of `flow.save()` on the flow collection. -/
def save (flow : Flow) (w : World) : World :=
  { w with flows := w.flows.map (fun old => if old._id == flow._id then flow else old) }

/-- The assignments `flow.isActive = true; flow.executionStatus = 'scheduled'`. -/
def activated (flow : Flow) : Flow :=
  { flow with isActive := true, executionStatus := .scheduled }

/-- Embedding of `activateFlow`; `none` when the scheduling runs out of fuel. -/
def activateFlow (env : Env) (fuel : Nat) (req : Request) (w : World) : Option (Response × World) :=
  match findById w req.id with
  | none => some (⟨404, false, none⟩, w)
  | some flow =>
    if flow.user ≠ req.user then some (⟨401, false, none⟩, w)
    else
      match scheduleEmailsForFlow env fuel flow w with
      | .ok w1 => some (⟨200, true, some (activated flow)⟩, save (activated flow) w1)
      | .threw _ w1 => some (⟨500, false, none⟩, w1)
      | .outOfFuel _ => none

/-- The body of an update request (`req.body`): the fields of the flow document it sets. -/
structure FlowUpdate where
  user : Option Nat
  nodes : Option (List Node)
  edges : Option (List Edge)
  isActive : Option Bool
  executionStatus : Option ExecutionStatus
  deriving DecidableEq, Repr

/-- The document `Flow.findByIdAndUpdate(id, req.body, { new: true })` returns: the fields
given in the body are set, the others kept. -/
def applyUpdate (body : FlowUpdate) (flow : Flow) : Flow :=
  { flow with
    user := body.user.getD flow.user
    nodes := body.nodes.getD flow.nodes
    edges := body.edges.getD flow.edges
    isActive := body.isActive.getD flow.isActive
    executionStatus := body.executionStatus.getD flow.executionStatus }

/-- Embedding of `updateFlow`. -/
def updateFlow (req : Request) (body : FlowUpdate) (w : World) : Response × World :=
  match findById w req.id with
  | none => (⟨404, false, none⟩, w)
  | some flow =>
    if flow.user ≠ req.user then (⟨401, false, none⟩, w)
    else
      let w1 := if flow.isActive then cancelScheduledEmails flow._id w else w
      (⟨200, true, some (applyUpdate body flow)⟩, save (applyUpdate body flow) w1)

/-- The assignments `flow.isActive = false; flow.executionStatus = 'draft'`. -/
def deactivated (flow : Flow) : Flow :=
  { flow with isActive := false, executionStatus := .draft }

/-- Embedding of `deactivateFlow`. -/
def deactivateFlow (req : Request) (w : World) : Response × World :=
  match findById w req.id with
  | none => (⟨404, false, none⟩, w)
  | some flow =>
    if flow.user ≠ req.user then (⟨401, false, none⟩, w)
    else
      (⟨200, true, some (deactivated flow)⟩,
        save (deactivated flow) (cancelScheduledEmails flow._id w))

/-! ## The walk with its visits recorded

The same functions as above, returning in addition the ids of the nodes visited, in
order: a visit is an execution of the body of `traverseAndSchedule` past the guard
`if (!nodeObj) return;`. -/

/-- The loop `forEachAwait`, collecting the visits of its bodies. -/
def forEachVisits {α : Type} (body : α → World → Outcome × List String) :
    List α → World → Outcome × List String
  | [], w => (.ok w, [])
  | x :: xs, w =>
    match body x w with
    | (.ok w1, vs) => ((forEachVisits body xs w1).1, vs ++ (forEachVisits body xs w1).2)
    | (o, vs) => (o, vs)

/-- The function `traverseAndSchedule`, collecting the ids of the nodes visited. -/
def traverseVisits (env : Env) :
    Nat → Option Node → Graph → Nat → JsNum → World → Outcome × List String
  | 0, _, _, _, _, w => (.outOfFuel w, [])
  | fuel + 1, node, graph, flowId, cumulativeDelay, w =>
    match node with
    | none => (.threw .typeError w, [])
    | some node =>
      match graph node.id with
      | none => (.ok w, [])
      | some nodeObj =>
        let data := dataObject nodeObj.data
        let currentDelay :=
          match nodeObj.type, data with
          | .wait, some data => cumulativeDelay + waitDelayMs data.delay
          | _, _ => cumulativeDelay
        let scheduled : Outcome :=
          match nodeObj.type, data with
          | .wait, none => .threw .typeError w
          | .coldEmail, none => .threw .typeError w
          | .coldEmail, some data =>
            match data.email with
            | some email =>
              scheduleEmail env email.to_ email.subject email.body (.num currentDelay)
                (some flowId) (some nodeObj.id) w
            | none => .ok w
          | _, _ => .ok w
        match scheduled with
        | .ok w1 =>
          ((forEachVisits (fun childId w2 =>
              traverseVisits env fuel ((graph childId).map (·.toNode)) graph flowId
                currentDelay w2) nodeObj.children w1).1,
            nodeObj.id :: (forEachVisits (fun childId w2 =>
              traverseVisits env fuel ((graph childId).map (·.toNode)) graph flowId
                currentDelay w2) nodeObj.children w1).2)
        | o => (o, [nodeObj.id])

/-- The function `scheduleEmailsForFlow`, collecting the ids of the nodes visited. -/
def scheduleVisits (env : Env) (fuel : Nat) (flow : Flow) (w : World) : Outcome × List String :=
  let graph := buildGraph flow.nodes flow.edges
  forEachVisits (fun startNode w1 =>
    traverseVisits env fuel (some startNode) graph flow._id 0 w1) (startNodes flow) w

/-! ## Vocabulary of the specification -/

/-- A Number the embedding holds in canonical form: a finite value is its own rounding. -/
def JsNum.IsDouble : JsNum → Prop
  | .fin v => toDouble v = .fin v
  | _ => True

/-- The node of a flow with a given id (the first one, should ids repeat). -/
def nodeOf (nodes : List Node) (id : String) : Option Node :=
  nodes.find? (fun node => node.id = id)

/-- The last node of a flow with a given id. -/
def lastNodeOf (nodes : List Node) (id : String) : Option Node :=
  nodes.reverse.find? (fun node => node.id = id)

/-- The edges leaving a node, in the order of the flow. -/
def outEdges (edges : List Edge) (id : String) : List Edge :=
  edges.filter (fun edge => edge.source = id)

/-- An edge path from node `s`: consecutive edges of the flow, each starting where
the one before it ends. -/
def IsEdgePath (edges : List Edge) : String → List Edge → Prop
  | _, [] => True
  | s, e :: p => e ∈ edges ∧ e.source = s ∧ IsEdgePath edges e.target p

/-- Every edge path from `s` with fewer than `k` edges, in depth-first order; an edge
listed twice in the flow gives two paths. -/
def edgePaths (edges : List Edge) : Nat → String → List (List Edge)
  | 0, _ => []
  | k + 1, s => [] :: (outEdges edges s).flatMap (fun e => (edgePaths edges k e.target).map (e :: ·))

/-- The node at which an edge path from `s` ends. -/
def pathEnd : String → List Edge → String
  | s, [] => s
  | _, e :: p => pathEnd e.target p

/-- The resolved duration a node adds to a path: that of a Wait node, nothing otherwise. -/
def waitOf (nodes : List Node) (id : String) : List JsNum :=
  match nodeOf nodes id with
  | some node => if node.type = .wait then [waitDelayMs node.data.delay] else []
  | none => []

/-- The resolved durations of the Wait nodes on the path from `s`, in path order. -/
def waitsOn (nodes : List Node) : String → List Edge → List JsNum
  | s, [] => waitOf nodes s
  | s, e :: p => waitOf nodes s ++ waitsOn nodes e.target p

/-- The sum, in path order and starting from `d0`, of the Wait durations on a path. -/
def pathDelayFrom (nodes : List Node) (d0 : JsNum) (s : String) (p : List Edge) : JsNum :=
  (waitsOn nodes s p).foldl (· + ·) d0

/-- The accumulated delay of a path walked from an entry node. -/
def pathDelay (nodes : List Node) (s : String) (p : List Edge) : JsNum :=
  pathDelayFrom nodes 0 s p

/-- The scheduling request due for a path: the one of the Action node with an email
payload at its end, if that is what the path ends at. -/
def callOfPath (flow : Flow) (d0 : JsNum) (s : String) (p : List Edge) : Option Call :=
  match nodeOf flow.nodes (pathEnd s p) with
  | some node =>
    match node.type, emailObject node.data.email with
    | .coldEmail, some email =>
      some ⟨email.to_, email.subject, email.body, .num (pathDelayFrom flow.nodes d0 s p),
        some flow._id, some node.id⟩
    | _, _ => none
  | none => none

/-- The job the `k`-th call of `scheduleEmail` persists when `agenda.schedule` resolves. -/
def jobOf (env : Env) (k : Nat) (c : Call) : Job :=
  ⟨"send email", some (sendTime env (env.now k) (resolveDelay c.delay)),
    ⟨c.to_, c.subject, c.html, c.flowId, c.nodeId⟩⟩

/-- The jobs persisted by consecutive calls, the first of which is the `k`-th. -/
def jobsOf (env : Env) : Nat → List Call → List Job
  | _, [] => []
  | k, c :: cs => jobOf env k c :: jobsOf env (k + 1) cs

/-- Node ids are unique within the flow. -/
def UniqueIds (flow : Flow) : Prop :=
  (flow.nodes.map (·.id)).Nodup

/-- Both endpoints of every edge are ids of nodes of the flow. -/
def NoDanglingEdges (flow : Flow) : Prop :=
  ∀ e ∈ flow.edges, (nodeOf flow.nodes e.source).isSome ∧ (nodeOf flow.nodes e.target).isSome

/-- The flow is acyclic: `rank` is a topological ranking, falling along every edge. -/
def RankedBy (rank : String → Nat) (flow : Flow) : Prop :=
  ∀ e ∈ flow.edges, rank e.target < rank e.source

/-- Every Action node carries an email payload: an email with a field set. -/
def ActionsHaveEmail (flow : Flow) : Prop :=
  ∀ node ∈ flow.nodes, node.type = .coldEmail → (emailObject node.data.email).isSome

/-- Every Wait node carries a data object: some field of its `data` is set. -/
def WaitsHaveData (flow : Flow) : Prop :=
  ∀ node ∈ flow.nodes, node.type = .wait → (dataObject node.data).isSome

/-- Every Wait node and every Action node carries a data object. -/
def NodesHaveData (flow : Flow) : Prop :=
  ∀ node ∈ flow.nodes, node.type ≠ .leadSource → (dataObject node.data).isSome

/-- The entry nodes of a flow paired with every edge path of fewer than `k` edges from them. -/
def entryPaths (flow : Flow) (k : Nat) : List (String × List Edge) :=
  (startNodes flow).flatMap (fun s => (edgePaths flow.edges k s.id).map (fun p => (s.id, p)))

/-- The requests due for the edge paths of fewer than `k` edges from `s`, the walk
reaching `s` with the delay `d0`. -/
def callsFrom (flow : Flow) (k : Nat) (d0 : JsNum) (s : String) : List Call :=
  (edgePaths flow.edges k s).filterMap (callOfPath flow d0 s)

/-- The requests due for the edge paths of fewer than `k` edges from the entry nodes. -/
def entryCalls (flow : Flow) (k : Nat) : List Call :=
  (entryPaths flow k).filterMap (fun sp => callOfPath flow 0 sp.1 sp.2)

/-- The accumulated delay after a node: a Wait node adds its duration, other nodes nothing. -/
def delayAfter (d : JsNum) (node : Node) : JsNum :=
  if node.type = .wait then d + waitDelayMs node.data.delay else d

/-- What a run of awaited scheduling steps from world `w` leaves behind: the flow
collection untouched, calls appended to the trace, each of them satisfying `P`, and the
job of every call appended to the store, except that of a rejected last call. -/
def Outcome.Emits (env : Env) (P : Call → Prop) (w : World) : Outcome → Prop
  | .ok w1 => w1.flows = w.flows ∧ ∃ cs, w1.calls = w.calls ++ cs ∧
      w1.jobs = w.jobs ++ jobsOf env w.calls.length cs ∧ ∀ c ∈ cs, P c
  | .threw .typeError w1 => w1.flows = w.flows ∧ ∃ cs, w1.calls = w.calls ++ cs ∧
      w1.jobs = w.jobs ++ jobsOf env w.calls.length cs ∧ ∀ c ∈ cs, P c
  | .threw .scheduleRejected w1 => w1.flows = w.flows ∧ ∃ cs c, w1.calls = w.calls ++ (cs ++ [c]) ∧
      w1.jobs = w.jobs ++ jobsOf env w.calls.length cs ∧ ∀ x ∈ cs ++ [c], P x
  | .outOfFuel w1 => w1.flows = w.flows ∧ ∃ cs, w1.calls = w.calls ++ cs ∧
      w1.jobs = w.jobs ++ jobsOf env w.calls.length cs ∧ ∀ c ∈ cs, P c

/-- The scheduling step of a visit: a TypeError for a Wait or Action node whose `data` is
undefined, the call of `scheduleEmail` for an Action node with an email payload, nothing
for any other node. -/
def visitCall (env : Env) (nodeObj : GraphNode) (flowId : Nat) (d : JsNum) (w : World) : Outcome :=
  match nodeObj.type, dataObject nodeObj.data with
  | .wait, none => .threw .typeError w
  | .coldEmail, none => .threw .typeError w
  | .coldEmail, some data =>
    match data.email with
    | some email =>
      scheduleEmail env email.to_ email.subject email.body (.num d) (some flowId)
        (some nodeObj.id) w
    | none => .ok w
  | _, _ => .ok w

/-- The edges of the flow form an acyclic graph: an edge path that ends where it starts
has no edge. -/
def Acyclic (flow : Flow) : Prop :=
  ∀ (v : String) (q : List Edge), IsEdgePath flow.edges v q → pathEnd v q = v → q = []

/-- The nodes at which the edge paths of fewer than `k` edges from the entry nodes end, one
entry per path, in depth-first order. -/
def pathEnds (flow : Flow) (k : Nat) : List String :=
  (entryPaths flow k).map (fun sp => pathEnd sp.1 sp.2)

/-- A cycle on a path from an entry node: an edge path from an entry node to some node,
followed by a non-empty edge path from that node back to itself. -/
def HasCycleOnWalk (flow : Flow) : Prop :=
  ∃ s ∈ startNodes flow, ∃ p q, IsEdgePath flow.edges s.id p ∧ q ≠ [] ∧
    IsEdgePath flow.edges (pathEnd s.id p) q ∧ pathEnd (pathEnd s.id p) q = pathEnd s.id p

/-- The outcome of a walk that came to an end: it returned or it threw. -/
def Outcome.Terminated : Outcome → Prop
  | .ok _ => True
  | .threw _ _ => True
  | .outOfFuel _ => False

/-- The jobs of a store owned by a flow. -/
def ownedBy (flowId : Nat) (jobs : List Job) : List Job :=
  jobs.filter (fun job => job.data.flowId == some flowId)

/-- The jobs of a store not owned by a flow. -/
def notOwnedBy (flowId : Nat) (jobs : List Job) : List Job :=
  jobs.filter (fun job => job.data.flowId != some flowId)

/-! ## Example inputs -/

/-- An Action node with an email payload. -/
def actionNode (id : String) : Node :=
  ⟨id, .coldEmail, ⟨none, none, some ⟨some "Hello", some "<p>Hi</p>", some "lead@example.com"⟩, none⟩⟩

/-- An Action node without an email payload. -/
def bareActionNode (id : String) : Node :=
  ⟨id, .coldEmail, ⟨some "Draft", none, none, none⟩⟩

/-- A Wait node with a duration token. -/
def waitNode (id : String) (delay : String) : Node :=
  ⟨id, .wait, ⟨none, some delay, none, none⟩⟩

/-- A Wait node with no field of its `data` set. -/
def emptyWaitNode (id : String) : Node :=
  ⟨id, .wait, ⟨none, none, none, none⟩⟩

/-- A Source node. -/
def sourceNode (id : String) : Node :=
  ⟨id, .leadSource, ⟨none, none, none, some "list"⟩⟩

/-- A flow document of user 1 with id 7, in draft. -/
def mkFlow (nodes : List Node) (edges : List Edge) : Flow :=
  ⟨7, 1, nodes, edges, false, .draft⟩

/-- The chain `A -> W("1h") -> B` of the specification. -/
def chainFlow : Flow :=
  mkFlow [actionNode "A", waitNode "W" "1h", actionNode "B"] [⟨"e1", "A", "W"⟩, ⟨"e2", "W", "B"⟩]

/-- A diamond: two Wait nodes, both parents of the Action node `B`. -/
def diamondFlow (t1 t2 : String) : Flow :=
  mkFlow [waitNode "W1" t1, waitNode "W2" t2, actionNode "B"]
    [⟨"e1", "W1", "B"⟩, ⟨"e2", "W2", "B"⟩]

/-- A ranking of the nodes of the example flows: the Action node `B` below the others. -/
def exampleRank (id : String) : Nat :=
  if id = "B" then 0 else if id = "W" ∨ id = "W2" then 1 else 2

/-- Two chained Wait nodes before an Action node. -/
def twoWaitsFlow (t1 t2 : String) : Flow :=
  mkFlow [waitNode "W1" t1, waitNode "W2" t2, actionNode "B"]
    [⟨"e1", "W1", "W2"⟩, ⟨"e2", "W2", "B"⟩]

/-- A Wait node with no data before an Action node: `W -> B`. -/
def emptyWaitFlow : Flow :=
  mkFlow [emptyWaitNode "W", actionNode "B"] [⟨"e1", "W", "B"⟩]

/-- An Action node with an edge to a node that does not exist. -/
def danglingTargetFlow : Flow :=
  mkFlow [actionNode "A"] [⟨"e1", "A", "ghost"⟩]

/-- An Action node with an edge from a node that does not exist. -/
def danglingSourceFlow : Flow :=
  mkFlow [actionNode "A"] [⟨"e1", "ghost", "A"⟩]

/-- Two nodes sharing the id `a`. -/
def duplicateIdFlow : Flow :=
  mkFlow [sourceNode "a", actionNode "a"] []

/-- A single Action node with an edge to itself: every node has an incoming edge. -/
def selfLoopFlow : Flow :=
  mkFlow [actionNode "A"] [⟨"e1", "A", "A"⟩]

/-- A clock that stands still at `t` and a scheduler that accepts every job. -/
def stillEnv (t : Nat) : Env :=
  ⟨fun _ => t, fun _ => true, fun _ => .nan⟩

/-- A clock that advances one millisecond per call and a scheduler that accepts every job. -/
def tickingEnv (t : Nat) : Env :=
  ⟨fun k => t + k, fun _ => true, fun _ => .nan⟩

/-- A still clock and a scheduler that rejects its second job. -/
def rejectingEnv (t : Nat) : Env :=
  ⟨fun _ => t, fun k => k != 1, fun _ => .nan⟩

/-- A world with no job, holding the given flows. -/
def worldOf (flows : List Flow) : World :=
  ⟨[], flows, []⟩

/-- The call of `scheduleEmail` for an example Action node. -/
def exampleCall (id : String) (delay : JsNum) : Call :=
  ⟨some "lead@example.com", some "Hello", some "<p>Hi</p>", .num delay, some 7, some id⟩

/-- The job of an example Action node, due at `t`. -/
def exampleJob (id : String) (t : Int) : Job :=
  ⟨"send email", some (.fin t),
    ⟨some "lead@example.com", some "Hello", some "<p>Hi</p>", some 7, some id⟩⟩

/-- The world left by activating the chain at time 1000 when the second job is rejected. -/
def chainAfterRejection : World :=
  ⟨[exampleJob "A" 1000], [chainFlow], [exampleCall "A" 0, exampleCall "B" (.fin 3600000)]⟩

/-- The world left by activating the chain at time 1000, every job accepted. -/
def chainActivated : World :=
  ⟨[exampleJob "A" 1000, exampleJob "B" 3601000], [activated chainFlow],
    [exampleCall "A" 0, exampleCall "B" (.fin 3600000)]⟩

/-- The world left by activating the chain, renaming it, and activating it again, at
time 1000. -/
def chainReactivated : World :=
  ⟨[exampleJob "A" 1000, exampleJob "B" 3601000], [activated chainFlow],
    [exampleCall "A" 0, exampleCall "B" (.fin 3600000), exampleCall "A" 0,
      exampleCall "B" (.fin 3600000)]⟩

/-- An update that sets no field of the flow document (it renames the flow, say). -/
def renameOnly : FlowUpdate :=
  ⟨none, none, none, none, none⟩

/-- A Source node `S` with an edge to a Source node `A` that has an edge to itself. -/
def cyclicFlow : Flow :=
  mkFlow [sourceNode "S", sourceNode "A"] [⟨"e1", "S", "A"⟩, ⟨"e2", "A", "A"⟩]

/-! ## Rounding to a double -/

theorem excessBits_div_lt (fuel : Nat) : ∀ a, a ≤ fuel → a / 2 ^ excessBits fuel a < 2 ^ 53 := by
  induction fuel with
  | zero =>
    intro a h
    have : a = 0 := by omega
    subst this
    simp [excessBits]
  | succ fuel ih =>
    intro a h
    unfold excessBits
    by_cases ha : a < 2 ^ 53
    · simp only [ha, if_true, pow_zero, Nat.div_one]
    · simp only [ha, if_false]
      have h2 : a / 2 ≤ fuel := by
        have : 0 < a := by
          have : 0 < 2 ^ 53 := by positivity
          omega
        omega
      have := ih (a / 2) h2
      rwa [Nat.div_div_eq_div_mul, ← pow_succ'] at this

theorem excessBits_le_div (fuel : Nat) :
    ∀ a, 0 < excessBits fuel a → 2 ^ 53 ≤ a / 2 ^ (excessBits fuel a - 1) := by
  induction fuel with
  | zero => intro a h; simp [excessBits] at h
  | succ fuel ih =>
    intro a h
    unfold excessBits at h ⊢
    by_cases ha : a < 2 ^ 53
    · rw [if_pos ha] at h; exact absurd h (lt_irrefl 0)
    · simp only [ha, if_false, Nat.add_sub_cancel]
      by_cases hk : 0 < excessBits fuel (a / 2)
      · have := ih (a / 2) hk
        rw [Nat.div_div_eq_div_mul, ← pow_succ'] at this
        have e : excessBits fuel (a / 2) - 1 + 1 = excessBits fuel (a / 2) := by omega
        rwa [e] at this
      · have : excessBits fuel (a / 2) = 0 := by omega
        rw [this]
        simp only [pow_zero, Nat.div_one]
        omega

theorem roundNat_eq_self (v e : Nat) (hd : 2 ^ e ∣ v) (hq : v / 2 ^ e ≤ 2 ^ 53) :
    roundNat v = v := by
  have key : 2 ^ excessBits v v ∣ v := by
    by_cases hle : excessBits v v ≤ e
    · exact (pow_dvd_pow 2 hle).trans hd
    · have hpos : 0 < excessBits v v := by omega
      have hB := excessBits_le_div v v hpos
      have hge : e ≤ excessBits v v - 1 := by omega
      by_cases heq : excessBits v v - 1 = e
      · -- v / 2^e = 2^53
        rw [heq] at hB
        have hv : v / 2 ^ e = 2 ^ 53 := le_antisymm hq hB
        have : v = 2 ^ e * 2 ^ 53 := by
          rw [← hv]; exact (Nat.mul_div_cancel' hd).symm
        have e1 : excessBits v v = e + 1 := by omega
        rw [e1, this, pow_succ]
        exact Nat.mul_dvd_mul_left _ (by norm_num)
      · exfalso
        have hlt : e + 1 ≤ excessBits v v - 1 := by omega
        have h1 : v / 2 ^ (excessBits v v - 1) ≤ v / 2 ^ (e + 1) :=
          Nat.div_le_div_left (Nat.pow_le_pow_right (by norm_num) hlt) (by positivity)
        have h2 : v / 2 ^ (e + 1) = v / 2 ^ e / 2 := by
          rw [pow_succ, Nat.div_div_eq_div_mul]
        have h3 : (2:Nat) ^ 53 = 9007199254740992 := by norm_num
        omega
  unfold roundNat
  simp only
  have hr : v % 2 ^ excessBits v v = 0 := Nat.mod_eq_zero_of_dvd key
  rw [hr]
  have hp : 2 * 0 < 2 ^ excessBits v v := by positivity
  simp only [hp, if_true]
  exact Nat.div_mul_cancel key

theorem roundNat_shape (a : Nat) :
    2 ^ excessBits a a ∣ roundNat a ∧ roundNat a / 2 ^ excessBits a a ≤ 2 ^ 53 := by
  have hA := excessBits_div_lt a a le_rfl
  unfold roundNat
  simp only
  refine ⟨Dvd.intro_left _ rfl, ?_⟩
  rw [Nat.mul_div_cancel _ (by positivity)]
  split_ifs <;> omega

theorem roundNat_idem (a : Nat) : roundNat (roundNat a) = roundNat a :=
  roundNat_eq_self _ _ (roundNat_shape a).1 (roundNat_shape a).2

theorem roundNat_of_le {a : Nat} (h : a ≤ 2 ^ 53) : roundNat a = a :=
  roundNat_eq_self a 0 (by simp) (by simpa using h)



theorem toDouble_of_le {x : Int} (h : x.natAbs ≤ 2 ^ 53) : toDouble x = .fin x := by
  unfold toDouble
  simp only [roundNat_of_le h]
  have h1 : ¬ doubleOverflow ≤ x.natAbs := by
    have : (2:Nat) ^ 53 < doubleOverflow := by unfold doubleOverflow; norm_num
    omega
  rw [if_neg h1]
  congr 1
  split_ifs with hx <;> omega

theorem toDouble_natCast {n : Nat} (h : n ≤ 2 ^ 53) : toDouble (n : Int) = .fin n :=
  toDouble_of_le (by simpa using h)

theorem toDouble_isDouble (x : Int) : (toDouble x).IsDouble := by
  unfold toDouble
  simp only
  split_ifs with h1 h2 h2
  · trivial
  · trivial
  · show toDouble _ = _
    unfold toDouble
    simp only [Int.natAbs_neg, Int.natAbs_ofNat, roundNat_idem, h1, if_false]
    congr 1
    split_ifs <;> omega
  · show toDouble _ = _
    unfold toDouble
    simp only [Int.natAbs_ofNat, roundNat_idem, h1, if_false]
    rw [if_neg (by omega)]

theorem JsNum.mul_def (a b : JsNum) : a * b = JsNum.mul a b := rfl
theorem JsNum.add_def (a b : JsNum) : a + b = JsNum.add a b := rfl

theorem JsNum.fin_mul_fin (a b : Int) : (JsNum.fin a) * (JsNum.fin b) = toDouble (a * b) := rfl
theorem JsNum.fin_add_fin (a b : Int) : (JsNum.fin a) + (JsNum.fin b) = toDouble (a + b) := rfl
theorem JsNum.nan_mul (b : JsNum) : JsNum.nan * b = .nan := by cases b <;> rfl
theorem JsNum.ofNat_eq (n : Nat) : (OfNat.ofNat n : JsNum) = .fin n := rfl

theorem JsNum.mul_isDouble (a b : JsNum) : (a * b).IsDouble := by
  cases a <;> cases b <;> simp only [JsNum.mul_def, JsNum.mul] <;>
    first
    | trivial
    | exact toDouble_isDouble _
    | (split_ifs <;> trivial)

theorem JsNum.add_isDouble (a b : JsNum) : (a + b).IsDouble := by
  cases a <;> cases b <;> simp only [JsNum.add_def, JsNum.add] <;>
    first
    | trivial
    | exact toDouble_isDouble _

theorem JsNum.zero_add {d : JsNum} (h : d.IsDouble) : (0 : JsNum) + d = d := by
  cases d with
  | fin v =>
    show toDouble ((0 : Nat) + v) = _
    simpa using h
  | _ => rfl

theorem JsNum.isDouble_zero : (0 : JsNum).IsDouble := by
  show toDouble _ = _
  decide

/-! ## Decimal tokens -/

theorem digitChar_toNat : ∀ k, k < 10 → (Nat.digitChar k).toNat = 48 + k := by decide

theorem toDigitsCore_spec (fuel : Nat) : ∀ n ds, n < fuel →
    ∃ pre, Nat.toDigitsCore 10 fuel n ds = pre ++ ds ∧ pre ≠ [] ∧
      (∀ c ∈ pre, 48 ≤ c.toNat ∧ c.toNat ≤ 57) ∧
      digitsValue 10 (pre.map (fun c => c.toNat - 48)) = n := by
  induction fuel with
  | zero => intro n ds h; omega
  | succ fuel ih =>
    intro n ds h
    have hd : (Nat.digitChar (n % 10)).toNat = 48 + n % 10 :=
      digitChar_toNat _ (Nat.mod_lt _ (by norm_num))
    unfold Nat.toDigitsCore
    by_cases h0 : n / 10 = 0
    · simp only [h0, if_true]
      refine ⟨[Nat.digitChar (n % 10)], rfl, by simp, ?_, ?_⟩
      · intro c hc
        simp only [List.mem_singleton] at hc
        subst hc
        omega
      · simp only [List.map, digitsValue, List.foldl, hd]
        omega
    · simp only [h0, if_false]
      obtain ⟨pre, h1, h2, h3, h4⟩ := ih (n / 10) (Nat.digitChar (n % 10) :: ds) (by omega)
      refine ⟨pre ++ [Nat.digitChar (n % 10)], by simp [h1], by simp, ?_, ?_⟩
      · intro c hc
        rcases List.mem_append.1 hc with hc | hc
        · exact h3 c hc
        · simp only [List.mem_singleton] at hc
          subst hc
          omega
      · unfold digitsValue at h4 ⊢
        simp only [List.map_append, List.foldl_append, h4, List.map, List.foldl, hd]
        omega

theorem toString_toList (n : Nat) :
    ∃ pre, (toString n).toList = pre ∧ pre ≠ [] ∧
      (∀ c ∈ pre, 48 ≤ c.toNat ∧ c.toNat ≤ 57) ∧
      digitsValue 10 (pre.map (fun c => c.toNat - 48)) = n := by
  obtain ⟨pre, h1, h2, h3, h4⟩ := toDigitsCore_spec (n + 1) n [] (by omega)
  refine ⟨pre, ?_, h2, h3, h4⟩
  show (Nat.repr n).toList = pre
  simp only [Nat.repr, Nat.toDigits, h1, List.append_nil, List.asString, String.toList]


theorem decimal_not_whiteSpace {c : Char} (h : 48 ≤ c.toNat ∧ c.toNat ≤ 57) :
    isStrWhiteSpaceChar c = false := by
  unfold isStrWhiteSpaceChar
  simp only [decide_eq_false_iff_not, List.mem_cons, List.mem_singleton, List.not_mem_nil,
    or_false]
  omega

theorem decimal_ne {c u : Char} (h : 48 ≤ c.toNat ∧ c.toNat ≤ 57)
    (hu : u.toNat < 48 ∨ 57 < u.toNat) : c ≠ u := by
  intro e
  subst e
  omega

theorem decimal_digitValue {c : Char} (h : 48 ≤ c.toNat ∧ c.toNat ≤ 57) :
    digitValue c = some (c.toNat - 48) := by
  unfold digitValue
  rw [if_pos h]

theorem takeDigits_decimal (u : Char) (hu : takeDigits 10 [u] = []) :
    ∀ pre : List Char, (∀ c ∈ pre, 48 ≤ c.toNat ∧ c.toNat ≤ 57) →
      takeDigits 10 (pre ++ [u]) = pre.map (fun c => c.toNat - 48) := by
  intro pre
  induction pre with
  | nil => intro _; simpa using hu
  | cons c cs ih =>
    intro h
    have hc := h c (List.mem_cons_self _ _)
    have hcs := ih (fun x hx => h x (List.mem_cons_of_mem _ hx))
    simp only [List.cons_append, takeDigits, decimal_digitValue hc, List.map_cons, List.append_eq]
    rw [if_pos (by omega), hcs]

/-- `parseInt` reads a run of decimal digits followed by a unit letter as the integer written. -/
theorem parseInt_decimal (pre : List Char) (u : Char) (hne : pre ≠ [])
    (hpre : ∀ c ∈ pre, 48 ≤ c.toNat ∧ c.toNat ≤ 57) (hu : takeDigits 10 [u] = [])
    (hu2 : u ≠ 'x' ∧ u ≠ 'X') (s : String) (hs : s.toList = pre ++ [u]) :
    parseInt s = toDouble (digitsValue 10 (pre.map (fun c => c.toNat - 48)) : Int) := by
  obtain ⟨c, cs, rfl⟩ := List.exists_cons_of_ne_nil hne
  have hc := hpre c (List.mem_cons_self _ _)
  unfold parseInt
  rw [hs]
  have h1 : List.dropWhile isStrWhiteSpaceChar (c :: cs ++ [u]) = c :: cs ++ [u] := by
    simp [List.dropWhile, decimal_not_whiteSpace hc]
  have h2 : splitSign (c :: cs ++ [u]) = (1, c :: cs ++ [u]) := by
    simp only [splitSign, List.cons_append]
    rw [if_neg (decimal_ne hc (by decide)), if_neg (decimal_ne hc (by decide))]
  have h3 : splitRadix (c :: cs ++ [u]) = (10, c :: cs ++ [u]) := by
    cases cs with
    | nil =>
      simp only [splitRadix, List.cons_append, List.nil_append]
      rw [if_neg]
      rintro ⟨_, h | h⟩
      · exact hu2.1 h
      · exact hu2.2 h
    | cons b t =>
      have hb := hpre b (List.mem_cons_of_mem _ (List.mem_cons_self _ _))
      simp only [splitRadix, List.cons_append]
      rw [if_neg]
      rintro ⟨_, h | h⟩
      · exact decimal_ne hb (by decide) h
      · exact decimal_ne hb (by decide) h
  simp only [h1, h2, h3, takeDigits_decimal u hu (c :: cs) hpre]
  rw [if_neg (by simp)]
  simp

theorem includes_decimal (pre : List Char) (u c : Char)
    (hpre : ∀ x ∈ pre, 48 ≤ x.toNat ∧ x.toNat ≤ 57) (hc : c.toNat < 48 ∨ 57 < c.toNat)
    (s : String) (hs : s.toList = pre ++ [u]) : includes s c = decide (c = u) := by
  unfold includes
  rw [hs]
  have : ¬ c ∈ pre := fun hm => decimal_ne (hpre c hm) hc rfl
  by_cases h : c = u
  · simp [h]
  · simp [h, this]

/-! ## The unit chain on decimal tokens -/

theorem two_pow_53 : (2 : Nat) ^ 53 = 9007199254740992 := by norm_num

theorem toDouble_small {n : Nat} (h : n ≤ 9007199254740992) : toDouble (n : Int) = .fin n :=
  toDouble_natCast (h.trans_eq two_pow_53.symm)

theorem fin_mul_exact (m a : Nat) (h : m * a ≤ 9007199254740992) :
    JsNum.fin (m : Int) * (OfNat.ofNat a : JsNum) = .fin ((m * a : Nat) : Int) := by
  rw [JsNum.ofNat_eq, JsNum.fin_mul_fin, ← Nat.cast_mul, toDouble_small h]

theorem unit_token_toList (n : Nat) (u : Char) :
    ∃ pre, (toString n ++ String.singleton u).toList = pre ++ [u] ∧ pre ≠ [] ∧
      (∀ c ∈ pre, 48 ≤ c.toNat ∧ c.toNat ≤ 57) ∧
      digitsValue 10 (pre.map (fun c => c.toNat - 48)) = n := by
  obtain ⟨pre, h1, h2, h3, h4⟩ := toString_toList n
  refine ⟨pre, ?_, h2, h3, h4⟩
  rw [← h1]
  simp [String.toList, String.data_append, String.singleton]

theorem unitDelay_minutes (n : Nat) :
    unitDelay (toString n ++ "m") = some (toDouble n * 60 * 1000) := by
  obtain ⟨pre, h1, h2, h3, h4⟩ := unit_token_toList n 'm'
  have hs : toString n ++ "m" = toString n ++ String.singleton 'm' := rfl
  unfold unitDelay
  rw [hs, includes_decimal pre 'm' 'm' h3 (by decide) _ h1,
    parseInt_decimal pre 'm' h2 h3 (by decide) (by decide) _ h1, h4]
  simp

theorem unitDelay_hours (n : Nat) :
    unitDelay (toString n ++ "h") = some (toDouble n * 60 * 60 * 1000) := by
  obtain ⟨pre, h1, h2, h3, h4⟩ := unit_token_toList n 'h'
  have hs : toString n ++ "h" = toString n ++ String.singleton 'h' := rfl
  unfold unitDelay
  rw [hs, includes_decimal pre 'h' 'm' h3 (by decide) _ h1,
    includes_decimal pre 'h' 'h' h3 (by decide) _ h1,
    parseInt_decimal pre 'h' h2 h3 (by decide) (by decide) _ h1, h4]
  simp

theorem unitDelay_days (n : Nat) :
    unitDelay (toString n ++ "d") = some (toDouble n * 24 * 60 * 60 * 1000) := by
  obtain ⟨pre, h1, h2, h3, h4⟩ := unit_token_toList n 'd'
  have hs : toString n ++ "d" = toString n ++ String.singleton 'd' := rfl
  unfold unitDelay
  rw [hs, includes_decimal pre 'd' 'm' h3 (by decide) _ h1,
    includes_decimal pre 'd' 'h' h3 (by decide) _ h1,
    includes_decimal pre 'd' 'd' h3 (by decide) _ h1,
    parseInt_decimal pre 'd' h2 h3 (by decide) (by decide) _ h1, h4]
  simp

theorem token_ne_empty (n : Nat) (u : Char) : toString n ++ String.singleton u ≠ "" := by
  obtain ⟨pre, h1, -, -, -⟩ := unit_token_toList n u
  intro h
  rw [h] at h1
  simp [String.toList] at h1

theorem minutes_exact (n : Nat) (h : n * 60000 ≤ 2 ^ 53) :
    toDouble n * 60 * 1000 = .fin ((n * 60000 : Nat) : Int) := by
  replace h := h.trans_eq two_pow_53
  rw [toDouble_small (by omega), fin_mul_exact n 60 (by omega),
    fin_mul_exact (n * 60) 1000 (by omega)]
  rw [show n * 60 * 1000 = n * 60000 by omega]

theorem hours_exact (n : Nat) (h : n * 3600000 ≤ 2 ^ 53) :
    toDouble n * 60 * 60 * 1000 = .fin ((n * 3600000 : Nat) : Int) := by
  replace h := h.trans_eq two_pow_53
  rw [toDouble_small (by omega), fin_mul_exact n 60 (by omega),
    fin_mul_exact (n * 60) 60 (by omega), fin_mul_exact (n * 60 * 60) 1000 (by omega)]
  rw [show n * 60 * 60 * 1000 = n * 3600000 by omega]

theorem days_exact (n : Nat) (h : n * 86400000 ≤ 2 ^ 53) :
    toDouble n * 24 * 60 * 60 * 1000 = .fin ((n * 86400000 : Nat) : Int) := by
  replace h := h.trans_eq two_pow_53
  rw [toDouble_small (by omega), fin_mul_exact n 24 (by omega),
    fin_mul_exact (n * 24) 60 (by omega), fin_mul_exact (n * 24 * 60) 60 (by omega),
    fin_mul_exact (n * 24 * 60 * 60) 1000 (by omega)]
  rw [show n * 24 * 60 * 60 * 1000 = n * 86400000 by omega]

theorem waitDelayMs_of_unitDelay {s : String} {d : JsNum} (hs : s ≠ "")
    (h : unitDelay s = some d) : waitDelayMs (some s) = d := by
  unfold waitDelayMs
  simp [hs, h]

theorem resolveDelay_of_unitDelay {s : String} {d : JsNum}
    (h : unitDelay s = some d) : resolveDelay (.str s) = .num d := by
  unfold resolveDelay
  simp [h]

/-! ## One visit of `traverseAndSchedule` -/

theorem traverse_zero (env : Env) (node : Option Node) (graph : Graph) (flowId : Nat)
    (d : JsNum) (w : World) : traverseAndSchedule env 0 node graph flowId d w = .outOfFuel w := rfl

theorem traverse_undefined (env : Env) (fuel : Nat) (graph : Graph) (flowId : Nat)
    (d : JsNum) (w : World) :
    traverseAndSchedule env (fuel + 1) none graph flowId d w = .threw .typeError w := rfl

theorem traverse_missing (env : Env) (fuel : Nat) (node : Node) (graph : Graph) (flowId : Nat)
    (d : JsNum) (w : World) (h : graph node.id = none) :
    traverseAndSchedule env (fuel + 1) (some node) graph flowId d w = .ok w := by
  simp only [traverseAndSchedule, h]

theorem Outcome.ok_andThen (w : World) (k : World → Outcome) : (Outcome.ok w).andThen k = k w := rfl

theorem emailObject_eq_some {e : Option Email} {email : Email} (h : emailObject e = some email) :
    e = some email := by
  cases e with
  | none => simp [emailObject] at h
  | some e0 =>
    simp only [emailObject] at h
    split_ifs at h
    exact h

theorem dataObject_delay {data d : NodeData} (h : dataObject data = some d) :
    d.delay = data.delay := by
  unfold dataObject at h
  split_ifs at h
  cases h
  rfl

theorem dataObject_email {data d : NodeData} (h : dataObject data = some d) :
    d.email = emailObject data.email := by
  unfold dataObject at h
  split_ifs at h
  cases h
  rfl

theorem dataObject_of_email {data : NodeData} {email : Email}
    (h : emailObject data.email = some email) :
    dataObject data = some { data with email := some email } := by
  unfold dataObject
  rw [h]
  simp

theorem traverse_nodata (env : Env) (fuel : Nat) (node : Node) (graph : Graph) (flowId : Nat)
    (d : JsNum) (w : World) (nodeObj : GraphNode) (h : graph node.id = some nodeObj)
    (ht : nodeObj.type ≠ .leadSource) (hd : dataObject nodeObj.data = none) :
    traverseAndSchedule env (fuel + 1) (some node) graph flowId d w = .threw .typeError w := by
  simp only [traverseAndSchedule, h, hd]
  cases hty : nodeObj.type
  · rfl
  · rfl
  · exact absurd hty ht

theorem traverse_wait (env : Env) (fuel : Nat) (node : Node) (graph : Graph) (flowId : Nat)
    (d : JsNum) (w : World) (nodeObj : GraphNode) (data : NodeData)
    (h : graph node.id = some nodeObj) (ht : nodeObj.type = .wait)
    (hd : dataObject nodeObj.data = some data) :
    traverseAndSchedule env (fuel + 1) (some node) graph flowId d w =
      forEachAwait (fun childId w2 =>
        traverseAndSchedule env fuel ((graph childId).map (·.toNode)) graph flowId
          (d + waitDelayMs nodeObj.data.delay) w2) nodeObj.children w := by
  simp only [traverseAndSchedule, h, ht, hd, Outcome.ok_andThen, dataObject_delay hd]

theorem traverse_leadSource (env : Env) (fuel : Nat) (node : Node) (graph : Graph) (flowId : Nat)
    (d : JsNum) (w : World) (nodeObj : GraphNode) (h : graph node.id = some nodeObj)
    (ht : nodeObj.type = .leadSource) :
    traverseAndSchedule env (fuel + 1) (some node) graph flowId d w =
      forEachAwait (fun childId w2 =>
        traverseAndSchedule env fuel ((graph childId).map (·.toNode)) graph flowId d w2)
        nodeObj.children w := by
  simp only [traverseAndSchedule, h, ht]
  cases dataObject nodeObj.data <;> rfl

theorem traverse_coldEmail_none (env : Env) (fuel : Nat) (node : Node) (graph : Graph)
    (flowId : Nat) (d : JsNum) (w : World) (nodeObj : GraphNode) (data : NodeData)
    (h : graph node.id = some nodeObj) (ht : nodeObj.type = .coldEmail)
    (hd : dataObject nodeObj.data = some data) (he : data.email = none) :
    traverseAndSchedule env (fuel + 1) (some node) graph flowId d w =
      forEachAwait (fun childId w2 =>
        traverseAndSchedule env fuel ((graph childId).map (·.toNode)) graph flowId d w2)
        nodeObj.children w := by
  simp only [traverseAndSchedule, h, ht, hd, he, Outcome.ok_andThen]

theorem traverse_coldEmail_some (env : Env) (fuel : Nat) (node : Node) (graph : Graph)
    (flowId : Nat) (d : JsNum) (w : World) (nodeObj : GraphNode) (data : NodeData) (email : Email)
    (h : graph node.id = some nodeObj) (ht : nodeObj.type = .coldEmail)
    (hd : dataObject nodeObj.data = some data) (he : data.email = some email) :
    traverseAndSchedule env (fuel + 1) (some node) graph flowId d w =
      (scheduleEmail env email.to_ email.subject email.body (.num d) (some flowId)
          (some nodeObj.id) w).andThen (fun w1 =>
        forEachAwait (fun childId w2 =>
          traverseAndSchedule env fuel ((graph childId).map (·.toNode)) graph flowId d w2)
          nodeObj.children w1) := by
  simp only [traverseAndSchedule, h, ht, hd, he]

/-! ## Claims on the duration resolver -/

/-- C5, counterexample: the token of `n = 2 ^ 53 + 1` minutes does not resolve to
`n * 60000`, because `parseInt` rounds `n` to the nearest double, `2 ^ 53`. -/
theorem c5_large_token_is_rounded :
    waitDelayMs (some (toString 9007199254740993 ++ "m")) = .fin 540431955284459520000 ∧
    resolveDelay (.str (toString 9007199254740993 ++ "m")) = .num (.fin 540431955284459520000) ∧
    (540431955284459520000 : Int) ≠ ((9007199254740993 * 60000 : Nat) : Int) := by
  decide

/-- C5 (amended): for every non-negative integer `n`, the token made of `n` followed by
`m`, `h` or `d` resolves to `n * 60000`, `n * 3600000` or `n * 86400000` milliseconds,
in the Wait-node resolver and in the string resolver of `scheduleEmail` alike, as long as
that product is at most `2 ^ 53`. -/
theorem c5_unit_token_resolves (n : Nat) :
    (n * 60000 ≤ 2 ^ 53 →
      waitDelayMs (some (toString n ++ "m")) = .fin ((n * 60000 : Nat) : Int) ∧
      resolveDelay (.str (toString n ++ "m")) = .num (.fin ((n * 60000 : Nat) : Int))) ∧
    (n * 3600000 ≤ 2 ^ 53 →
      waitDelayMs (some (toString n ++ "h")) = .fin ((n * 3600000 : Nat) : Int) ∧
      resolveDelay (.str (toString n ++ "h")) = .num (.fin ((n * 3600000 : Nat) : Int))) ∧
    (n * 86400000 ≤ 2 ^ 53 →
      waitDelayMs (some (toString n ++ "d")) = .fin ((n * 86400000 : Nat) : Int) ∧
      resolveDelay (.str (toString n ++ "d")) = .num (.fin ((n * 86400000 : Nat) : Int))) := by
  refine ⟨fun h => ?_, fun h => ?_, fun h => ?_⟩
  · have hu := (unitDelay_minutes n).trans (congrArg some (minutes_exact n h))
    exact ⟨waitDelayMs_of_unitDelay (token_ne_empty n 'm') hu, resolveDelay_of_unitDelay hu⟩
  · have hu := (unitDelay_hours n).trans (congrArg some (hours_exact n h))
    exact ⟨waitDelayMs_of_unitDelay (token_ne_empty n 'h') hu, resolveDelay_of_unitDelay hu⟩
  · have hu := (unitDelay_days n).trans (congrArg some (days_exact n h))
    exact ⟨waitDelayMs_of_unitDelay (token_ne_empty n 'd') hu, resolveDelay_of_unitDelay hu⟩

/-- C5, witness: the tokens "30m", "1h" and "1d". -/
theorem c5_unit_token_resolves_witness :
    (waitDelayMs (some (toString 30 ++ "m")) = .fin ((30 * 60000 : Nat) : Int) ∧
      resolveDelay (.str (toString 30 ++ "m")) = .num (.fin ((30 * 60000 : Nat) : Int))) ∧
    (waitDelayMs (some (toString 1 ++ "h")) = .fin ((1 * 3600000 : Nat) : Int) ∧
      resolveDelay (.str (toString 1 ++ "h")) = .num (.fin ((1 * 3600000 : Nat) : Int))) ∧
    (waitDelayMs (some (toString 1 ++ "d")) = .fin ((1 * 86400000 : Nat) : Int) ∧
      resolveDelay (.str (toString 1 ++ "d")) = .num (.fin ((1 * 86400000 : Nat) : Int))) :=
  ⟨(c5_unit_token_resolves 30).1 (by norm_num), (c5_unit_token_resolves 1).2.1 (by norm_num),
    (c5_unit_token_resolves 1).2.2 (by norm_num)⟩

/-- C6, counterexample: the token "-5m" resolves to a negative delay and the token "xm"
to `NaN`, neither of them to 0. -/
theorem c6_malformed_token_not_zero :
    waitDelayMs (some "-5m") = .fin (-300000) ∧ waitDelayMs (some "xm") = .nan := by
  decide

/-! ## The graph built by `buildGraph` -/

theorem foldl_nodes_apply (nodes : List Node) : ∀ (init : Graph) (id : String),
    (nodes.foldl addNode init) id =
      match lastNodeOf nodes id with
      | some node => some { node with children := [] }
      | none => init id := by
  induction nodes with
  | nil => intro init id; rfl
  | cons n ns ih =>
    intro init id
    rw [List.foldl_cons, ih]
    unfold lastNodeOf
    rw [List.reverse_cons, List.find?_append]
    cases h : List.find? (fun node => decide (node.id = id)) ns.reverse with
    | some m => simp
    | none =>
      by_cases hn : n.id = id
      · simp [addNode, graphSet, hn, List.find?]
      · have hn2 : ¬ id = n.id := fun e => hn e.symm
        simp [addNode, graphSet, hn, hn2, List.find?]

theorem foldl_edges_apply (edges : List Edge) : ∀ (g : Graph) (id : String),
    (edges.foldl addEdge g) id =
      (g id).map (fun gn => { gn with children := gn.children ++ (outEdges edges id).map (·.target) }) := by
  induction edges with
  | nil =>
    intro g id
    cases h : g id <;> simp [outEdges, h]
  | cons e es ih =>
    intro g id
    rw [List.foldl_cons, ih]
    by_cases he : e.source = id
    · subst he
      cases hs : g e.source with
      | none => simp [addEdge, hs]
      | some src => simp [addEdge, hs, graphSet, outEdges, List.filter]
    · have he2 : ¬ id = e.source := fun h => he h.symm
      cases hs : g e.source with
      | none => simp [addEdge, hs, outEdges, List.filter, he]
      | some src => simp [addEdge, hs, graphSet, outEdges, List.filter, he, he2]

/-- Closed form of the graph: `graph[id]` is the last node with that id, with the targets
of the edges leaving `id` as children, in edge order. -/
theorem buildGraph_apply (nodes : List Node) (edges : List Edge) (id : String) :
    buildGraph nodes edges id =
      (lastNodeOf nodes id).map (fun node =>
        ({ node with children := (outEdges edges id).map (·.target) } : GraphNode)) := by
  unfold buildGraph
  rw [foldl_edges_apply, foldl_nodes_apply]
  cases lastNodeOf nodes id <;> simp

theorem lastNodeOf_eq_nodeOf (nodes : List Node) (h : (nodes.map (·.id)).Nodup) (id : String) :
    lastNodeOf nodes id = nodeOf nodes id := by
  unfold lastNodeOf nodeOf
  cases h1 : List.find? (fun node => decide (node.id = id)) nodes.reverse with
  | none =>
    rw [List.find?_eq_none] at h1
    symm
    rw [List.find?_eq_none]
    intro x hx
    exact h1 x (List.mem_reverse.2 hx)
  | some a =>
    cases h2 : List.find? (fun node => decide (node.id = id)) nodes with
    | none =>
      rw [List.find?_eq_none] at h2
      have := h2 a (List.mem_reverse.1 (List.mem_of_find?_eq_some h1))
      exact absurd (List.find?_some h1) this
    | some b =>
      have ha := List.mem_reverse.1 (List.mem_of_find?_eq_some h1)
      have hb := List.mem_of_find?_eq_some h2
      have pa := List.find?_some h1
      have pb := List.find?_some h2
      simp only [decide_eq_true_eq] at pa pb
      congr 1
      exact List.inj_on_of_nodup_map h ha hb (pa.trans pb.symm)

/-- With unique node ids, `graph[id]` is the node of that id with its out-edge targets. -/
theorem buildGraph_of_unique (flow : Flow) (h : UniqueIds flow) (id : String) :
    buildGraph flow.nodes flow.edges id =
      (nodeOf flow.nodes id).map (fun node =>
        ({ node with children := (outEdges flow.edges id).map (·.target) } : GraphNode)) := by
  rw [buildGraph_apply, lastNodeOf_eq_nodeOf _ h]

theorem nodeOf_id {nodes : List Node} {id : String} {node : Node}
    (h : nodeOf nodes id = some node) : node.id = id := by
  have := List.find?_some h
  simpa using this

theorem nodeOf_mem {nodes : List Node} {id : String} {node : Node}
    (h : nodeOf nodes id = some node) : node ∈ nodes :=
  List.mem_of_find?_eq_some h

theorem nodeOf_self (nodes : List Node) (h : (nodes.map (·.id)).Nodup) (node : Node)
    (hn : node ∈ nodes) : nodeOf nodes node.id = some node := by
  cases h2 : nodeOf nodes node.id with
  | none =>
    unfold nodeOf at h2
    rw [List.find?_eq_none] at h2
    exact absurd (by simp) (h2 node hn)
  | some b =>
    congr 1
    exact List.inj_on_of_nodup_map h (nodeOf_mem h2) hn (nodeOf_id h2)

/-! ## The trace of a run -/

theorem jobsOf_append (env : Env) (a : List Call) : ∀ (k : Nat) (b : List Call),
    jobsOf env k (a ++ b) = jobsOf env k a ++ jobsOf env (k + a.length) b := by
  induction a with
  | nil => intro k b; simp [jobsOf]
  | cons c cs ih =>
    intro k b
    simp only [List.cons_append, jobsOf, List.length_cons, List.append_eq]
    rw [ih, show k + 1 + cs.length = k + (cs.length + 1) by omega]

theorem emits_ok (env : Env) (P : Call → Prop) (w : World) : (Outcome.ok w).Emits env P w :=
  ⟨rfl, [], by simp, by simp [jobsOf], by simp⟩

theorem emits_mono (env : Env) {P Q : Call → Prop} (hPQ : ∀ c, P c → Q c) (w : World)
    (o : Outcome) (h : o.Emits env P w) : o.Emits env Q w := by
  cases o with
  | ok w1 =>
    obtain ⟨hf, cs, h1, h2, h3⟩ := h
    exact ⟨hf, cs, h1, h2, fun c hc => hPQ c (h3 c hc)⟩
  | threw e w1 =>
    cases e with
    | typeError =>
      obtain ⟨hf, cs, h1, h2, h3⟩ := h
      exact ⟨hf, cs, h1, h2, fun c hc => hPQ c (h3 c hc)⟩
    | scheduleRejected =>
      obtain ⟨hf, cs, c, h1, h2, h3⟩ := h
      exact ⟨hf, cs, c, h1, h2, fun x hx => hPQ x (h3 x hx)⟩
  | outOfFuel w1 =>
    obtain ⟨hf, cs, h1, h2, h3⟩ := h
    exact ⟨hf, cs, h1, h2, fun c hc => hPQ c (h3 c hc)⟩

theorem emits_trans (env : Env) (P : Call → Prop) (w w1 : World) (o : Outcome)
    (h1 : (Outcome.ok w1).Emits env P w) (h2 : o.Emits env P w1) : o.Emits env P w := by
  obtain ⟨hf, cs, hc, hj, hP⟩ := h1
  have hlen : w1.calls.length = w.calls.length + cs.length := by rw [hc, List.length_append]
  cases o with
  | ok w2 =>
    obtain ⟨hf2, cs2, hc2, hj2, hP2⟩ := h2
    refine ⟨hf2.trans hf, cs ++ cs2, ?_, ?_, ?_⟩
    · rw [hc2, hc, List.append_assoc]
    · rw [hj2, hj, jobsOf_append, hlen, List.append_assoc]
    · intro c hcm
      rcases List.mem_append.1 hcm with h | h
      · exact hP c h
      · exact hP2 c h
  | threw e w2 =>
    cases e with
    | typeError =>
      obtain ⟨hf2, cs2, hc2, hj2, hP2⟩ := h2
      refine ⟨hf2.trans hf, cs ++ cs2, ?_, ?_, ?_⟩
      · rw [hc2, hc, List.append_assoc]
      · rw [hj2, hj, jobsOf_append, hlen, List.append_assoc]
      · intro c hcm
        rcases List.mem_append.1 hcm with h | h
        · exact hP c h
        · exact hP2 c h
    | scheduleRejected =>
      obtain ⟨hf2, cs2, c2, hc2, hj2, hP2⟩ := h2
      refine ⟨hf2.trans hf, cs ++ cs2, c2, ?_, ?_, ?_⟩
      · rw [hc2, hc]; simp [List.append_assoc]
      · rw [hj2, hj, jobsOf_append, hlen, List.append_assoc]
      · intro x hx
        rw [List.append_assoc] at hx
        rcases List.mem_append.1 hx with h | h
        · exact hP x h
        · exact hP2 x h
  | outOfFuel w2 =>
    obtain ⟨hf2, cs2, hc2, hj2, hP2⟩ := h2
    refine ⟨hf2.trans hf, cs ++ cs2, ?_, ?_, ?_⟩
    · rw [hc2, hc, List.append_assoc]
    · rw [hj2, hj, jobsOf_append, hlen, List.append_assoc]
    · intro c hcm
      rcases List.mem_append.1 hcm with h | h
      · exact hP c h
      · exact hP2 c h

theorem emits_andThen (env : Env) (P : Call → Prop) (w : World) (o : Outcome)
    (k : World → Outcome) (h1 : o.Emits env P w) (h2 : ∀ w1, (k w1).Emits env P w1) :
    (o.andThen k).Emits env P w := by
  cases o with
  | ok w1 => exact emits_trans env P w w1 _ h1 (h2 w1)
  | threw e w1 => exact h1
  | outOfFuel w1 => exact h1

theorem emits_forEachAwait (env : Env) (P : Call → Prop) {α : Type} (body : α → World → Outcome)
    (xs : List α) (h : ∀ x ∈ xs, ∀ w, (body x w).Emits env P w) :
    ∀ w, (forEachAwait body xs w).Emits env P w := by
  induction xs with
  | nil => intro w; exact emits_ok env P w
  | cons x xs ih =>
    intro w
    exact emits_andThen env P w _ _ (h x (List.mem_cons_self _ _) w)
      (ih (fun y hy => h y (List.mem_cons_of_mem _ hy)))

theorem emits_scheduleEmail (env : Env) (P : Call → Prop) (to_ subject html : Option String)
    (d : JsNum) (flowId : Option Nat) (nodeId : Option String) (w : World)
    (hP : P ⟨to_, subject, html, .num d, flowId, nodeId⟩) :
    (scheduleEmail env to_ subject html (.num d) flowId nodeId w).Emits env P w := by
  unfold scheduleEmail
  by_cases hk : env.dbOk w.calls.length = true
  · simp only [hk, if_true]
    refine ⟨rfl, [⟨to_, subject, html, .num d, flowId, nodeId⟩], rfl, ?_, ?_⟩
    · simp [jobsOf, jobOf]
    · simpa using hP
  · simp only [hk]
    refine ⟨rfl, [], ⟨to_, subject, html, .num d, flowId, nodeId⟩, rfl, ?_, ?_⟩
    · simp [jobsOf]
    · simpa using hP

/-- Every call a walk makes satisfies a predicate that holds of the call of each Action
node with an email payload and is passed up along every edge. -/
theorem traverse_emits (env : Env) (graph : Graph) (flowId : Nat)
    (P : String → JsNum → Call → Prop)
    (hkey : ∀ k gn, graph k = some gn → gn.id = k)
    (hown : ∀ (d : JsNum) (nodeObj : GraphNode) (email : Email), graph nodeObj.id = some nodeObj →
      nodeObj.type = .coldEmail → nodeObj.data.email = some email →
      P nodeObj.id d ⟨email.to_, email.subject, email.body, .num d, some flowId, some nodeObj.id⟩)
    (hstep : ∀ (d : JsNum) (nodeObj : GraphNode) (c : String) (x : Call),
      graph nodeObj.id = some nodeObj → c ∈ nodeObj.children →
      P c (delayAfter d nodeObj.toNode) x → P nodeObj.id d x) :
    ∀ (fuel : Nat) (node : Node) (d : JsNum) (w : World),
      (traverseAndSchedule env fuel (some node) graph flowId d w).Emits env (P node.id d) w := by
  intro fuel
  induction fuel with
  | zero => intro node d w; exact ⟨rfl, [], by simp, by simp [jobsOf], by simp⟩
  | succ fuel ih =>
    intro node d w
    cases hg : graph node.id with
    | none => rw [traverse_missing env fuel node graph flowId d w hg]; exact emits_ok env _ w
    | some nodeObj =>
      have hid : nodeObj.id = node.id := hkey _ _ hg
      have hg2 : graph nodeObj.id = some nodeObj := by rw [hid]; exact hg
      have hchildren : ∀ d2, d2 = delayAfter d nodeObj.toNode → ∀ w1,
          (forEachAwait (fun childId w2 =>
            traverseAndSchedule env fuel ((graph childId).map (·.toNode)) graph flowId d2 w2)
            nodeObj.children w1).Emits env (P node.id d) w1 := by
        intro d2 hd2 w1
        apply emits_forEachAwait
        intro c hc w2
        cases hgc : graph c with
        | none =>
          cases fuel with
          | zero => exact ⟨rfl, [], by simp, by simp [jobsOf], by simp⟩
          | succ f => exact ⟨rfl, [], by simp, by simp [jobsOf], by simp⟩
        | some gc =>
          have hcid : gc.id = c := hkey _ _ hgc
          have := ih gc.toNode d2 w2
          simp only [Option.map_some']
          refine emits_mono env ?_ w2 _ this
          intro x hx
          rw [← hid]
          apply hstep d nodeObj c x hg2 hc
          rw [← hd2]
          rw [← hcid]
          exact hx
      cases hd : dataObject nodeObj.data with
      | none =>
        by_cases ht : nodeObj.type = .leadSource
        · rw [traverse_leadSource env fuel node graph flowId d w nodeObj hg ht]
          exact hchildren _ (by simp [delayAfter, ht]) w
        · rw [traverse_nodata env fuel node graph flowId d w nodeObj hg ht hd]
          exact ⟨rfl, [], by simp, by simp [jobsOf], by simp⟩
      | some data =>
        cases ht : nodeObj.type with
        | wait =>
          rw [traverse_wait env fuel node graph flowId d w nodeObj data hg ht hd]
          exact hchildren _ (by simp [delayAfter, ht]) w
        | leadSource =>
          rw [traverse_leadSource env fuel node graph flowId d w nodeObj hg ht]
          exact hchildren _ (by simp [delayAfter, ht]) w
        | coldEmail =>
          cases he : data.email with
          | none =>
            rw [traverse_coldEmail_none env fuel node graph flowId d w nodeObj data hg ht hd he]
            exact hchildren _ (by simp [delayAfter, ht]) w
          | some email =>
            rw [traverse_coldEmail_some env fuel node graph flowId d w nodeObj data email hg ht
              hd he]
            apply emits_andThen
            · apply emits_scheduleEmail
              rw [← hid]
              exact hown d nodeObj email hg2 ht
                (emailObject_eq_some ((dataObject_email hd).symm.trans he))
            · exact hchildren _ (by simp [delayAfter, ht])

/-! ## Walks and edge paths -/

theorem buildGraph_key (nodes : List Node) (edges : List Edge) (k : String) (gn : GraphNode)
    (h : buildGraph nodes edges k = some gn) : gn.id = k := by
  rw [buildGraph_apply] at h
  cases hl : lastNodeOf nodes k with
  | none => simp [hl] at h
  | some node =>
    simp only [hl, Option.map_some', Option.some.injEq] at h
    subst h
    have := List.find?_some hl
    simpa using this

theorem foldl_waitOf (nodes : List Node) (id : String) (node : Node) (d : JsNum)
    (h : nodeOf nodes id = some node) :
    (waitOf nodes id).foldl (· + ·) d = delayAfter d node := by
  unfold waitOf delayAfter
  rw [h]
  by_cases ht : node.type = .wait <;> simp [ht]

theorem pathDelayFrom_cons (nodes : List Node) (d : JsNum) (s : String) (e : Edge)
    (p : List Edge) :
    pathDelayFrom nodes d s (e :: p) =
      pathDelayFrom nodes ((waitOf nodes s).foldl (· + ·) d) e.target p := by
  simp only [pathDelayFrom, waitsOn, List.foldl_append]

theorem mem_outEdges {edges : List Edge} {id : String} {e : Edge} (h : e ∈ outEdges edges id) :
    e ∈ edges ∧ e.source = id := by
  unfold outEdges at h
  simpa using h

/-- Every call of a walk from an entry node of a flow with unique ids belongs to an edge
path from that node and carries the Wait durations summed along it. -/
theorem flow_emits_paths (env : Env) (fuel : Nat) (flow : Flow) (hu : UniqueIds flow)
    (w : World) :
    (scheduleEmailsForFlow env fuel flow w).Emits env (fun c =>
      ∃ s ∈ startNodes flow, ∃ p, IsEdgePath flow.edges s.id p ∧
        c.nodeId = some (pathEnd s.id p) ∧ c.flowId = some flow._id ∧
        c.delay = .num (pathDelay flow.nodes s.id p)) w := by
  unfold scheduleEmailsForFlow
  apply emits_forEachAwait
  intro s hs w1
  have key := traverse_emits env (buildGraph flow.nodes flow.edges) flow._id
    (fun id d c => ∃ p, IsEdgePath flow.edges id p ∧ c.nodeId = some (pathEnd id p) ∧
      c.flowId = some flow._id ∧ c.delay = .num (pathDelayFrom flow.nodes d id p))
    (buildGraph_key flow.nodes flow.edges) ?_ ?_ fuel s 0 w1
  · refine emits_mono env ?_ w1 _ key
    intro c hc
    exact ⟨s, hs, hc⟩
  · intro d nodeObj email hg ht he
    refine ⟨[], trivial, rfl, rfl, ?_⟩
    rw [buildGraph_of_unique flow hu] at hg
    cases hn : nodeOf flow.nodes nodeObj.id with
    | none => simp [hn] at hg
    | some node =>
      simp only [hn, Option.map_some', Option.some.injEq] at hg
      have hnode : nodeObj.toNode = node := by rw [← hg]
      simp only [pathDelayFrom, waitsOn]
      rw [foldl_waitOf flow.nodes _ node d hn, delayAfter, ← hnode, if_neg (by rw [ht]; decide)]
  · intro d nodeObj c x hg hc hP
    obtain ⟨p, hp1, hp2, hp3, hp4⟩ := hP
    rw [buildGraph_of_unique flow hu] at hg
    cases hn : nodeOf flow.nodes nodeObj.id with
    | none => simp [hn] at hg
    | some node =>
      simp only [hn, Option.map_some', Option.some.injEq] at hg
      have hnode : nodeObj.toNode = node := by rw [← hg]
      have hch : nodeObj.children = (outEdges flow.edges nodeObj.id).map (·.target) :=
        (congrArg GraphNode.children hg).symm
      rw [hch] at hc
      obtain ⟨e, he, rfl⟩ := List.mem_map.1 hc
      obtain ⟨he1, he2⟩ := mem_outEdges he
      refine ⟨e :: p, ⟨he1, he2, hp1⟩, hp2, hp3, ?_⟩
      rw [pathDelayFrom_cons, foldl_waitOf flow.nodes _ node d hn, ← hnode]
      exact hp4

theorem emits_world (env : Env) (P : Call → Prop) (w : World) (o : Outcome)
    (h : o.Emits env P w) : ∃ cs, o.world.calls = w.calls ++ cs ∧ ∀ c ∈ cs, P c := by
  cases o with
  | ok w1 => obtain ⟨-, cs, h1, -, h3⟩ := h; exact ⟨cs, h1, h3⟩
  | threw e w1 =>
    cases e with
    | typeError => obtain ⟨-, cs, h1, -, h3⟩ := h; exact ⟨cs, h1, h3⟩
    | scheduleRejected => obtain ⟨-, cs, c, h1, -, h3⟩ := h; exact ⟨cs ++ [c], h1, h3⟩
  | outOfFuel w1 => obtain ⟨-, cs, h1, -, h3⟩ := h; exact ⟨cs, h1, h3⟩

theorem unitDelay_isDouble (s : String) (d : JsNum) (h : unitDelay s = some d) : d.IsDouble := by
  unfold unitDelay at h
  split_ifs at h <;> simp only [Option.some.injEq] at h <;> subst h <;>
    exact JsNum.mul_isDouble _ _

theorem unitDelay_getD_isDouble (t : String) : ((unitDelay t).getD 0).IsDouble := by
  cases h : unitDelay t with
  | none => exact JsNum.isDouble_zero
  | some d => exact unitDelay_isDouble t d h

theorem waitDelayMs_isDouble (delay : Option String) : (waitDelayMs delay).IsDouble :=
  unitDelay_getD_isDouble _

/-! ## Claims on the traversal -/

theorem scheduleEmail_calls (env : Env) (to_ subject html : Option String) (delay : Delay)
    (flowId : Option Nat) (nodeId : Option String) (w : World) :
    (scheduleEmail env to_ subject html delay flowId nodeId w).world.calls =
      w.calls ++ [⟨to_, subject, html, delay, flowId, nodeId⟩] := by
  unfold scheduleEmail
  by_cases hk : env.dbOk w.calls.length = true <;> simp [hk, Outcome.world]

/-- C2, counterexample: the visit of an Action node without an email payload emits no
scheduling request. -/
theorem c2_action_without_email_emits_nothing :
    (bareActionNode "A").type = .coldEmail ∧
    traverseAndSchedule (stillEnv 1000) 3 (some (bareActionNode "A"))
      (buildGraph [bareActionNode "A"] []) 7 0 (worldOf []) = .ok (worldOf []) := by
  decide

/-- C2 (amended): the visit of an Action node whose plain object has an email payload makes
exactly one call of `scheduleEmail`, with the recipient, subject and body of the node, the
accumulated delay, the flow id and the node id, and then visits the children with that same
delay; the visit of an Action node that has a data object without an email, of a Source
node, or of a Wait node that has a data object makes no call and goes on to the children,
a Wait node passing on the delay with its duration added; the visit of a Wait node or of
an Action node whose `data` is undefined makes no call and raises a TypeError, leaving the
children unvisited. -/
theorem c2_visit_of_a_node (env : Env) (fuel : Nat) (node : Node) (graph : Graph)
    (flowId : Nat) (d : JsNum) (w : World) (nodeObj : GraphNode)
    (h : graph node.id = some nodeObj) :
    (∀ data email, nodeObj.type = .coldEmail → dataObject nodeObj.data = some data →
      data.email = some email →
      (scheduleEmail env email.to_ email.subject email.body (.num d) (some flowId)
        (some nodeObj.id) w).world.calls =
        w.calls ++ [⟨email.to_, email.subject, email.body, .num d, some flowId, some nodeObj.id⟩] ∧
      traverseAndSchedule env (fuel + 1) (some node) graph flowId d w =
        (scheduleEmail env email.to_ email.subject email.body (.num d) (some flowId)
          (some nodeObj.id) w).andThen (fun w1 =>
          forEachAwait (fun childId w2 =>
            traverseAndSchedule env fuel ((graph childId).map (·.toNode)) graph flowId d w2)
            nodeObj.children w1)) ∧
    (∀ data, nodeObj.type = .coldEmail → dataObject nodeObj.data = some data →
      data.email = none →
      traverseAndSchedule env (fuel + 1) (some node) graph flowId d w =
        forEachAwait (fun childId w2 =>
          traverseAndSchedule env fuel ((graph childId).map (·.toNode)) graph flowId d w2)
          nodeObj.children w) ∧
    (nodeObj.type = .leadSource →
      traverseAndSchedule env (fuel + 1) (some node) graph flowId d w =
        forEachAwait (fun childId w2 =>
          traverseAndSchedule env fuel ((graph childId).map (·.toNode)) graph flowId d w2)
          nodeObj.children w) ∧
    (∀ data, nodeObj.type = .wait → dataObject nodeObj.data = some data →
      traverseAndSchedule env (fuel + 1) (some node) graph flowId d w =
        forEachAwait (fun childId w2 =>
          traverseAndSchedule env fuel ((graph childId).map (·.toNode)) graph flowId
            (d + waitDelayMs data.delay) w2) nodeObj.children w) ∧
    (nodeObj.type ≠ .leadSource → dataObject nodeObj.data = none →
      traverseAndSchedule env (fuel + 1) (some node) graph flowId d w = .threw .typeError w) :=
  ⟨fun data email ht hd he => ⟨scheduleEmail_calls env _ _ _ _ _ _ w,
      traverse_coldEmail_some env fuel node graph flowId d w nodeObj data email h ht hd he⟩,
    fun data ht hd he =>
      traverse_coldEmail_none env fuel node graph flowId d w nodeObj data h ht hd he,
    fun ht => traverse_leadSource env fuel node graph flowId d w nodeObj h ht,
    fun data ht hd => by
      rw [traverse_wait env fuel node graph flowId d w nodeObj data h ht hd, dataObject_delay hd],
    fun ht hd => traverse_nodata env fuel node graph flowId d w nodeObj h ht hd⟩

/-- C2, witness: the visit of the Action node `A` of the chain `A -> W -> B`. -/
theorem c2_visit_of_a_node_witness :
    traverseAndSchedule (stillEnv 1000) 3 (some (actionNode "A"))
        (buildGraph chainFlow.nodes chainFlow.edges) 7 0 (worldOf []) =
      (scheduleEmail (stillEnv 1000) (some "lead@example.com") (some "Hello") (some "<p>Hi</p>")
        (.num 0) (some 7) (some "A") (worldOf [])).andThen (fun w1 =>
        forEachAwait (fun childId w2 =>
          traverseAndSchedule (stillEnv 1000) 2
            ((buildGraph chainFlow.nodes chainFlow.edges childId).map (·.toNode))
            (buildGraph chainFlow.nodes chainFlow.edges) 7 0 w2) ["W"] w1) :=
  ((c2_visit_of_a_node (stillEnv 1000) 2 (actionNode "A")
    (buildGraph chainFlow.nodes chainFlow.edges) 7 0 (worldOf [])
    ⟨actionNode "A", ["W"]⟩ (by decide)).1 (actionNode "A").data
    ⟨some "Hello", some "<p>Hi</p>", some "lead@example.com"⟩ rfl (by decide) rfl).2

/-! ## The calls of a terminating walk -/

theorem callOfPath_cons (flow : Flow) (d : JsNum) (s : String) (e : Edge) (p : List Edge) :
    callOfPath flow d s (e :: p) =
      callOfPath flow ((waitOf flow.nodes s).foldl (· + ·) d) e.target p := by
  simp only [callOfPath, pathEnd, pathDelayFrom_cons]

theorem callsFrom_succ (flow : Flow) (k : Nat) (d : JsNum) (s : String) :
    callsFrom flow (k + 1) d s =
      (callOfPath flow d s []).toList ++
        (outEdges flow.edges s).flatMap (fun e =>
          callsFrom flow k ((waitOf flow.nodes s).foldl (· + ·) d) e.target) := by
  unfold callsFrom
  rw [edgePaths, List.filterMap_cons, List.filterMap_flatMap]
  have : ∀ e : Edge, List.filterMap (callOfPath flow d s)
      (List.map (fun x => e :: x) (edgePaths flow.edges k e.target)) =
      List.filterMap (callOfPath flow ((waitOf flow.nodes s).foldl (· + ·) d) e.target)
        (edgePaths flow.edges k e.target) := by
    intro e
    rw [List.filterMap_map]
    congr 1
    funext p
    exact callOfPath_cons flow d s e p
  simp only [this]
  cases callOfPath flow d s [] <;> simp

theorem scheduleEmail_ok (env : Env) (hdb : ∀ k, env.dbOk k = true) (to_ subject html : Option String)
    (delay : Delay) (flowId : Option Nat) (nodeId : Option String) (w : World) :
    ∃ w1, scheduleEmail env to_ subject html delay flowId nodeId w = .ok w1 ∧
      w1.calls = w.calls ++ [⟨to_, subject, html, delay, flowId, nodeId⟩] := by
  unfold scheduleEmail
  simp only [hdb, if_true]
  exact ⟨_, rfl, rfl⟩

/-- On a flow with unique ids, no dangling edge, a data object on every Wait and Action
node and a ranking that falls along every edge, a walk whose fuel exceeds the rank of its
node, every scheduling call resolving, ends normally, having made the calls due for the
edge paths from that node, in depth-first order. -/
theorem traverse_exact (env : Env) (hdb : ∀ k, env.dbOk k = true) (flow : Flow)
    (hu : UniqueIds flow) (hnd : NoDanglingEdges flow) (hdat : NodesHaveData flow)
    (rank : String → Nat) (hr : RankedBy rank flow) :
    ∀ (fuel k : Nat) (s : String) (node : Node) (d : JsNum) (w : World),
      nodeOf flow.nodes s = some node → rank s < fuel → rank s < k →
      ∃ w1, traverseAndSchedule env fuel (some node) (buildGraph flow.nodes flow.edges)
          flow._id d w = .ok w1 ∧ w1.calls = w.calls ++ callsFrom flow k d s := by
  intro fuel
  induction fuel with
  | zero => intro k s node d w _ h; omega
  | succ fuel ih =>
    intro k s node d w hn hf hk
    obtain ⟨k, rfl⟩ : ∃ k1, k = k1 + 1 := ⟨k - 1, by omega⟩
    have hid : node.id = s := nodeOf_id hn
    have hg : buildGraph flow.nodes flow.edges node.id =
        some ⟨node, (outEdges flow.edges s).map (·.target)⟩ := by
      rw [buildGraph_of_unique flow hu, hid, hn]; rfl
    have hd' : (waitOf flow.nodes s).foldl (· + ·) d = delayAfter d node :=
      foldl_waitOf flow.nodes s node d hn
    -- the loop over the children
    have hloop : ∀ (es : List Edge), (∀ e ∈ es, e ∈ flow.edges ∧ e.source = s) → ∀ w1,
        ∃ w2, forEachAwait (fun childId w2 =>
            traverseAndSchedule env fuel
              ((buildGraph flow.nodes flow.edges childId).map (·.toNode))
              (buildGraph flow.nodes flow.edges) flow._id (delayAfter d node) w2)
            (es.map (·.target)) w1 = .ok w2 ∧
          w2.calls = w1.calls ++ es.flatMap (fun e => callsFrom flow k (delayAfter d node) e.target) := by
      intro es
      induction es with
      | nil => intro _ w1; exact ⟨w1, rfl, by simp⟩
      | cons e es ihes =>
        intro hes w1
        obtain ⟨he1, he2⟩ := hes e (List.mem_cons_self _ _)
        have hrk : rank e.target < rank s := by rw [← he2]; exact hr e he1
        obtain ⟨n2, hn2⟩ := Option.isSome_iff_exists.1 (hnd e he1).2
        have hg2 : (buildGraph flow.nodes flow.edges e.target).map (·.toNode) = some n2 := by
          rw [buildGraph_of_unique flow hu, hn2]; rfl
        obtain ⟨w2, hw2, hc2⟩ := ih k e.target n2 (delayAfter d node) w1 hn2 (by omega) (by omega)
        obtain ⟨w3, hw3, hc3⟩ := ihes (fun x hx => hes x (List.mem_cons_of_mem _ hx)) w2
        refine ⟨w3, ?_, ?_⟩
        · simp only [List.map_cons, forEachAwait, hg2, hw2, Outcome.ok_andThen]
          exact hw3
        · rw [hc3, hc2, List.flatMap_cons, List.append_assoc]
    have hall := hloop (outEdges flow.edges s) (fun e he => mem_outEdges he)
    rw [callsFrom_succ, hd']
    cases ht : node.type with
    | wait =>
      obtain ⟨data, hdo⟩ := Option.isSome_iff_exists.1
        (hdat node (nodeOf_mem hn) (by rw [ht]; decide))
      rw [traverse_wait env fuel node _ flow._id d w _ data hg ht hdo]
      have : d + waitDelayMs node.data.delay = delayAfter d node := by simp [delayAfter, ht]
      simp only [this]
      obtain ⟨w2, hw2, hc2⟩ := hall w
      refine ⟨w2, hw2, ?_⟩
      rw [hc2]
      simp [callOfPath, pathEnd, hn, ht]
    | leadSource =>
      rw [traverse_leadSource env fuel node _ flow._id d w _ hg ht]
      have : delayAfter d node = d := by simp [delayAfter, ht]
      rw [this] at hall ⊢
      obtain ⟨w2, hw2, hc2⟩ := hall w
      refine ⟨w2, hw2, ?_⟩
      rw [hc2]
      simp [callOfPath, pathEnd, hn, ht]
    | coldEmail =>
      have : delayAfter d node = d := by simp [delayAfter, ht]
      rw [this] at hall ⊢
      obtain ⟨data, hdo⟩ := Option.isSome_iff_exists.1
        (hdat node (nodeOf_mem hn) (by rw [ht]; decide))
      have hde : emailObject node.data.email = data.email := (dataObject_email hdo).symm
      cases he : data.email with
      | none =>
        rw [he] at hde
        rw [traverse_coldEmail_none env fuel node _ flow._id d w _ data hg ht hdo he]
        obtain ⟨w2, hw2, hc2⟩ := hall w
        refine ⟨w2, hw2, ?_⟩
        rw [hc2]
        simp [callOfPath, pathEnd, hn, ht, hde]
      | some email =>
        rw [he] at hde
        rw [traverse_coldEmail_some env fuel node _ flow._id d w _ data email hg ht hdo he]
        obtain ⟨w1, hw1, hc1⟩ := scheduleEmail_ok env hdb email.to_ email.subject email.body
          (.num d) (some flow._id) (some node.id) w
        obtain ⟨w2, hw2, hc2⟩ := hall w1
        refine ⟨w2, ?_, ?_⟩
        · show (scheduleEmail env email.to_ email.subject email.body (.num d) (some flow._id)
            (some node.id) w).andThen _ = _
          rw [hw1, Outcome.ok_andThen]
          exact hw2
        · rw [hc2, hc1]
          have hpd : pathDelayFrom flow.nodes d s [] = d := by
            simp only [pathDelayFrom, waitsOn]
            rw [hd', this]
          simp [callOfPath, pathEnd, hn, ht, hde, hpd]

theorem entryCalls_eq (flow : Flow) (k : Nat) :
    entryCalls flow k = (startNodes flow).flatMap (fun s => callsFrom flow k 0 s.id) := by
  unfold entryCalls entryPaths callsFrom
  rw [List.filterMap_flatMap]
  congr 1
  funext s
  rw [List.filterMap_map]
  rfl

theorem startNodes_subset (flow : Flow) : ∀ s ∈ startNodes flow, s ∈ flow.nodes := by
  intro s hs
  unfold startNodes at hs
  exact (List.mem_filter.1 hs).1

/-- The whole scheduling of a ranked flow ends normally with the calls due for the edge
paths from its entry nodes. -/
theorem flow_exact (env : Env) (hdb : ∀ i, env.dbOk i = true) (flow : Flow)
    (hu : UniqueIds flow) (hnd : NoDanglingEdges flow) (hdat : NodesHaveData flow)
    (rank : String → Nat) (hr : RankedBy rank flow) (fuel k : Nat)
    (hfuel : ∀ node ∈ flow.nodes, rank node.id < fuel)
    (hk : ∀ node ∈ flow.nodes, rank node.id < k) (w : World) :
    ∃ w1, scheduleEmailsForFlow env fuel flow w = .ok w1 ∧
      w1.calls = w.calls ++ entryCalls flow k := by
  rw [entryCalls_eq]
  unfold scheduleEmailsForFlow
  have hloop : ∀ (l : List Node), (∀ s ∈ l, s ∈ flow.nodes) → ∀ w0,
      ∃ w1, forEachAwait (fun startNode w1 =>
          traverseAndSchedule env fuel (some startNode) (buildGraph flow.nodes flow.edges)
            flow._id 0 w1) l w0 = .ok w1 ∧
        w1.calls = w0.calls ++ l.flatMap (fun s => callsFrom flow k 0 s.id) := by
    intro l
    induction l with
    | nil => intro _ w0; exact ⟨w0, rfl, by simp⟩
    | cons s l ihl =>
      intro hl w0
      have hs := hl s (List.mem_cons_self _ _)
      obtain ⟨w1, hw1, hc1⟩ := traverse_exact env hdb flow hu hnd hdat rank hr fuel k s.id s 0 w0
        (nodeOf_self flow.nodes hu s hs) (hfuel s hs) (hk s hs)
      obtain ⟨w2, hw2, hc2⟩ := ihl (fun x hx => hl x (List.mem_cons_of_mem _ hx)) w1
      refine ⟨w2, ?_, ?_⟩
      · simp only [forEachAwait, hw1, Outcome.ok_andThen]
        exact hw2
      · rw [hc2, hc1, List.flatMap_cons, List.append_assoc]
  exact hloop (startNodes flow) (startNodes_subset flow) w

theorem countP_jobsOf (env : Env) (id : String) (cs : List Call) : ∀ k,
    (jobsOf env k cs).countP (fun j => j.data.nodeId == some id) =
      cs.countP (fun c => c.nodeId == some id) := by
  induction cs with
  | nil => intro k; rfl
  | cons c cs ih =>
    intro k
    simp only [jobsOf, List.countP_cons, ih, jobOf]

theorem callOfPath_nodeId (flow : Flow) (hu : UniqueIds flow) (hem : ActionsHaveEmail flow)
    (a : Node) (ha : a ∈ flow.nodes) (hta : a.type = .coldEmail) (d : JsNum) (s : String)
    (p : List Edge) :
    (callOfPath flow d s p).any (fun c => c.nodeId == some a.id) = (pathEnd s p == a.id) := by
  by_cases hend : pathEnd s p = a.id
  · have hn : nodeOf flow.nodes a.id = some a := nodeOf_self flow.nodes hu a ha
    obtain ⟨email, he⟩ := Option.isSome_iff_exists.1 (hem a ha hta)
    simp [callOfPath, hn, hta, he, hend]
  · cases hn : nodeOf flow.nodes (pathEnd s p) with
    | none => simp [callOfPath, hn, hend]
    | some node =>
      have hid := nodeOf_id hn
      have hne : ¬ node.id = a.id := by rw [hid]; exact hend
      unfold callOfPath
      simp only [hn]
      split <;> simp [hne, hend]

theorem diamond_entryCalls (t1 t2 : String) :
    entryCalls (diamondFlow t1 t2) 3 =
      [exampleCall "B" (waitDelayMs (some t1)), exampleCall "B" (waitDelayMs (some t2))] := by
  have h1 := JsNum.zero_add (waitDelayMs_isDouble (some t1))
  have h2 := JsNum.zero_add (waitDelayMs_isDouble (some t2))
  simp [entryCalls, entryPaths, startNodes, diamondFlow, mkFlow, waitNode, actionNode, edgePaths,
    outEdges, callOfPath, emailObject, pathEnd, nodeOf, pathDelayFrom, waitsOn, waitOf, h1, h2,
    exampleCall]


/-- The list `edgePaths edges k s` holds exactly the edge paths from `s` with fewer than
`k` edges. -/
theorem mem_edgePaths (edges : List Edge) : ∀ (k : Nat) (s : String) (p : List Edge),
    p ∈ edgePaths edges k s ↔ IsEdgePath edges s p ∧ p.length < k := by
  intro k
  induction k with
  | zero => intro s p; simp [edgePaths]
  | succ k ih =>
    intro s p
    cases p with
    | nil => simp [edgePaths, IsEdgePath]
    | cons e q =>
      simp only [edgePaths, List.mem_cons, List.mem_flatMap, List.mem_map, IsEdgePath,
        List.length_cons, Nat.add_lt_add_iff_right]
      constructor
      · rintro (h | ⟨e2, he2, q2, hq2, heq⟩)
        · cases h
        · obtain ⟨rfl, rfl⟩ := List.cons.inj heq
          obtain ⟨h1, h2⟩ := mem_outEdges he2
          obtain ⟨h3, h4⟩ := (ih _ _).1 hq2
          exact ⟨⟨h1, h2, h3⟩, h4⟩
      · rintro ⟨⟨h1, h2, h3⟩, h4⟩
        refine Or.inr ⟨e, ?_, q, (ih _ _).2 ⟨h3, h4⟩, rfl⟩
        unfold outEdges
        simp [h1, h2]

theorem edgePath_length_le_rank (flow : Flow) (rank : String → Nat) (hr : RankedBy rank flow) :
    ∀ (p : List Edge) (s : String), IsEdgePath flow.edges s p → p.length ≤ rank s := by
  intro p
  induction p with
  | nil => intro s _; exact Nat.zero_le _
  | cons e p ih =>
    intro s h
    obtain ⟨h1, h2, h3⟩ := h
    have := ih e.target h3
    have := hr e h1
    rw [h2] at this
    simp only [List.length_cons]
    omega

/-- In a ranked flow, `entryPaths flow k` lists every edge path from an entry node as soon
as `k` exceeds the ranks. -/
theorem mem_entryPaths (flow : Flow) (rank : String → Nat) (hr : RankedBy rank flow) (k : Nat)
    (hk : ∀ node ∈ flow.nodes, rank node.id < k) (id : String) (p : List Edge) :
    (id, p) ∈ entryPaths flow k ↔
      (∃ s ∈ startNodes flow, s.id = id) ∧ IsEdgePath flow.edges id p := by
  unfold entryPaths
  simp only [List.mem_flatMap, List.mem_map, Prod.mk.injEq]
  constructor
  · rintro ⟨s, hs, q, hq, rfl, rfl⟩
    exact ⟨⟨s, hs, rfl⟩, ((mem_edgePaths _ _ _ _).1 hq).1⟩
  · rintro ⟨⟨s, hs, rfl⟩, hp⟩
    refine ⟨s, hs, p, (mem_edgePaths _ _ _ _).2 ⟨hp, ?_⟩, rfl, rfl⟩
    have h1 := edgePath_length_le_rank flow rank hr p s.id hp
    have h2 := hk s (startNodes_subset flow s hs)
    omega

theorem emits_ok_jobs (env : Env) (P : Call → Prop) (w w1 : World) (cs : List Call)
    (h : (Outcome.ok w1).Emits env P w) (hc : w1.calls = w.calls ++ cs) :
    w1.jobs = w.jobs ++ jobsOf env w.calls.length cs ∧ w1.flows = w.flows := by
  obtain ⟨hf, cs2, h1, h2, -⟩ := h
  have : cs2 = cs := List.append_cancel_left (h1.symm.trans hc)
  subst this
  exact ⟨h2, hf⟩

theorem twoWaits_entryCalls (t1 t2 : String) :
    entryCalls (twoWaitsFlow t1 t2) 3 =
      [exampleCall "B" (waitDelayMs (some t1) + waitDelayMs (some t2))] := by
  have h1 := JsNum.zero_add (waitDelayMs_isDouble (some t1))
  simp [entryCalls, entryPaths, startNodes, twoWaitsFlow, mkFlow, waitNode, actionNode, edgePaths,
    outEdges, callOfPath, emailObject, pathEnd, nodeOf, pathDelayFrom, waitsOn, waitOf, h1,
    exampleCall]

theorem twoWaits_calls (t1 t2 : String) :
    (scheduleEmailsForFlow (stillEnv 1000) 3 (twoWaitsFlow t1 t2) (worldOf [])).world.calls =
      [exampleCall "B" (waitDelayMs (some t1) + waitDelayMs (some t2))] := by
  obtain ⟨w1, hw1, hc1⟩ := flow_exact (stillEnv 1000) (fun _ => rfl) (twoWaitsFlow t1 t2)
    (by simp [UniqueIds, twoWaitsFlow, mkFlow, waitNode, actionNode])
    (by
      intro e he
      simp only [twoWaitsFlow, mkFlow, List.mem_cons, List.mem_singleton, List.not_mem_nil,
        or_false] at he
      rcases he with rfl | rfl <;> simp [twoWaitsFlow, mkFlow, nodeOf, waitNode, actionNode])
    (by
      intro n hn _
      simp only [twoWaitsFlow, mkFlow, List.mem_cons, List.mem_singleton, List.not_mem_nil,
        or_false] at hn
      rcases hn with rfl | rfl | rfl <;> simp [waitNode, actionNode, dataObject, emailObject])
    exampleRank
    (by
      intro e he
      simp only [twoWaitsFlow, mkFlow, List.mem_cons, List.mem_singleton, List.not_mem_nil,
        or_false] at he
      rcases he with rfl | rfl <;> decide)
    3 3
    (by
      intro n hn
      simp only [twoWaitsFlow, mkFlow, List.mem_cons, List.mem_singleton, List.not_mem_nil,
        or_false] at hn
      rcases hn with rfl | rfl | rfl <;> simp [waitNode, actionNode, exampleRank])
    (by
      intro n hn
      simp only [twoWaitsFlow, mkFlow, List.mem_cons, List.mem_singleton, List.not_mem_nil,
        or_false] at hn
      rcases hn with rfl | rfl | rfl <;> simp [waitNode, actionNode, exampleRank])
    (worldOf [])
  rw [hw1, Outcome.world, hc1, twoWaits_entryCalls]
  rfl

/-- C1: in a flow with unique node ids, every call of `scheduleEmail` made while walking
from the entry nodes carries as delay the sum, started at 0 for each entry node, of the
resolved durations of the Wait nodes on an edge path from an entry node to the node the
call is for; along a path through two Wait nodes and then another node that sum is
`d1 + d2`, as on the flow `W1 -> W2 -> B` whatever the tokens of the two Wait nodes. -/
theorem c1_delay_is_path_sum (env : Env) (fuel : Nat) (flow : Flow) (w : World)
    (hu : UniqueIds flow) :
    (∃ cs, (scheduleEmailsForFlow env fuel flow w).world.calls = w.calls ++ cs ∧
      ∀ c ∈ cs, ∃ s ∈ startNodes flow, ∃ p, IsEdgePath flow.edges s.id p ∧
        c.nodeId = some (pathEnd s.id p) ∧ c.flowId = some flow._id ∧
        c.delay = .num (pathDelay flow.nodes s.id p)) ∧
    (∀ (s : String) (e1 e2 : Edge) (n1 n2 a : Node),
      nodeOf flow.nodes s = some n1 → n1.type = .wait →
      nodeOf flow.nodes e1.target = some n2 → n2.type = .wait →
      nodeOf flow.nodes e2.target = some a → a.type ≠ .wait →
      pathDelay flow.nodes s [e1, e2] = waitDelayMs n1.data.delay + waitDelayMs n2.data.delay) ∧
    (∀ t1 t2 : String,
      (scheduleEmailsForFlow (stillEnv 1000) 3 (twoWaitsFlow t1 t2) (worldOf [])).world.calls =
        [exampleCall "B" (waitDelayMs (some t1) + waitDelayMs (some t2))]) := by
  refine ⟨emits_world env _ w _ (flow_emits_paths env fuel flow hu w), ?_, twoWaits_calls⟩
  intro s e1 e2 n1 n2 a h1 t1 h2 t2 h3 t3
  simp only [pathDelay, pathDelayFrom, waitsOn, waitOf, h1, h2, h3, t1, t2, t3, if_true, if_false,
    List.cons_append, List.nil_append, List.append_nil, List.foldl_cons, List.foldl_nil]
  rw [JsNum.zero_add (waitDelayMs_isDouble _)]

/-- C1, witness: the chain `A -> W("1h") -> B`. -/
theorem c1_delay_is_path_sum_witness :
    ∃ cs, (scheduleEmailsForFlow (stillEnv 1000) 3 chainFlow (worldOf [])).world.calls =
        (worldOf []).calls ++ cs ∧
      ∀ c ∈ cs, ∃ s ∈ startNodes chainFlow, ∃ p, IsEdgePath chainFlow.edges s.id p ∧
        c.nodeId = some (pathEnd s.id p) ∧ c.flowId = some chainFlow._id ∧
        c.delay = .num (pathDelay chainFlow.nodes s.id p) :=
  (c1_delay_is_path_sum (stillEnv 1000) 3 chainFlow (worldOf []) (by unfold UniqueIds; decide)).1

theorem nodesHaveData_of (flow : Flow) (hem : ActionsHaveEmail flow)
    (hwd : WaitsHaveData flow) : NodesHaveData flow := by
  intro node hn ht
  cases hty : node.type with
  | wait => exact hwd node hn hty
  | leadSource => exact absurd hty ht
  | coldEmail =>
    obtain ⟨email, he⟩ := Option.isSome_iff_exists.1 (hem node hn hty)
    rw [dataObject_of_email he]
    rfl

/-- C3, counterexample: the flow `W -> B`, a Wait node with no field of its data set before
an Action node, is acyclic, has unique ids, no dangling edge and an email payload on its
Action node, and one edge path leads from its entry node to `B`; its scheduling raises a
TypeError at `W` and makes no call and no job for `B`, and its activation answers 500. -/
theorem c3_wait_without_data_schedules_nothing :
    UniqueIds emptyWaitFlow ∧ NoDanglingEdges emptyWaitFlow ∧
    RankedBy exampleRank emptyWaitFlow ∧ ActionsHaveEmail emptyWaitFlow ∧
    (entryPaths emptyWaitFlow 3).countP (fun sp => pathEnd sp.1 sp.2 == "B") = 1 ∧
    scheduleEmailsForFlow (stillEnv 1000) 3 emptyWaitFlow (worldOf []) =
      .threw .typeError (worldOf []) ∧
    activateFlow (stillEnv 1000) 3 ⟨7, 1⟩ (worldOf [emptyWaitFlow]) =
      some (⟨500, false, none⟩, worldOf [emptyWaitFlow]) :=
  ⟨by unfold UniqueIds; decide, by unfold NoDanglingEdges; decide,
    by unfold RankedBy; decide, by unfold ActionsHaveEmail; decide, by decide, by decide,
    by decide⟩

/-- C3 (amended): on an acyclic flow (ranked by `rank`) with unique node ids, no dangling
edge, an email payload on every Action node and a data object on every Wait node, every
scheduling call resolving, `scheduleEmailsForFlow` returns, given fuel above the ranks,
having made one call and persisted one job per edge path from an entry node to an Action
node, in depth-first order, each with the delay of its own path; so the number of jobs for
an Action node is the number of edge paths from entry nodes to it (`entryPaths` lists them
all). On a diamond, where the Action node `B` is the child of two Wait nodes of durations
`d1` and `d2`, exactly two calls are made for `B`, with the delays `d1` and `d2`. -/
theorem c3_one_job_per_path (env : Env) (flow : Flow) (w : World) (rank : String → Nat)
    (fuel k : Nat) (hdb : ∀ i, env.dbOk i = true) (hu : UniqueIds flow)
    (hnd : NoDanglingEdges flow) (hr : RankedBy rank flow) (hem : ActionsHaveEmail flow)
    (hwd : WaitsHaveData flow)
    (hfuel : ∀ node ∈ flow.nodes, rank node.id < fuel)
    (hk : ∀ node ∈ flow.nodes, rank node.id < k) :
    (∃ w1, scheduleEmailsForFlow env fuel flow w = .ok w1 ∧
      w1.calls = w.calls ++ entryCalls flow k ∧
      w1.jobs = w.jobs ++ jobsOf env w.calls.length (entryCalls flow k) ∧
      ∀ a ∈ flow.nodes, a.type = .coldEmail →
        (jobsOf env w.calls.length (entryCalls flow k)).countP
            (fun job => job.data.nodeId == some a.id) =
          (entryPaths flow k).countP (fun sp => pathEnd sp.1 sp.2 == a.id)) ∧
    (∀ id p, (id, p) ∈ entryPaths flow k ↔
      (∃ s ∈ startNodes flow, s.id = id) ∧ IsEdgePath flow.edges id p) ∧
    (∀ t1 t2 : String, ∃ w1, scheduleEmailsForFlow env 3 (diamondFlow t1 t2) w = .ok w1 ∧
      w1.calls = w.calls ++
        [exampleCall "B" (waitDelayMs (some t1)), exampleCall "B" (waitDelayMs (some t2))]) := by
  refine ⟨?_, mem_entryPaths flow rank hr k hk, ?_⟩
  · obtain ⟨w1, hw1, hc1⟩ := flow_exact env hdb flow hu hnd (nodesHaveData_of flow hem hwd)
      rank hr fuel k hfuel hk w
    have hem1 := flow_emits_paths env fuel flow hu w
    rw [hw1] at hem1
    refine ⟨w1, hw1, hc1, (emits_ok_jobs env _ w w1 _ hem1 hc1).1, ?_⟩
    intro a ha hta
    rw [countP_jobsOf]
    unfold entryCalls
    rw [List.countP_filterMap]
    congr 1
    funext sp
    have := callOfPath_nodeId flow hu hem a ha hta 0 sp.1 sp.2
    cases hc : callOfPath flow 0 sp.1 sp.2 with
    | none => rw [hc] at this; simpa using this
    | some c => rw [hc] at this; simpa using this
  · intro t1 t2
    have hex := flow_exact env hdb (diamondFlow t1 t2)
      (by simp [UniqueIds, diamondFlow, mkFlow, waitNode, actionNode])
      (by
        intro e he
        simp only [diamondFlow, mkFlow, List.mem_cons, List.mem_singleton, List.not_mem_nil,
          or_false] at he
        rcases he with rfl | rfl <;> simp [diamondFlow, mkFlow, nodeOf, waitNode, actionNode])
      (by
        intro n hn _
        simp only [diamondFlow, mkFlow, List.mem_cons, List.mem_singleton, List.not_mem_nil,
          or_false] at hn
        rcases hn with rfl | rfl | rfl <;> simp [waitNode, actionNode, dataObject, emailObject])
      exampleRank
      (by
        intro e he
        simp only [diamondFlow, mkFlow, List.mem_cons, List.mem_singleton, List.not_mem_nil,
          or_false] at he
        rcases he with rfl | rfl <;> decide)
      3 3
      (by
        intro n hn
        simp only [diamondFlow, mkFlow, List.mem_cons, List.mem_singleton, List.not_mem_nil,
          or_false] at hn
        rcases hn with rfl | rfl | rfl <;> simp [waitNode, actionNode, exampleRank])
      (by
        intro n hn
        simp only [diamondFlow, mkFlow, List.mem_cons, List.mem_singleton, List.not_mem_nil,
          or_false] at hn
        rcases hn with rfl | rfl | rfl <;> simp [waitNode, actionNode, exampleRank])
      w
    rw [diamond_entryCalls] at hex
    exact hex

/-- C3, witness: the diamond with the tokens "1m" and "2m", a still clock. -/
theorem c3_one_job_per_path_witness :
    ∃ w1, scheduleEmailsForFlow (stillEnv 1000) 3 (diamondFlow "1m" "2m") (worldOf []) = .ok w1 ∧
      w1.calls = (worldOf []).calls ++ entryCalls (diamondFlow "1m" "2m") 3 ∧
      w1.jobs = (worldOf []).jobs ++
        jobsOf (stillEnv 1000) (worldOf []).calls.length (entryCalls (diamondFlow "1m" "2m") 3) ∧
      ∀ a ∈ (diamondFlow "1m" "2m").nodes, a.type = .coldEmail →
        (jobsOf (stillEnv 1000) (worldOf []).calls.length
            (entryCalls (diamondFlow "1m" "2m") 3)).countP
            (fun job => job.data.nodeId == some a.id) =
          (entryPaths (diamondFlow "1m" "2m") 3).countP (fun sp => pathEnd sp.1 sp.2 == a.id) :=
  (c3_one_job_per_path (stillEnv 1000) (diamondFlow "1m" "2m") (worldOf []) exampleRank 3 3
    (fun _ => rfl) (by unfold UniqueIds; decide) (by unfold NoDanglingEdges; decide)
    (by unfold RankedBy; decide) (by unfold ActionsHaveEmail; decide)
    (by unfold WaitsHaveData; decide) (by decide) (by decide)).1

/-! ## Claims on the job store and on graph defects -/

/-- C10: after `cancelScheduledEmails f` no job owned by flow `f` is left, pending or
not; the jobs owned by another flow or by no flow are the same as before, in the same
order, the flow collection is untouched, and a second call with the same `f` changes
nothing and removes no job. -/
theorem c10_cancel_by_owner (w : World) (f : Nat) :
    (∀ job ∈ (cancelScheduledEmails f w).jobs, job.data.flowId ≠ some f) ∧
    (cancelScheduledEmails f w).jobs.filter (fun job => job.data.flowId != some f) =
      w.jobs.filter (fun job => job.data.flowId != some f) ∧
    (∀ job, job.data.flowId ≠ some f →
      (cancelScheduledEmails f w).jobs.count job = w.jobs.count job) ∧
    (cancelScheduledEmails f w).flows = w.flows ∧
    cancelScheduledEmails f (cancelScheduledEmails f w) = cancelScheduledEmails f w ∧
    (cancelScheduledEmails f (cancelScheduledEmails f w)).jobs.length =
      (cancelScheduledEmails f w).jobs.length := by
  have hidem : cancelScheduledEmails f (cancelScheduledEmails f w) = cancelScheduledEmails f w := by
    simp [cancelScheduledEmails, List.filter_filter]
  refine ⟨?_, ?_, ?_, rfl, hidem, by rw [hidem]⟩
  · intro job hj
    simp only [cancelScheduledEmails, List.mem_filter, bne_iff_ne, ne_eq] at hj
    exact hj.2
  · simp [cancelScheduledEmails, List.filter_filter]
  · intro job hj
    simp only [cancelScheduledEmails]
    rw [List.count_filter]
    simpa using hj

/-- C7, the code at the failing inputs: an edge to a missing node makes the walk raise a
TypeError once the job of `A` is stored, where the flow without that edge returns normally;
an edge from a missing node removes `A` from the entry nodes, so that nothing is scheduled,
where the flow without that edge schedules the email of `A`. -/
theorem c7_dangling_edge_not_ignored :
    scheduleEmailsForFlow (stillEnv 1000) 3 danglingTargetFlow (worldOf []) =
      .threw .typeError ⟨[exampleJob "A" 1000], [], [exampleCall "A" 0]⟩ ∧
    scheduleEmailsForFlow (stillEnv 1000) 3 (mkFlow [actionNode "A"] []) (worldOf []) =
      .ok ⟨[exampleJob "A" 1000], [], [exampleCall "A" 0]⟩ ∧
    startNodes danglingSourceFlow = [] ∧
    startNodes (mkFlow [actionNode "A"] []) = [actionNode "A"] ∧
    scheduleEmailsForFlow (stillEnv 1000) 3 danglingSourceFlow (worldOf []) = .ok (worldOf []) := by
  decide

/-- C8, counterexample: a flow in which two nodes share an id, and a flow whose only node
has an incoming edge, are both scheduled without any error, and activation sets the status
of each to scheduled. -/
theorem c8_graph_defects_not_detected :
    scheduleEmailsForFlow (stillEnv 1000) 3 duplicateIdFlow (worldOf [duplicateIdFlow]) =
      .ok ⟨[exampleJob "a" 1000, exampleJob "a" 1000], [duplicateIdFlow],
        [exampleCall "a" 0, exampleCall "a" 0]⟩ ∧
    (activateFlow (stillEnv 1000) 3 ⟨7, 1⟩ (worldOf [duplicateIdFlow])).map (·.1) =
      some ⟨200, true, some (activated duplicateIdFlow)⟩ ∧
    startNodes selfLoopFlow = [] ∧
    activateFlow (stillEnv 1000) 3 ⟨7, 1⟩ (worldOf [selfLoopFlow]) =
      some (⟨200, true, some (activated selfLoopFlow)⟩, worldOf [activated selfLoopFlow]) := by
  decide

theorem forEachAwait_nil {α : Type} (body : α → World → Outcome) (w : World) :
    forEachAwait body [] w = .ok w := rfl

/-- C8 (amended): graph defects raise no error. Under an id shared by several nodes the
graph holds the last of them, with the targets of the edges leaving that id as children;
and for a flow with no entry node `scheduleEmailsForFlow` returns normally with the world
unchanged, after which `activateFlow` answers 200 and stores the flow as active and
scheduled. -/
theorem c8_no_entry_node_is_scheduled (env : Env) (fuel : Nat) (req : Request) (w : World)
    (flow : Flow) (hfind : findById w req.id = some flow) (huser : flow.user = req.user)
    (hstart : startNodes flow = []) :
    (∀ id, buildGraph flow.nodes flow.edges id =
      (lastNodeOf flow.nodes id).map (fun node =>
        ({ node with children := (outEdges flow.edges id).map (·.target) } : GraphNode))) ∧
    scheduleEmailsForFlow env fuel flow w = .ok w ∧
    activateFlow env fuel req w =
      some (⟨200, true, some (activated flow)⟩, save (activated flow) w) := by
  have hs : scheduleEmailsForFlow env fuel flow w = .ok w := by
    unfold scheduleEmailsForFlow
    rw [hstart]
    rfl
  refine ⟨buildGraph_apply flow.nodes flow.edges, hs, ?_⟩
  unfold activateFlow
  rw [hfind]
  simp only [huser, hs, ne_eq, not_true_eq_false, if_false]

/-- C8, witness: the flow whose only node has an edge to itself. -/
theorem c8_no_entry_node_is_scheduled_witness :
    scheduleEmailsForFlow (stillEnv 1000) 3 selfLoopFlow (worldOf [selfLoopFlow]) =
      .ok (worldOf [selfLoopFlow]) ∧
    activateFlow (stillEnv 1000) 3 ⟨7, 1⟩ (worldOf [selfLoopFlow]) =
      some (⟨200, true, some (activated selfLoopFlow)⟩,
        save (activated selfLoopFlow) (worldOf [selfLoopFlow])) :=
  (c8_no_entry_node_is_scheduled (stillEnv 1000) 3 ⟨7, 1⟩ (worldOf [selfLoopFlow]) selfLoopFlow
    (by decide) (by decide) (by decide)).2

/-! ## Claims on activation -/

/-- Every call of a scheduling run, on any flow, passes a Number as delay, and the jobs
stored follow the calls. -/
theorem flow_emits_num (env : Env) (fuel : Nat) (flow : Flow) (w : World) :
    (scheduleEmailsForFlow env fuel flow w).Emits env (fun c => ∃ d, c.delay = .num d) w := by
  unfold scheduleEmailsForFlow
  apply emits_forEachAwait
  intro s _ w1
  exact traverse_emits env (buildGraph flow.nodes flow.edges) flow._id
    (fun _ _ c => ∃ d, c.delay = .num d) (buildGraph_key flow.nodes flow.edges)
    (fun d _ _ _ _ _ => ⟨d, rfl⟩) (fun _ _ _ _ _ _ h => h) fuel s 0 w1

theorem emits_take (env : Env) (P : Call → Prop) (w : World) (o : Outcome)
    (h : o.Emits env P w) :
    o.world.flows = w.flows ∧ ∃ cs n, o.world.calls = w.calls ++ cs ∧ cs.length ≤ n + 1 ∧
      o.world.jobs = w.jobs ++ jobsOf env w.calls.length (cs.take n) ∧ ∀ c ∈ cs, P c := by
  cases o with
  | ok w1 =>
    obtain ⟨hf, cs, h1, h2, h3⟩ := h
    exact ⟨hf, cs, cs.length, h1, by omega, by simpa using h2, h3⟩
  | threw e w1 =>
    cases e with
    | typeError =>
      obtain ⟨hf, cs, h1, h2, h3⟩ := h
      exact ⟨hf, cs, cs.length, h1, by omega, by simpa using h2, h3⟩
    | scheduleRejected =>
      obtain ⟨hf, cs, c, h1, h2, h3⟩ := h
      exact ⟨hf, cs ++ [c], cs.length, h1, by simp, by simpa using h2, h3⟩
  | outOfFuel w1 =>
    obtain ⟨hf, cs, h1, h2, h3⟩ := h
    exact ⟨hf, cs, cs.length, h1, by omega, by simpa using h2, h3⟩

theorem save_jobs (flow : Flow) (w : World) : (save flow w).jobs = w.jobs := rfl
theorem save_calls (flow : Flow) (w : World) : (save flow w).calls = w.calls := rfl

/-- C9, counterexample: with a scheduler that rejects the second job, activating the
chain `A -> W -> B` answers 500 and leaves the job of `A` stored, one of the two jobs a
fault-free activation stores, while the flow document stays in draft, not failed. -/
theorem c9_partial_activation :
    activateFlow (rejectingEnv 1000) 3 ⟨7, 1⟩ (worldOf [chainFlow]) =
      some (⟨500, false, none⟩, chainAfterRejection) ∧
    chainAfterRejection.jobs = [exampleJob "A" 1000] ∧
    chainAfterRejection.flows = [chainFlow] ∧
    chainFlow.executionStatus = .draft ∧
    (activateFlow (stillEnv 1000) 3 ⟨7, 1⟩ (worldOf [chainFlow])).map (·.2.jobs) =
      some [exampleJob "A" 1000, exampleJob "B" 3601000] := by
  decide

/-- C9 (amended): an activation that answers ends in one of two ways. Either the
scheduling returned: the answer is 200, the flow is stored active and scheduled, and the
job of every call of the traversal is stored. Or the scheduling raised: the answer is an
error, the flow collection is left as it was (the status is not set to failed), and the
jobs stored before the failure stay: those of all the calls made, but at most the last. -/
theorem c9_activation_outcomes (env : Env) (fuel : Nat) (req : Request) (w w1 : World)
    (r : Response) (h : activateFlow env fuel req w = some (r, w1)) :
    ∃ cs, w1.calls = w.calls ++ cs ∧
      ((∃ flow, findById w req.id = some flow ∧ r = ⟨200, true, some (activated flow)⟩ ∧
          w1.flows = (save (activated flow) w).flows ∧
          w1.jobs = w.jobs ++ jobsOf env w.calls.length cs) ∨
        (r.success = false ∧ w1.flows = w.flows ∧
          ∃ n, cs.length ≤ n + 1 ∧ w1.jobs = w.jobs ++ jobsOf env w.calls.length (cs.take n))) := by
  unfold activateFlow at h
  cases hfind : findById w req.id with
  | none =>
    simp only [hfind, Option.some.injEq, Prod.mk.injEq] at h
    obtain ⟨rfl, rfl⟩ := h
    exact ⟨[], by simp, Or.inr ⟨rfl, rfl, 0, by simp, by simp [jobsOf]⟩⟩
  | some flow =>
    simp only [hfind] at h
    by_cases hu : flow.user ≠ req.user
    · rw [if_pos hu] at h
      simp only [Option.some.injEq, Prod.mk.injEq] at h
      obtain ⟨rfl, rfl⟩ := h
      exact ⟨[], by simp, Or.inr ⟨rfl, rfl, 0, by simp, by simp [jobsOf]⟩⟩
    · rw [if_neg hu] at h
      have hem := flow_emits_num env fuel flow w
      cases ho : scheduleEmailsForFlow env fuel flow w with
      | ok w2 =>
        rw [ho] at h hem
        simp only [Option.some.injEq, Prod.mk.injEq] at h
        obtain ⟨rfl, rfl⟩ := h
        obtain ⟨hf, cs, h1, h2, -⟩ := hem
        refine ⟨cs, h1, Or.inl ⟨flow, rfl, rfl, ?_, h2⟩⟩
        simp only [save, hf]
      | threw e w2 =>
        rw [ho] at h hem
        simp only [Option.some.injEq, Prod.mk.injEq] at h
        obtain ⟨rfl, rfl⟩ := h
        obtain ⟨hf, cs, n, h1, h2, h3, -⟩ := emits_take env _ w _ hem
        exact ⟨cs, h1, Or.inr ⟨rfl, hf, n, h2, h3⟩⟩
      | outOfFuel w2 =>
        rw [ho] at h
        simp at h

/-- C9, witness: the activation of the chain with a scheduler that rejects the second job. -/
theorem c9_activation_outcomes_witness :
    ∃ cs, chainAfterRejection.calls = (worldOf [chainFlow]).calls ++ cs ∧
      ((∃ flow, findById (worldOf [chainFlow]) 7 = some flow ∧
          (⟨500, false, none⟩ : Response) = ⟨200, true, some (activated flow)⟩ ∧
          chainAfterRejection.flows = (save (activated flow) (worldOf [chainFlow])).flows ∧
          chainAfterRejection.jobs = (worldOf [chainFlow]).jobs ++
            jobsOf (rejectingEnv 1000) (worldOf [chainFlow]).calls.length cs) ∨
        ((⟨500, false, none⟩ : Response).success = false ∧
          chainAfterRejection.flows = (worldOf [chainFlow]).flows ∧
          ∃ n, cs.length ≤ n + 1 ∧
            chainAfterRejection.jobs = (worldOf [chainFlow]).jobs ++
              jobsOf (rejectingEnv 1000) (worldOf [chainFlow]).calls.length (cs.take n))) :=
  c9_activation_outcomes (rejectingEnv 1000) 3 ⟨7, 1⟩ (worldOf [chainFlow]) chainAfterRejection
    ⟨500, false, none⟩ (by decide)

theorem jobsOf_getElem? (env : Env) (cs : List Call) : ∀ (k i : Nat),
    (jobsOf env k cs)[i]? = (cs[i]?).map (jobOf env (k + i)) := by
  induction cs with
  | nil => intro k i; simp [jobsOf]
  | cons c cs ih =>
    intro k i
    cases i with
    | zero => simp [jobsOf]
    | succ i =>
      simp only [jobsOf, List.getElem?_cons_succ, ih]
      rw [show k + 1 + i = k + (i + 1) by omega]

theorem jobOf_num (env : Env) (k : Nat) (c : Call) (d : JsNum) (h : c.delay = .num d) :
    (jobOf env k c).nextRunAt = some (newDate (.fin (env.now k) + d)) ∧
      (jobOf env k c).data.nodeId = c.nodeId := by
  simp [jobOf, h, resolveDelay, sendTime]

theorem chain_entryCalls :
    entryCalls chainFlow 3 = [exampleCall "A" 0, exampleCall "B" (.fin 3600000)] := by
  decide

theorem newDate_add_small (t d : Nat) (h : t + d ≤ 8640000000000000) :
    newDate (.fin (t : Int) + .fin (d : Int)) = .fin ((t + d : Nat) : Int) := by
  rw [JsNum.fin_add_fin, ← Nat.cast_add, toDouble_small (by omega)]
  simp only [newDate, Int.natAbs_ofNat]
  rw [if_pos h]

theorem activateFlow_jobs (env : Env) (fuel : Nat) (req : Request) (w w1 : World)
    (r : Response) (h : activateFlow env fuel req w = some (r, w1)) :
    ∃ cs n, w1.calls = w.calls ++ cs ∧
      w1.jobs = w.jobs ++ jobsOf env w.calls.length (cs.take n) ∧
      ∀ c ∈ cs, ∃ d, c.delay = .num d := by
  unfold activateFlow at h
  cases hfind : findById w req.id with
  | none =>
    simp only [hfind, Option.some.injEq, Prod.mk.injEq] at h
    obtain ⟨-, rfl⟩ := h
    exact ⟨[], 0, by simp, by simp [jobsOf], by simp⟩
  | some flow =>
    simp only [hfind] at h
    by_cases hu : flow.user ≠ req.user
    · rw [if_pos hu] at h
      simp only [Option.some.injEq, Prod.mk.injEq] at h
      obtain ⟨-, rfl⟩ := h
      exact ⟨[], 0, by simp, by simp [jobsOf], by simp⟩
    · rw [if_neg hu] at h
      obtain ⟨-, cs, n, h1, -, h3, h4⟩ := emits_take env _ w _ (flow_emits_num env fuel flow w)
      cases ho : scheduleEmailsForFlow env fuel flow w with
      | ok w2 =>
        rw [ho] at h h1 h3
        simp only [Option.some.injEq, Prod.mk.injEq] at h
        obtain ⟨-, rfl⟩ := h
        exact ⟨cs, n, h1, h3, h4⟩
      | threw e w2 =>
        rw [ho] at h h1 h3
        simp only [Option.some.injEq, Prod.mk.injEq] at h
        obtain ⟨-, rfl⟩ := h
        exact ⟨cs, n, h1, h3, h4⟩
      | outOfFuel w2 =>
        rw [ho] at h
        simp at h

theorem chain_still_jobs (T : Nat) (hT : T + 3600000 ≤ 8640000000000000) :
    (activateFlow (stillEnv T) 3 ⟨7, 1⟩ (worldOf [chainFlow])).map (·.2.jobs) =
      some [exampleJob "A" T, exampleJob "B" ((T + 3600000 : Nat) : Int)] := by
  obtain ⟨w1, hw1, hc1⟩ := flow_exact (stillEnv T) (fun _ => rfl) chainFlow
    (by unfold UniqueIds; decide) (by unfold NoDanglingEdges; decide)
    (by unfold NodesHaveData; decide) exampleRank
    (by unfold RankedBy; decide) 3 3 (by decide) (by decide) (worldOf [chainFlow])
  have hem := flow_emits_num (stillEnv T) 3 chainFlow (worldOf [chainFlow])
  rw [hw1] at hem
  have hj := (emits_ok_jobs (stillEnv T) _ _ w1 _ hem hc1).1
  rw [chain_entryCalls] at hj
  have hfind : findById (worldOf [chainFlow]) 7 = some chainFlow := by decide
  have h0 := newDate_add_small T 0 (by omega)
  have h1 := newDate_add_small T 3600000 hT
  unfold activateFlow
  simp only [hfind, hw1]
  rw [if_neg (by decide)]
  simp only [Option.map_some', save_jobs, hj]
  simp only [worldOf, List.nil_append, List.length_nil, jobsOf, jobOf, exampleCall, resolveDelay,
    sendTime, stillEnv, exampleJob, JsNum.ofNat_eq]
  simp only [Nat.cast_zero, Nat.add_zero, Nat.cast_ofNat] at h0 h1
  simp only [Nat.cast_zero, h0, h1]

/-- C4, counterexample: with a clock that advances by one millisecond between the two
calls, the jobs of the chain `A -> W("1h") -> B` are due at 1000 and at 3601001, which
are `T` and `T + 3600000` for no single `T`. -/
theorem c4_no_single_anchor :
    (activateFlow (tickingEnv 1000) 3 ⟨7, 1⟩ (worldOf [chainFlow])).map (·.2.jobs) =
      some [exampleJob "A" 1000, exampleJob "B" 3601001] ∧
    ¬ ∃ T : Int, (1000 : Int) = T + 0 ∧ (3601001 : Int) = T + 3600000 := by
  refine ⟨by decide, ?_⟩
  rintro ⟨T, h1, h2⟩
  omega

/-- C4 (amended): every job stored by an activation is due at the date made of the clock
reading of its own `scheduleEmail` call plus the accumulated delay of that call; so when
the clock reads the same `T` at every call, every job is due at `T` plus its delay. With
such a clock the chain `A -> W("1h") -> B` gives the jobs `A` due at `T` and `B` due at
`T + 3600000`. -/
theorem c4_due_at_clock_plus_delay (env : Env) (fuel : Nat) (req : Request) (w w1 : World)
    (r : Response) (h : activateFlow env fuel req w = some (r, w1)) :
    (∃ cs n, w1.calls = w.calls ++ cs ∧
      w1.jobs = w.jobs ++ jobsOf env w.calls.length (cs.take n) ∧
      (∀ i job, (jobsOf env w.calls.length (cs.take n))[i]? = some job →
        ∃ c d, cs[i]? = some c ∧ c.delay = .num d ∧ job.data.nodeId = c.nodeId ∧
          job.nextRunAt = some (newDate (.fin (env.now (w.calls.length + i)) + d))) ∧
      (∀ T, (∀ i, env.now i = T) → ∀ job ∈ jobsOf env w.calls.length (cs.take n),
        ∃ c ∈ cs, ∃ d, c.delay = .num d ∧ job.data.nodeId = c.nodeId ∧
          job.nextRunAt = some (newDate (.fin T + d)))) ∧
    (∀ T : Nat, T + 3600000 ≤ 8640000000000000 →
      (activateFlow (stillEnv T) 3 ⟨7, 1⟩ (worldOf [chainFlow])).map (·.2.jobs) =
        some [exampleJob "A" T, exampleJob "B" ((T + 3600000 : Nat) : Int)]) := by
  refine ⟨?_, chain_still_jobs⟩
  obtain ⟨cs, n, hc, hj, hnum⟩ := activateFlow_jobs env fuel req w w1 r h
  have key : ∀ i job, (jobsOf env w.calls.length (cs.take n))[i]? = some job →
      ∃ c d, cs[i]? = some c ∧ c.delay = .num d ∧ job.data.nodeId = c.nodeId ∧
        job.nextRunAt = some (newDate (.fin (env.now (w.calls.length + i)) + d)) := by
    intro i job hi
    rw [jobsOf_getElem?] at hi
    cases hc2 : (cs.take n)[i]? with
    | none => simp [hc2] at hi
    | some c =>
      simp only [hc2, Option.map_some', Option.some.injEq] at hi
      have hci : cs[i]? = some c := by
        rw [List.getElem?_take] at hc2
        split_ifs at hc2
        · exact hc2
      obtain ⟨d, hd⟩ := hnum c (List.getElem?_mem hci)
      obtain ⟨j1, j2⟩ := jobOf_num env (w.calls.length + i) c d hd
      exact ⟨c, d, hci, hd, hi ▸ j2, hi ▸ j1⟩
  refine ⟨cs, n, hc, hj, key, ?_⟩
  intro T hT job hjob
  obtain ⟨i, hi⟩ := List.mem_iff_getElem?.1 hjob
  obtain ⟨c, d, h1, h2, h3, h4⟩ := key i job hi
  exact ⟨c, List.getElem?_mem h1, d, h2, h3, by rw [h4, hT]⟩

/-- C4, witness: the activation of the chain with a clock standing at 1000. -/
theorem c4_due_at_clock_plus_delay_witness :
    ∃ cs n, (save (activated chainFlow)
        ⟨[exampleJob "A" 1000, exampleJob "B" 3601000], [chainFlow],
          [exampleCall "A" 0, exampleCall "B" (.fin 3600000)]⟩).calls =
        (worldOf [chainFlow]).calls ++ cs ∧
      (save (activated chainFlow)
        ⟨[exampleJob "A" 1000, exampleJob "B" 3601000], [chainFlow],
          [exampleCall "A" 0, exampleCall "B" (.fin 3600000)]⟩).jobs =
        (worldOf [chainFlow]).jobs ++
          jobsOf (stillEnv 1000) (worldOf [chainFlow]).calls.length (cs.take n) ∧
      (∀ i job, (jobsOf (stillEnv 1000) (worldOf [chainFlow]).calls.length (cs.take n))[i]? =
          some job →
        ∃ c d, cs[i]? = some c ∧ c.delay = .num d ∧ job.data.nodeId = c.nodeId ∧
          job.nextRunAt = some (newDate
            (.fin ((stillEnv 1000).now ((worldOf [chainFlow]).calls.length + i)) + d))) ∧
      (∀ T, (∀ i, (stillEnv 1000).now i = T) →
        ∀ job ∈ jobsOf (stillEnv 1000) (worldOf [chainFlow]).calls.length (cs.take n),
        ∃ c ∈ cs, ∃ d, c.delay = .num d ∧ job.data.nodeId = c.nodeId ∧
          job.nextRunAt = some (newDate (.fin T + d))) :=
  (c4_due_at_clock_plus_delay (stillEnv 1000) 3 ⟨7, 1⟩ (worldOf [chainFlow]) _
    ⟨200, true, some (activated chainFlow)⟩ (by decide)).1

/-! ## The lifecycle operations -/

theorem findById_id {w : World} {id : Nat} {flow : Flow} (h : findById w id = some flow) :
    flow._id = id := by
  have := List.find?_some h
  simpa using this

theorem find?_map_replace (flow1 : Flow) (id : Nat) (h1 : flow1._id = id) :
    ∀ (l : List Flow) (flow : Flow), l.find? (fun f => f._id == id) = some flow →
      (l.map (fun old => if old._id == flow1._id then flow1 else old)).find?
        (fun f => f._id == id) = some flow1 := by
  intro l
  induction l with
  | nil => intro flow h; simp at h
  | cons a l ih =>
    intro flow h
    by_cases ha : a._id = id
    · rw [List.map_cons, if_pos (by simp [ha, h1])]
      exact List.find?_cons_of_pos _ (by simp [h1])
    · rw [List.find?_cons_of_neg _ (by simpa using ha)] at h
      rw [List.map_cons, if_neg (by simp [ha, h1]), List.find?_cons_of_neg _ (by simpa using ha)]
      exact ih flow h

theorem findById_save (w w1 : World) (id : Nat) (flow flow1 : Flow)
    (h : findById w id = some flow) (hf : w1.flows = w.flows) (h1 : flow1._id = flow._id) :
    findById (save flow1 w1) id = some flow1 := by
  unfold findById save
  simp only [hf]
  exact find?_map_replace flow1 id (h1.trans (findById_id h)) w.flows flow h

theorem ownedBy_cancel (f : Nat) (w : World) : ownedBy f (cancelScheduledEmails f w).jobs = [] := by
  unfold ownedBy cancelScheduledEmails
  simp only [List.filter_filter, List.filter_eq_nil_iff]
  intro job _
  simp

theorem notOwnedBy_cancel (f : Nat) (w : World) :
    notOwnedBy f (cancelScheduledEmails f w).jobs = notOwnedBy f w.jobs := by
  unfold notOwnedBy cancelScheduledEmails
  simp [List.filter_filter]

theorem ownedBy_jobsOf (env : Env) (f : Nat) (cs : List Call) (h : ∀ c ∈ cs, c.flowId = some f) :
    ∀ k, ownedBy f (jobsOf env k cs) = jobsOf env k cs ∧ notOwnedBy f (jobsOf env k cs) = [] := by
  induction cs with
  | nil => intro k; exact ⟨rfl, rfl⟩
  | cons c cs ih =>
    intro k
    have hc := h c (List.mem_cons_self _ _)
    obtain ⟨h1, h2⟩ := ih (fun x hx => h x (List.mem_cons_of_mem _ hx)) (k + 1)
    unfold ownedBy at h1 ⊢
    unfold notOwnedBy at h2 ⊢
    constructor
    · rw [jobsOf, List.filter_cons_of_pos (by simp [jobOf, hc]), h1]
    · rw [jobsOf, List.filter_cons_of_neg (by simp [jobOf, hc]), h2]

theorem pending_jobsOf (env : Env) (cs : List Call) :
    ∀ k, ∀ job ∈ jobsOf env k cs, job.nextRunAt.isSome = true := by
  induction cs with
  | nil => intro k job h; simp [jobsOf] at h
  | cons c cs ih =>
    intro k job h
    simp only [jobsOf, List.mem_cons] at h
    rcases h with rfl | h
    · rfl
    · exact ih (k + 1) job h

/-- Every call of a scheduling run is made for the flow being scheduled. -/
theorem flow_emits_flowId (env : Env) (fuel : Nat) (flow : Flow) (w : World) :
    (scheduleEmailsForFlow env fuel flow w).Emits env (fun c => c.flowId = some flow._id) w := by
  unfold scheduleEmailsForFlow
  apply emits_forEachAwait
  intro s _ w1
  exact traverse_emits env (buildGraph flow.nodes flow.edges) flow._id
    (fun _ _ c => c.flowId = some flow._id) (buildGraph_key flow.nodes flow.edges)
    (fun _ _ _ _ _ _ => rfl) (fun _ _ _ _ _ _ h => h) fuel s 0 w1

/-- What an activation answered with 200 leaves: the flow stored as activated, and the jobs
of its calls, all for that flow, appended to the store. -/
theorem activateFlow_ok (env : Env) (fuel : Nat) (req : Request) (w w1 : World) (r : Response)
    (h : activateFlow env fuel req w = some (r, w1)) (hr : r.status = 200) :
    ∃ flow cs, findById w req.id = some flow ∧ flow.user = req.user ∧
      r = ⟨200, true, some (activated flow)⟩ ∧
      findById w1 req.id = some (activated flow) ∧
      w1.calls = w.calls ++ cs ∧ w1.jobs = w.jobs ++ jobsOf env w.calls.length cs ∧
      ∀ c ∈ cs, c.flowId = some req.id := by
  unfold activateFlow at h
  cases hfind : findById w req.id with
  | none =>
    simp only [hfind, Option.some.injEq, Prod.mk.injEq] at h
    obtain ⟨rfl, -⟩ := h
    simp at hr
  | some flow =>
    simp only [hfind] at h
    by_cases hu : flow.user ≠ req.user
    · rw [if_pos hu] at h
      simp only [Option.some.injEq, Prod.mk.injEq] at h
      obtain ⟨rfl, -⟩ := h
      simp at hr
    · rw [if_neg hu] at h
      have hem := flow_emits_flowId env fuel flow w
      cases ho : scheduleEmailsForFlow env fuel flow w with
      | ok w2 =>
        rw [ho] at h hem
        simp only [Option.some.injEq, Prod.mk.injEq] at h
        obtain ⟨rfl, rfl⟩ := h
        obtain ⟨hf, cs, h1, h2, h3⟩ := hem
        refine ⟨flow, cs, rfl, not_not.1 hu, rfl, ?_, h1, h2, ?_⟩
        · exact findById_save w w2 req.id flow (activated flow) hfind hf rfl
        · intro c hc
          rw [h3 c hc, findById_id hfind]
      | threw e w2 =>
        rw [ho] at h
        simp only [Option.some.injEq, Prod.mk.injEq] at h
        obtain ⟨rfl, -⟩ := h
        simp at hr
      | outOfFuel w2 =>
        rw [ho] at h
        simp at h

/-- An activation answered with 200 from a store holding no job of the flow leaves, as
jobs of the flow, exactly the jobs of its own calls, all pending, and leaves the jobs of
the others as they were. -/
theorem activate_from_clean (env : Env) (fuel : Nat) (req : Request) (w w1 : World)
    (r : Response) (h : activateFlow env fuel req w = some (r, w1)) (hr : r.status = 200)
    (hclean : ownedBy req.id w.jobs = []) :
    ∃ cs, w1.calls = w.calls ++ cs ∧
      ownedBy req.id w1.jobs = jobsOf env w.calls.length cs ∧
      notOwnedBy req.id w1.jobs = notOwnedBy req.id w.jobs ∧
      ∀ job ∈ ownedBy req.id w1.jobs, job.nextRunAt.isSome = true := by
  obtain ⟨flow, cs, -, -, -, -, h1, h2, h3⟩ := activateFlow_ok env fuel req w w1 r h hr
  obtain ⟨j1, j2⟩ := ownedBy_jobsOf env req.id cs h3 w.calls.length
  have e1 : ownedBy req.id w1.jobs = jobsOf env w.calls.length cs := by
    rw [h2]
    unfold ownedBy at hclean j1 ⊢
    rw [List.filter_append, hclean, j1, List.nil_append]
  refine ⟨cs, h1, e1, ?_, ?_⟩
  · rw [h2]
    unfold notOwnedBy at j2 ⊢
    rw [List.filter_append, j2, List.append_nil]
  · rw [e1]
    exact pending_jobsOf env cs _

theorem deactivateFlow_spec (req : Request) (w : World) (flow : Flow)
    (hfind : findById w req.id = some flow) (huser : flow.user = req.user) :
    deactivateFlow req w =
      (⟨200, true, some (deactivated flow)⟩,
        save (deactivated flow) (cancelScheduledEmails req.id w)) ∧
    findById (deactivateFlow req w).2 req.id = some (deactivated flow) ∧
    ownedBy req.id (deactivateFlow req w).2.jobs = [] ∧
    notOwnedBy req.id (deactivateFlow req w).2.jobs = notOwnedBy req.id w.jobs ∧
    (deactivateFlow req w).2.calls = w.calls := by
  have hid := findById_id hfind
  have e : deactivateFlow req w =
      (⟨200, true, some (deactivated flow)⟩,
        save (deactivated flow) (cancelScheduledEmails req.id w)) := by
    unfold deactivateFlow
    rw [hfind]
    simp only [huser, ne_eq, not_true_eq_false, if_false, hid]
  refine ⟨e, ?_, ?_, ?_, ?_⟩
  · rw [e]
    exact findById_save w _ req.id flow (deactivated flow) hfind rfl rfl
  · rw [e]; exact ownedBy_cancel req.id w
  · rw [e]; exact notOwnedBy_cancel req.id w
  · rw [e]; rfl

theorem updateFlow_spec (req : Request) (body : FlowUpdate) (w : World) (flow : Flow)
    (hfind : findById w req.id = some flow) (huser : flow.user = req.user) :
    updateFlow req body w =
      (⟨200, true, some (applyUpdate body flow)⟩,
        save (applyUpdate body flow)
          (if flow.isActive then cancelScheduledEmails req.id w else w)) ∧
    findById (updateFlow req body w).2 req.id = some (applyUpdate body flow) ∧
    (flow.isActive = true → ownedBy req.id (updateFlow req body w).2.jobs = [] ∧
      notOwnedBy req.id (updateFlow req body w).2.jobs = notOwnedBy req.id w.jobs) ∧
    (updateFlow req body w).2.calls = w.calls := by
  have hid := findById_id hfind
  have e : updateFlow req body w =
      (⟨200, true, some (applyUpdate body flow)⟩,
        save (applyUpdate body flow)
          (if flow.isActive then cancelScheduledEmails req.id w else w)) := by
    unfold updateFlow
    rw [hfind]
    simp only [huser, ne_eq, not_true_eq_false, if_false, hid]
  refine ⟨e, ?_, ?_, ?_⟩
  · rw [e]
    refine findById_save w _ req.id flow (applyUpdate body flow) hfind ?_ rfl
    split_ifs <;> rfl
  · intro ha
    rw [e]
    simp only [ha, if_true]
    exact ⟨ownedBy_cancel req.id w, notOwnedBy_cancel req.id w⟩
  · rw [e]
    split_ifs <;> rfl

/-! ## Claims on the lifecycle -/

/-- C11, the code at the failing input: the chain flow, activated, holds two pending
jobs and is marked active and scheduled; an update that sets no field of the document
cancels the two jobs and answers with the flow still marked active and scheduled, stored
so; `deactivateFlow` on the same world cancels the jobs and stores the flow inactive, in
draft. -/
theorem c11_edit_leaves_flow_scheduled :
    activateFlow (stillEnv 1000) 3 ⟨7, 1⟩ (worldOf [chainFlow]) =
      some (⟨200, true, some (activated chainFlow)⟩, chainActivated) ∧
    chainActivated.jobs = [exampleJob "A" 1000, exampleJob "B" 3601000] ∧
    updateFlow ⟨7, 1⟩ renameOnly chainActivated =
      (⟨200, true, some (activated chainFlow)⟩,
        ⟨[], [activated chainFlow], chainActivated.calls⟩) ∧
    (activated chainFlow).isActive = true ∧
    (activated chainFlow).executionStatus = .scheduled ∧
    deactivateFlow ⟨7, 1⟩ chainActivated =
      (⟨200, true, some (deactivated (activated chainFlow))⟩,
        ⟨[], [deactivated (activated chainFlow)], chainActivated.calls⟩) ∧
    (deactivated (activated chainFlow)).isActive = false ∧
    (deactivated (activated chainFlow)).executionStatus = .draft := by
  decide

/-- C12, counterexample: activating the chain flow a second time, already scheduled,
leaves four pending jobs of the flow in the store, the two of the first activation and
the two of the second. -/
theorem c12_second_activation_doubles :
    activateFlow (stillEnv 1000) 3 ⟨7, 1⟩ (worldOf [chainFlow]) =
      some (⟨200, true, some (activated chainFlow)⟩, chainActivated) ∧
    (activateFlow (stillEnv 1000) 3 ⟨7, 1⟩ chainActivated).map (fun rw => ownedBy 7 rw.2.jobs) =
      some [exampleJob "A" 1000, exampleJob "B" 3601000, exampleJob "A" 1000,
        exampleJob "B" 3601000] ∧
    (activateFlow (stillEnv 1000) 3 ⟨7, 1⟩ chainActivated).map
        (fun rw => rw.2.calls.drop chainActivated.calls.length) =
      some [exampleCall "A" 0, exampleCall "B" (.fin 3600000)] := by
  decide

/-- C12 (amended): when the activation of a flow comes right after a deactivation, or
right after an edit made while the flow was marked active, and answers 200, the jobs of
the flow in the store are exactly the jobs of the calls of that activation, all pending,
and the jobs of the other flows are as before; so it is after activate, edit, activate,
each answered with 200. -/
theorem c12_reactivation_after_cancel (env : Env) (fuel : Nat) (req : Request) (w : World)
    (flow : Flow) (hfind : findById w req.id = some flow) (huser : flow.user = req.user) :
    (∀ r w3, activateFlow env fuel req (deactivateFlow req w).2 = some (r, w3) → r.status = 200 →
      ∃ cs, w3.calls = w.calls ++ cs ∧ ownedBy req.id w3.jobs = jobsOf env w.calls.length cs ∧
        notOwnedBy req.id w3.jobs = notOwnedBy req.id w.jobs ∧
        ∀ job ∈ ownedBy req.id w3.jobs, job.nextRunAt.isSome = true) ∧
    (flow.isActive = true → ∀ body r w3,
      activateFlow env fuel req (updateFlow req body w).2 = some (r, w3) → r.status = 200 →
      ∃ cs, w3.calls = w.calls ++ cs ∧ ownedBy req.id w3.jobs = jobsOf env w.calls.length cs ∧
        notOwnedBy req.id w3.jobs = notOwnedBy req.id w.jobs ∧
        ∀ job ∈ ownedBy req.id w3.jobs, job.nextRunAt.isSome = true) ∧
    (∀ r1 w1 body r3 w3, activateFlow env fuel req w = some (r1, w1) → r1.status = 200 →
      activateFlow env fuel req (updateFlow req body w1).2 = some (r3, w3) → r3.status = 200 →
      ∃ cs, w3.calls = w1.calls ++ cs ∧ ownedBy req.id w3.jobs = jobsOf env w1.calls.length cs ∧
        notOwnedBy req.id w3.jobs = notOwnedBy req.id w.jobs ∧
        ∀ job ∈ ownedBy req.id w3.jobs, job.nextRunAt.isSome = true) := by
  refine ⟨?_, ?_, ?_⟩
  · intro r w3 h hr
    obtain ⟨-, -, d3, d4, d5⟩ := deactivateFlow_spec req w flow hfind huser
    obtain ⟨cs, h1, h2, h3, h4⟩ := activate_from_clean env fuel req _ w3 r h hr d3
    rw [d5] at h1 h2
    rw [d4] at h3
    exact ⟨cs, h1, h2, h3, h4⟩
  · intro ha body r w3 h hr
    obtain ⟨-, -, u3, u5⟩ := updateFlow_spec req body w flow hfind huser
    obtain ⟨u3, u4⟩ := u3 ha
    obtain ⟨cs, h1, h2, h3, h4⟩ := activate_from_clean env fuel req _ w3 r h hr u3
    rw [u5] at h1 h2
    rw [u4] at h3
    exact ⟨cs, h1, h2, h3, h4⟩
  · intro r1 w1 body r3 w3 h1 hr1 h3 hr3
    obtain ⟨flow0, cs1, a1, a2, -, a4, a5, a6, a7⟩ := activateFlow_ok env fuel req w w1 r1 h1 hr1
    obtain ⟨-, -, u3, u5⟩ := updateFlow_spec req body w1 (activated flow0) a4 a2
    obtain ⟨u3, u4⟩ := u3 rfl
    obtain ⟨cs, c1, c2, c3, c4⟩ := activate_from_clean env fuel req _ w3 r3 h3 hr3 u3
    rw [u5] at c1 c2
    rw [u4] at c3
    refine ⟨cs, c1, c2, ?_, c4⟩
    rw [c3, a6]
    unfold notOwnedBy
    rw [List.filter_append]
    have := (ownedBy_jobsOf env req.id cs1 a7 w.calls.length).2
    unfold notOwnedBy at this
    rw [this, List.append_nil]

/-- C12, witness: the chain flow activated, renamed and activated again, at time 1000. -/
theorem c12_reactivation_after_cancel_witness :
    ∃ cs, chainReactivated.calls = chainActivated.calls ++ cs ∧
      ownedBy 7 chainReactivated.jobs = jobsOf (stillEnv 1000) chainActivated.calls.length cs ∧
      notOwnedBy 7 chainReactivated.jobs = notOwnedBy 7 (worldOf [chainFlow]).jobs ∧
      ∀ job ∈ ownedBy 7 chainReactivated.jobs, job.nextRunAt.isSome = true :=
  (c12_reactivation_after_cancel (stillEnv 1000) 3 ⟨7, 1⟩ (worldOf [chainFlow]) chainFlow
    (by decide) (by decide)).2.2 ⟨200, true, some (activated chainFlow)⟩ chainActivated renameOnly
    ⟨200, true, some (activated chainFlow)⟩ chainReactivated (by decide) (by decide) (by decide)
    (by decide)

/-! ## Termination of the walk -/

theorem delayAfter_coldEmail (d : JsNum) (node : Node) (h : node.type = .coldEmail) :
    delayAfter d node = d := by
  simp [delayAfter, h]

/-- One visit, for every kind of node: the scheduling step, then the loop over the children
with the delay after the node. -/
theorem traverse_succ (env : Env) (fuel : Nat) (node : Node) (graph : Graph) (flowId : Nat)
    (d : JsNum) (w : World) (nodeObj : GraphNode) (h : graph node.id = some nodeObj) :
    traverseAndSchedule env (fuel + 1) (some node) graph flowId d w =
      (visitCall env nodeObj flowId d w).andThen (fun w1 =>
        forEachAwait (fun childId w2 =>
          traverseAndSchedule env fuel ((graph childId).map (·.toNode)) graph flowId
            (delayAfter d nodeObj.toNode) w2) nodeObj.children w1) := by
  cases hd : dataObject nodeObj.data with
  | none =>
    cases ht : nodeObj.type with
    | wait =>
      rw [traverse_nodata env fuel node graph flowId d w nodeObj h (by rw [ht]; decide) hd]
      simp [visitCall, ht, hd, Outcome.andThen]
    | coldEmail =>
      rw [traverse_nodata env fuel node graph flowId d w nodeObj h (by rw [ht]; decide) hd]
      simp [visitCall, ht, hd, Outcome.andThen]
    | leadSource =>
      rw [traverse_leadSource env fuel node graph flowId d w nodeObj h ht]
      simp [visitCall, ht, delayAfter, Outcome.ok_andThen]
  | some data =>
    cases ht : nodeObj.type with
    | wait =>
      rw [traverse_wait env fuel node graph flowId d w nodeObj data h ht hd]
      simp [visitCall, ht, hd, delayAfter, Outcome.ok_andThen]
    | leadSource =>
      rw [traverse_leadSource env fuel node graph flowId d w nodeObj h ht]
      simp [visitCall, ht, delayAfter, Outcome.ok_andThen]
    | coldEmail =>
      cases he : data.email with
      | none =>
        rw [traverse_coldEmail_none env fuel node graph flowId d w nodeObj data h ht hd he]
        simp [visitCall, ht, hd, he, delayAfter, Outcome.ok_andThen]
      | some email =>
        rw [traverse_coldEmail_some env fuel node graph flowId d w nodeObj data email h ht hd he]
        simp [visitCall, ht, hd, he, delayAfter]

theorem traverseVisits_succ (env : Env) (fuel : Nat) (node : Node) (graph : Graph) (flowId : Nat)
    (d : JsNum) (w : World) (nodeObj : GraphNode) (h : graph node.id = some nodeObj) :
    traverseVisits env (fuel + 1) (some node) graph flowId d w =
      match visitCall env nodeObj flowId d w with
      | .ok w1 =>
        ((forEachVisits (fun childId w2 =>
            traverseVisits env fuel ((graph childId).map (·.toNode)) graph flowId
              (delayAfter d nodeObj.toNode) w2) nodeObj.children w1).1,
          nodeObj.id :: (forEachVisits (fun childId w2 =>
            traverseVisits env fuel ((graph childId).map (·.toNode)) graph flowId
              (delayAfter d nodeObj.toNode) w2) nodeObj.children w1).2)
      | o => (o, [nodeObj.id]) := by
  simp only [traverseVisits, h]
  cases hd : dataObject nodeObj.data with
  | none =>
    cases ht : nodeObj.type <;>
      simp only [visitCall, ht, hd, delayAfter, reduceCtorEq, if_false]
  | some data =>
    have hdel := dataObject_delay hd
    cases ht : nodeObj.type <;> cases he : data.email <;>
      simp only [visitCall, ht, hd, he, hdel, delayAfter, reduceCtorEq, if_false, if_true]

theorem visitCall_terminated (env : Env) (nodeObj : GraphNode) (flowId : Nat) (d : JsNum)
    (w : World) : (visitCall env nodeObj flowId d w).Terminated := by
  unfold visitCall
  split
  · trivial
  · trivial
  · split
    · by_cases hk : env.dbOk w.calls.length = true <;>
        simp [scheduleEmail, hk, Outcome.Terminated]
    · trivial
  · trivial

theorem terminated_of_andThen (o : Outcome) (k : World → Outcome)
    (h : (o.andThen k).Terminated) : o.Terminated := by
  cases o with
  | ok w => trivial
  | threw e w => trivial
  | outOfFuel w => exact h

theorem forEachAwait_cons {α : Type} (body : α → World → Outcome) (x : α) (xs : List α)
    (w : World) :
    forEachAwait body (x :: xs) w = (body x w).andThen (forEachAwait body xs) := rfl

/-- A loop that came to an end is not changed by a body that agrees with its body on the
runs that came to an end. -/
theorem forEachAwait_congr {α : Type} (body body2 : α → World → Outcome) (xs : List α)
    (h : ∀ x ∈ xs, ∀ w, (body x w).Terminated → body2 x w = body x w) :
    ∀ w, (forEachAwait body xs w).Terminated →
      forEachAwait body2 xs w = forEachAwait body xs w := by
  induction xs with
  | nil => intro w _; rfl
  | cons x xs ih =>
    intro w ht
    rw [forEachAwait_cons] at ht ⊢
    rw [forEachAwait_cons, h x (List.mem_cons_self _ _) w (terminated_of_andThen _ _ ht)]
    cases hb : body x w with
    | ok w1 =>
      rw [hb] at ht
      exact ih (fun y hy => h y (List.mem_cons_of_mem _ hy)) w1 ht
    | threw e w1 => rfl
    | outOfFuel w1 => rfl

/-- More fuel does not change a walk that came to an end. -/
theorem traverse_fuel_succ (env : Env) (graph : Graph) (flowId : Nat) :
    ∀ (fuel : Nat) (node : Option Node) (d : JsNum) (w : World),
      (traverseAndSchedule env fuel node graph flowId d w).Terminated →
      traverseAndSchedule env (fuel + 1) node graph flowId d w =
        traverseAndSchedule env fuel node graph flowId d w := by
  intro fuel
  induction fuel with
  | zero => intro node d w h; exact absurd h (by simp [traverse_zero, Outcome.Terminated])
  | succ fuel ih =>
    intro node d w h
    cases node with
    | none => rfl
    | some node =>
      cases hg : graph node.id with
      | none =>
        rw [traverse_missing env _ node graph flowId d w hg,
          traverse_missing env _ node graph flowId d w hg]
      | some nodeObj =>
        rw [traverse_succ env _ node graph flowId d w nodeObj hg] at h ⊢
        rw [traverse_succ env _ node graph flowId d w nodeObj hg]
        cases hv : visitCall env nodeObj flowId d w with
        | ok w1 =>
          rw [hv] at h
          simp only [Outcome.ok_andThen] at h ⊢
          exact forEachAwait_congr _ _ _ (fun c _ w2 hc => ih _ _ w2 hc) w1 h
        | threw e w1 => rfl
        | outOfFuel w1 => rfl

theorem traverse_fuel_le (env : Env) (graph : Graph) (flowId : Nat) (fuel : Nat)
    (node : Option Node) (d : JsNum) (w : World)
    (h : (traverseAndSchedule env fuel node graph flowId d w).Terminated) :
    ∀ more, traverseAndSchedule env (fuel + more) node graph flowId d w =
      traverseAndSchedule env fuel node graph flowId d w := by
  intro more
  induction more with
  | zero => rfl
  | succ m ih =>
    rw [← Nat.add_assoc, traverse_fuel_succ env graph flowId (fuel + m) node d w (by rw [ih]; exact h),
      ih]

theorem schedule_fuel_le (env : Env) (fuel : Nat) (flow : Flow) (w : World)
    (h : (scheduleEmailsForFlow env fuel flow w).Terminated) :
    ∀ more, scheduleEmailsForFlow env (fuel + more) flow w =
      scheduleEmailsForFlow env fuel flow w := by
  intro more
  unfold scheduleEmailsForFlow at h ⊢
  exact forEachAwait_congr _ _ _
    (fun s _ w1 hs => traverse_fuel_le env _ flow._id fuel (some s) 0 w1 hs more) w h

theorem graph_children (nodes : List Node) (edges : List Edge) (k : String) (gn : GraphNode)
    (h : buildGraph nodes edges k = some gn) :
    gn.children = (outEdges edges k).map (·.target) := by
  rw [buildGraph_apply] at h
  cases hl : lastNodeOf nodes k with
  | none => simp [hl] at h
  | some node =>
    simp only [hl, Option.map_some', Option.some.injEq] at h
    rw [← h]

theorem buildGraph_isSome (nodes : List Node) (edges : List Edge) (node : Node)
    (h : node ∈ nodes) : ∃ gn, buildGraph nodes edges node.id = some gn := by
  rw [buildGraph_apply]
  cases hl : lastNodeOf nodes node.id with
  | none =>
    unfold lastNodeOf at hl
    rw [List.find?_eq_none] at hl
    exact absurd (by simp) (hl node (List.mem_reverse.2 h))
  | some n => exact ⟨_, rfl⟩

theorem isEdgePath_append (edges : List Edge) (p q : List Edge) : ∀ s,
    IsEdgePath edges s (p ++ q) ↔ IsEdgePath edges s p ∧ IsEdgePath edges (pathEnd s p) q := by
  induction p with
  | nil => intro s; simp [IsEdgePath, pathEnd]
  | cons e p ih =>
    intro s
    simp only [List.cons_append, IsEdgePath, pathEnd, List.append_eq, ih, and_assoc]

theorem pathEnd_append (p q : List Edge) : ∀ s,
    pathEnd s (p ++ q) = pathEnd (pathEnd s p) q := by
  induction p with
  | nil => intro s; rfl
  | cons e p ih => intro s; simp only [List.cons_append, pathEnd, List.append_eq, ih]

theorem isEdgePath_mem (edges : List Edge) (p : List Edge) : ∀ s,
    IsEdgePath edges s p → ∀ e ∈ p, e ∈ edges := by
  induction p with
  | nil => intro s _ e he; simp at he
  | cons a p ih =>
    intro s h e he
    obtain ⟨h1, -, h3⟩ := h
    rcases List.mem_cons.1 he with rfl | he
    · exact h1
    · exact ih _ h3 e he

theorem exists_repeat_of_not_nodup {α : Type} (l : List α) (h : ¬ l.Nodup) :
    ∃ a x b c, l = a ++ x :: (b ++ x :: c) := by
  induction l with
  | nil => exact absurd List.nodup_nil h
  | cons y t ih =>
    by_cases hy : y ∈ t
    · obtain ⟨b, c, rfl⟩ := List.append_of_mem hy
      exact ⟨[], y, b, c, rfl⟩
    · have ht : ¬ t.Nodup := fun hn => h (List.nodup_cons.2 ⟨hy, hn⟩)
      obtain ⟨a, x, b, c, rfl⟩ := ih ht
      exact ⟨y :: a, x, b, c, rfl⟩

/-- An edge path longer than the list of edges runs through a cycle. -/
theorem cycle_of_long_path (edges : List Edge) (s : String) (p : List Edge)
    (hp : IsEdgePath edges s p) (hlen : edges.length < p.length) :
    ∃ a q, IsEdgePath edges s a ∧ q ≠ [] ∧ IsEdgePath edges (pathEnd s a) q ∧
      pathEnd (pathEnd s a) q = pathEnd s a := by
  have hnd : ¬ p.Nodup := by
    intro hn
    have := (List.subperm_of_subset hn (fun e he => isEdgePath_mem edges p s hp e he)).length_le
    omega
  obtain ⟨a, x, b, c, rfl⟩ := exists_repeat_of_not_nodup p hnd
  rw [isEdgePath_append] at hp
  obtain ⟨ha, hrest⟩ := hp
  have hrest2 : IsEdgePath edges (pathEnd s a) ((x :: b) ++ x :: c) := by simpa using hrest
  rw [isEdgePath_append] at hrest2
  obtain ⟨hq, hx⟩ := hrest2
  refine ⟨a, x :: b, ha, by simp, hq, ?_⟩
  have h1 : x.source = pathEnd (pathEnd s a) (x :: b) := hx.2.1
  have h2 : x.source = pathEnd s a := hq.2.1
  rw [← h1, h2]

theorem forEachAwait_outOfFuel {α : Type} (body : α → World → Outcome) (xs : List α) :
    ∀ w w1, forEachAwait body xs w = .outOfFuel w1 →
      ∃ x ∈ xs, ∃ w2 w3, body x w2 = .outOfFuel w3 := by
  induction xs with
  | nil => intro w w1 h; simp [forEachAwait] at h
  | cons x xs ih =>
    intro w w1 h
    rw [forEachAwait_cons] at h
    cases hb : body x w with
    | ok w2 =>
      rw [hb, Outcome.ok_andThen] at h
      obtain ⟨y, hy, r⟩ := ih w2 w1 h
      exact ⟨y, List.mem_cons_of_mem _ hy, r⟩
    | threw e w2 => rw [hb] at h; simp [Outcome.andThen] at h
    | outOfFuel w2 => exact ⟨x, List.mem_cons_self _ _, w, w2, hb⟩

/-- A walk that runs out of fuel has gone down an edge path of as many edges as it had
fuel. -/
theorem path_of_outOfFuel (env : Env) (nodes : List Node) (edges : List Edge) (flowId : Nat) :
    ∀ (fuel : Nat) (node : Node) (d : JsNum) (w w1 : World),
      traverseAndSchedule env fuel (some node) (buildGraph nodes edges) flowId d w =
        .outOfFuel w1 →
      ∃ p, IsEdgePath edges node.id p ∧ p.length = fuel := by
  intro fuel
  induction fuel with
  | zero => intro node d w w1 _; exact ⟨[], trivial, rfl⟩
  | succ fuel ih =>
    intro node d w w1 h
    cases hg : buildGraph nodes edges node.id with
    | none => rw [traverse_missing env fuel node _ flowId d w hg] at h; simp at h
    | some nodeObj =>
      rw [traverse_succ env fuel node _ flowId d w nodeObj hg] at h
      cases hv : visitCall env nodeObj flowId d w with
      | threw e w2 => rw [hv] at h; simp [Outcome.andThen] at h
      | outOfFuel w2 =>
        have := visitCall_terminated env nodeObj flowId d w
        rw [hv] at this
        exact absurd this (by simp [Outcome.Terminated])
      | ok w2 =>
        rw [hv, Outcome.ok_andThen] at h
        obtain ⟨c, hc, w3, w4, hb⟩ := forEachAwait_outOfFuel _ _ w2 w1 h
        rw [graph_children nodes edges node.id nodeObj hg] at hc
        obtain ⟨e, he, rfl⟩ := List.mem_map.1 hc
        obtain ⟨he1, he2⟩ := mem_outEdges he
        cases hgc : buildGraph nodes edges e.target with
        | none =>
          simp only [hgc, Option.map_none'] at hb
          cases fuel with
          | zero => exact ⟨[e], ⟨he1, he2, trivial⟩, rfl⟩
          | succ f => simp [traverse_undefined] at hb
        | some gc =>
          simp only [hgc, Option.map_some'] at hb
          obtain ⟨q, hq1, hq2⟩ := ih gc.toNode _ w3 w4 hb
          have hid : gc.id = e.target := buildGraph_key nodes edges _ gc hgc
          rw [hid] at hq1
          exact ⟨e :: q, ⟨he1, he2, hq1⟩, by simp [hq2]⟩

/-- With no cycle on a path from an entry node, a scheduling run with more fuel than the
flow has edges comes to an end. -/
theorem schedule_terminated (env : Env) (flow : Flow) (h : ¬ HasCycleOnWalk flow) (fuel : Nat)
    (hfuel : flow.edges.length < fuel) (w : World) :
    (scheduleEmailsForFlow env fuel flow w).Terminated := by
  cases ho : scheduleEmailsForFlow env fuel flow w with
  | ok w1 => trivial
  | threw e w1 => trivial
  | outOfFuel w1 =>
    exfalso
    unfold scheduleEmailsForFlow at ho
    obtain ⟨s, hs, w2, w3, hb⟩ := forEachAwait_outOfFuel _ _ w w1 ho
    obtain ⟨p, hp1, hp2⟩ := path_of_outOfFuel env flow.nodes flow.edges flow._id fuel s 0 w2 w3 hb
    obtain ⟨a, q, h1, h2, h3, h4⟩ := cycle_of_long_path flow.edges s.id p hp1 (by omega)
    exact h ⟨s, hs, a, q, h1, h2, h3, h4⟩

theorem pathEnd_rank (flow : Flow) (rank : String → Nat) (hr : RankedBy rank flow) :
    ∀ (p : List Edge) (s : String), IsEdgePath flow.edges s p →
      rank (pathEnd s p) + p.length ≤ rank s := by
  intro p
  induction p with
  | nil => intro s _; simp [pathEnd]
  | cons e p ih =>
    intro s h
    obtain ⟨h1, h2, h3⟩ := h
    have := ih e.target h3
    have := hr e h1
    rw [h2] at this
    simp only [pathEnd, List.length_cons]
    omega

/-- A flow ranked along its edges has no cycle. -/
theorem no_cycle_of_ranked (flow : Flow) (rank : String → Nat) (hr : RankedBy rank flow) :
    ¬ HasCycleOnWalk flow := by
  rintro ⟨s, -, p, q, -, hq, h3, h4⟩
  have := pathEnd_rank flow rank hr q _ h3
  rw [h4] at this
  have : 0 < q.length := List.length_pos.2 hq
  omega

/-! ## The visits of the walk -/

theorem forEachVisits_cons_ok {α : Type} (body : α → World → Outcome × List String) (x : α)
    (xs : List α) (w w1 : World) (vs : List String) (h : body x w = (.ok w1, vs)) :
    forEachVisits body (x :: xs) w =
      ((forEachVisits body xs w1).1, vs ++ (forEachVisits body xs w1).2) := by
  simp only [forEachVisits, h]

theorem forEachVisits_cons_stop {α : Type} (body : α → World → Outcome × List String) (x : α)
    (xs : List α) (w : World) (h : ¬ ∃ w1, (body x w).1 = .ok w1) :
    forEachVisits body (x :: xs) w = body x w := by
  rcases hb : body x w with ⟨o, vs⟩
  cases o with
  | ok w1 => exact absurd ⟨w1, by rw [hb]⟩ h
  | threw e w1 => simp only [forEachVisits, hb]
  | outOfFuel w1 => simp only [forEachVisits, hb]

/-- Dropping the visits of the recording loop gives the loop. -/
theorem forEachVisits_fst {α : Type} (bodyV : α → World → Outcome × List String)
    (body : α → World → Outcome) (xs : List α)
    (h : ∀ x ∈ xs, ∀ w, (bodyV x w).1 = body x w) :
    ∀ w, (forEachVisits bodyV xs w).1 = forEachAwait body xs w := by
  induction xs with
  | nil => intro w; rfl
  | cons x xs ih =>
    intro w
    have hx := h x (List.mem_cons_self _ _) w
    rw [forEachAwait_cons, ← hx]
    rcases hb : bodyV x w with ⟨o, vs⟩
    cases o with
    | ok w1 =>
      rw [forEachVisits_cons_ok bodyV x xs w w1 vs hb]
      exact ih (fun y hy => h y (List.mem_cons_of_mem _ hy)) w1
    | threw e w1 =>
      rw [forEachVisits_cons_stop bodyV x xs w (by rw [hb]; simp), hb]
      rfl
    | outOfFuel w1 =>
      rw [forEachVisits_cons_stop bodyV x xs w (by rw [hb]; simp), hb]
      rfl

/-- Dropping the visits of the recording walk gives `traverseAndSchedule`. -/
theorem traverseVisits_fst (env : Env) (graph : Graph) (flowId : Nat) :
    ∀ (fuel : Nat) (node : Option Node) (d : JsNum) (w : World),
      (traverseVisits env fuel node graph flowId d w).1 =
        traverseAndSchedule env fuel node graph flowId d w := by
  intro fuel
  induction fuel with
  | zero => intro node d w; rfl
  | succ fuel ih =>
    intro node d w
    cases node with
    | none => rfl
    | some node =>
      cases hg : graph node.id with
      | none =>
        rw [traverse_missing env fuel node graph flowId d w hg]
        simp only [traverseVisits, hg]
      | some nodeObj =>
        rw [traverse_succ env fuel node graph flowId d w nodeObj hg,
          traverseVisits_succ env fuel node graph flowId d w nodeObj hg]
        cases hv : visitCall env nodeObj flowId d w with
        | ok w1 =>
          simp only [Outcome.ok_andThen]
          exact forEachVisits_fst _ _ _ (fun c _ w2 => ih _ _ w2) w1
        | threw e w1 => rfl
        | outOfFuel w1 => rfl

theorem scheduleVisits_fst (env : Env) (fuel : Nat) (flow : Flow) (w : World) :
    (scheduleVisits env fuel flow w).1 = scheduleEmailsForFlow env fuel flow w := by
  unfold scheduleVisits scheduleEmailsForFlow
  exact forEachVisits_fst _ _ _ (fun s _ w1 => traverseVisits_fst env _ flow._id fuel _ 0 w1) w

/-- The visits of a loop are a leading part of what its bodies would visit in full, and all
of it when the loop returns. -/
theorem forEachVisits_leading {α : Type} (bodyV : α → World → Outcome × List String)
    (full : α → List String) (xs : List α)
    (h : ∀ x ∈ xs, ∀ w, ∃ rest, full x = (bodyV x w).2 ++ rest ∧
      ∀ w1, (bodyV x w).1 = .ok w1 → rest = []) :
    ∀ w, ∃ rest, xs.flatMap full = (forEachVisits bodyV xs w).2 ++ rest ∧
      ∀ w1, (forEachVisits bodyV xs w).1 = .ok w1 → rest = [] := by
  induction xs with
  | nil => intro w; exact ⟨[], rfl, fun _ _ => rfl⟩
  | cons x xs ih =>
    intro w
    obtain ⟨rest1, h1, h2⟩ := h x (List.mem_cons_self _ _) w
    rcases hb : bodyV x w with ⟨o, vs⟩
    rw [hb] at h1 h2
    cases o with
    | ok w1 =>
      have hr : rest1 = [] := h2 w1 rfl
      subst hr
      obtain ⟨rest2, h3, h4⟩ := ih (fun y hy => h y (List.mem_cons_of_mem _ hy)) w1
      rw [forEachVisits_cons_ok bodyV x xs w w1 vs hb]
      refine ⟨rest2, ?_, h4⟩
      rw [List.flatMap_cons, h1, h3]
      simp
    | threw e w1 =>
      rw [forEachVisits_cons_stop bodyV x xs w (by rw [hb]; simp), hb]
      refine ⟨rest1 ++ xs.flatMap full, ?_, fun w2 hw => by simp at hw⟩
      rw [List.flatMap_cons, h1]
      simp
    | outOfFuel w1 =>
      rw [forEachVisits_cons_stop bodyV x xs w (by rw [hb]; simp), hb]
      refine ⟨rest1 ++ xs.flatMap full, ?_, fun w2 hw => by simp at hw⟩
      rw [List.flatMap_cons, h1]
      simp

theorem edgePaths_ends_succ (edges : List Edge) (k : Nat) (s : String) :
    (edgePaths edges (k + 1) s).map (pathEnd s) =
      s :: ((outEdges edges s).map (·.target)).flatMap
        (fun c => (edgePaths edges k c).map (pathEnd c)) := by
  rw [edgePaths, List.map_cons, List.map_flatMap, List.flatMap_map]
  simp only [List.map_map, pathEnd]
  rfl

/-- The visits of a walk from a node of the graph are a leading part of the ends of the
edge paths from that node, in depth-first order, and all of them when the walk returns. -/
theorem traverseVisits_leading (env : Env) (nodes : List Node) (edges : List Edge)
    (flowId : Nat) :
    ∀ (fuel k : Nat) (node : Node) (d : JsNum) (w : World), fuel ≤ k →
      (∃ gn, buildGraph nodes edges node.id = some gn) →
      ∃ rest, (edgePaths edges k node.id).map (pathEnd node.id) =
          (traverseVisits env fuel (some node) (buildGraph nodes edges) flowId d w).2 ++ rest ∧
        ∀ w1, (traverseVisits env fuel (some node) (buildGraph nodes edges) flowId d w).1 =
          .ok w1 → rest = [] := by
  intro fuel
  induction fuel with
  | zero =>
    intro k node d w _ _
    exact ⟨(edgePaths edges k node.id).map (pathEnd node.id), by simp [traverseVisits],
      fun w1 h => by simp [traverseVisits] at h⟩
  | succ fuel ih =>
    intro k node d w hk hg
    obtain ⟨gn, hg⟩ := hg
    obtain ⟨k, rfl⟩ : ∃ k1, k = k1 + 1 := ⟨k - 1, by omega⟩
    have hid : gn.id = node.id := buildGraph_key nodes edges _ gn hg
    rw [traverseVisits_succ env fuel node _ flowId d w gn hg, edgePaths_ends_succ]
    cases hv : visitCall env gn flowId d w with
    | ok w1 =>
      simp only
      obtain ⟨rest, h1, h2⟩ := forEachVisits_leading
        (fun childId w2 => traverseVisits env fuel
          ((buildGraph nodes edges childId).map (·.toNode)) (buildGraph nodes edges) flowId
          (delayAfter d gn.toNode) w2)
        (fun c => (edgePaths edges k c).map (pathEnd c)) gn.children
        (by
          intro c _ w2
          cases hgc : buildGraph nodes edges c with
          | none =>
            refine ⟨(edgePaths edges k c).map (pathEnd c), ?_, ?_⟩
            · simp only [hgc, Option.map_none']
              cases fuel <;> simp [traverseVisits]
            · intro w3 h3
              simp only [hgc, Option.map_none'] at h3
              cases fuel <;> simp [traverseVisits] at h3
          | some gc =>
            have hcid : gc.id = c := buildGraph_key nodes edges _ gc hgc
            have := ih k gc.toNode (delayAfter d gn.toNode) w2 (by omega)
              ⟨gc, by rw [hcid]; exact hgc⟩
            simp only [hgc, Option.map_some']
            rw [hcid] at this
            exact this) w1
      refine ⟨rest, ?_, h2⟩
      rw [hid, ← graph_children nodes edges node.id gn hg, h1]
      rfl
    | threw e w1 =>
      simp only
      exact ⟨_, by rw [hid]; rfl, fun w2 h => by simp at h⟩
    | outOfFuel w1 =>
      simp only
      exact ⟨_, by rw [hid]; rfl, fun w2 h => by simp at h⟩

theorem pathEnds_eq (flow : Flow) (k : Nat) :
    pathEnds flow k =
      (startNodes flow).flatMap (fun s => (edgePaths flow.edges k s.id).map (pathEnd s.id)) := by
  unfold pathEnds entryPaths
  rw [List.map_flatMap]
  congr 1
  funext s
  rw [List.map_map]
  rfl

/-- The visits of a scheduling run are a leading part of the ends of the edge paths from
the entry nodes, one visit per path, and all of them when the run returns. -/
theorem scheduleVisits_leading (env : Env) (fuel k : Nat) (hk : fuel ≤ k) (flow : Flow)
    (w : World) :
    ∃ rest, pathEnds flow k = (scheduleVisits env fuel flow w).2 ++ rest ∧
      ∀ w1, (scheduleVisits env fuel flow w).1 = .ok w1 → rest = [] := by
  rw [pathEnds_eq]
  unfold scheduleVisits
  exact forEachVisits_leading _ _ _ (fun s hs w1 =>
    traverseVisits_leading env flow.nodes flow.edges flow._id fuel k s 0 w1 hk
      (buildGraph_isSome flow.nodes flow.edges s (startNodes_subset flow s hs))) w

theorem no_cycle_of_acyclic (flow : Flow) (h : Acyclic flow) : ¬ HasCycleOnWalk flow := by
  rintro ⟨s, -, p, q, -, hq, h3, h4⟩
  exact hq (h _ q h3 h4)

theorem acyclic_of_ranked (flow : Flow) (rank : String → Nat) (hr : RankedBy rank flow) :
    Acyclic flow := by
  intro v q h1 h2
  have := pathEnd_rank flow rank hr q v h1
  rw [h2] at this
  exact List.length_eq_zero.1 (by omega)

/-- With no cycle on a path from an entry node, `entryPaths flow k` lists every edge path
from an entry node as soon as `k` exceeds the number of edges. -/
theorem mem_entryPaths_of_no_cycle (flow : Flow) (h : ¬ HasCycleOnWalk flow) (k : Nat)
    (hk : flow.edges.length < k) (id : String) (p : List Edge) :
    (id, p) ∈ entryPaths flow k ↔
      (∃ s ∈ startNodes flow, s.id = id) ∧ IsEdgePath flow.edges id p := by
  unfold entryPaths
  simp only [List.mem_flatMap, List.mem_map, Prod.mk.injEq]
  constructor
  · rintro ⟨s, hs, q, hq, rfl, rfl⟩
    exact ⟨⟨s, hs, rfl⟩, ((mem_edgePaths _ _ _ _).1 hq).1⟩
  · rintro ⟨⟨s, hs, rfl⟩, hp⟩
    refine ⟨s, hs, p, (mem_edgePaths _ _ _ _).2 ⟨hp, ?_⟩, rfl, rfl⟩
    by_contra hlen
    obtain ⟨a, q, h1, h2, h3, h4⟩ := cycle_of_long_path flow.edges s.id p hp (by omega)
    exact h ⟨s, hs, a, q, h1, h2, h3, h4⟩

theorem leaf_terminated (env : Env) (fuel : Nat) (node : Node) (graph : Graph) (flowId : Nat)
    (d : JsNum) (w : World) (gn : GraphNode) (hg : graph node.id = some gn)
    (hc : gn.children = []) :
    (traverseAndSchedule env (fuel + 1) (some node) graph flowId d w).Terminated := by
  rw [traverse_succ env fuel node graph flowId d w gn hg, hc]
  have := visitCall_terminated env gn flowId d w
  cases hv : visitCall env gn flowId d w with
  | ok w1 => trivial
  | threw e w1 => trivial
  | outOfFuel w1 => rw [hv] at this; exact this

theorem cyclic_walk_from_A (env : Env) : ∀ (fuel : Nat) (d : JsNum) (w : World),
    traverseAndSchedule env fuel (some (sourceNode "A"))
      (buildGraph cyclicFlow.nodes cyclicFlow.edges) cyclicFlow._id d w = .outOfFuel w := by
  intro fuel
  induction fuel with
  | zero => intro d w; rfl
  | succ fuel ih =>
    intro d w
    have hg : buildGraph cyclicFlow.nodes cyclicFlow.edges (sourceNode "A").id =
        some ⟨sourceNode "A", ["A"]⟩ := by decide
    rw [traverse_leadSource env fuel _ _ cyclicFlow._id d w _ hg rfl]
    have hA : (buildGraph cyclicFlow.nodes cyclicFlow.edges "A").map (·.toNode) =
        some (sourceNode "A") := by decide
    simp only [forEachAwait, hA, ih]
    rfl

/-- On the flow `S -> A -> A` the scheduling run exhausts every fuel. -/
theorem cyclic_never_ends (env : Env) (fuel : Nat) (w : World) :
    scheduleEmailsForFlow env fuel cyclicFlow w = .outOfFuel w := by
  have hs : startNodes cyclicFlow = [sourceNode "S"] := by decide
  unfold scheduleEmailsForFlow
  rw [hs]
  cases fuel with
  | zero => rfl
  | succ fuel =>
    have hg : buildGraph cyclicFlow.nodes cyclicFlow.edges (sourceNode "S").id =
        some ⟨sourceNode "S", ["A"]⟩ := by decide
    have hA : (buildGraph cyclicFlow.nodes cyclicFlow.edges "A").map (·.toNode) =
        some (sourceNode "A") := by decide
    simp only [forEachAwait, traverse_leadSource env fuel _ _ cyclicFlow._id 0 w _ hg rfl, hA,
      cyclic_walk_from_A]
    rfl

theorem cyclic_has_cycle : HasCycleOnWalk cyclicFlow := by
  refine ⟨sourceNode "S", by decide, [⟨"e1", "S", "A"⟩], [⟨"e2", "A", "A"⟩], ?_, by simp, ?_, rfl⟩
  · exact ⟨by decide, rfl, trivial⟩
  · exact ⟨by decide, rfl, trivial⟩

/-! ## Claim on termination -/

/-- C13: a flow whose edges form an acyclic graph has no cycle on a path from an entry
node, and for every flow without such a cycle the walk of `scheduleEmailsForFlow` comes to
an end (it returns or it throws) as soon as the fuel exceeds the number of edges, with the
same outcome for every such fuel; a walk that does not come to an end with that fuel runs
through a cycle on a path from an entry node. The nodes visited are, in order, the ends of
the edge paths from the entry nodes, each node once per path: a leading part of them in
general, all of them when the walk returns. The walk from a node without children ends at
that node. On the flow `S -> A -> A`, which has such a cycle, the walk exhausts every
fuel. -/
theorem c13_walk_terminates (env : Env) (flow : Flow) (w : World) :
    (Acyclic flow → ¬ HasCycleOnWalk flow) ∧
    (¬ HasCycleOnWalk flow → ∀ fuel, flow.edges.length < fuel →
      (scheduleEmailsForFlow env fuel flow w).Terminated ∧
      scheduleEmailsForFlow env fuel flow w =
        scheduleEmailsForFlow env (flow.edges.length + 1) flow w) ∧
    (∀ fuel, flow.edges.length < fuel →
      ¬ (scheduleEmailsForFlow env fuel flow w).Terminated → HasCycleOnWalk flow) ∧
    (∀ fuel k, fuel ≤ k →
      (scheduleVisits env fuel flow w).1 = scheduleEmailsForFlow env fuel flow w ∧
      ∃ rest, pathEnds flow k = (scheduleVisits env fuel flow w).2 ++ rest ∧
        ∀ w1, scheduleEmailsForFlow env fuel flow w = .ok w1 →
          rest = [] ∧ ∀ id, (scheduleVisits env fuel flow w).2.count id =
            (entryPaths flow k).countP (fun sp => pathEnd sp.1 sp.2 == id)) ∧
    (¬ HasCycleOnWalk flow → ∀ k, flow.edges.length < k → ∀ id p,
      (id, p) ∈ entryPaths flow k ↔
        (∃ s ∈ startNodes flow, s.id = id) ∧ IsEdgePath flow.edges id p) ∧
    (∀ fuel node d gn, buildGraph flow.nodes flow.edges node.id = some gn → gn.children = [] →
      (traverseAndSchedule env (fuel + 1) (some node) (buildGraph flow.nodes flow.edges)
        flow._id d w).Terminated) ∧
    (HasCycleOnWalk cyclicFlow ∧ ∀ fuel, scheduleEmailsForFlow env fuel cyclicFlow w = .outOfFuel w) := by
  refine ⟨no_cycle_of_acyclic flow, ?_, ?_, ?_, ?_, ?_, cyclic_has_cycle,
    fun fuel => cyclic_never_ends env fuel w⟩
  · intro h fuel hfuel
    refine ⟨schedule_terminated env flow h fuel hfuel w, ?_⟩
    have ht := schedule_terminated env flow h (flow.edges.length + 1) (by omega) w
    have := schedule_fuel_le env (flow.edges.length + 1) flow w ht (fuel - (flow.edges.length + 1))
    rwa [show flow.edges.length + 1 + (fuel - (flow.edges.length + 1)) = fuel by omega] at this
  · intro fuel hfuel hnt
    by_contra hc
    exact hnt (schedule_terminated env flow hc fuel hfuel w)
  · intro fuel k hk
    refine ⟨scheduleVisits_fst env fuel flow w, ?_⟩
    obtain ⟨rest, h1, h2⟩ := scheduleVisits_leading env fuel k hk flow w
    refine ⟨rest, h1, ?_⟩
    intro w1 hw1
    have hr : rest = [] := h2 w1 (by rw [scheduleVisits_fst]; exact hw1)
    refine ⟨hr, ?_⟩
    intro id
    rw [hr, List.append_nil] at h1
    rw [← h1]
    unfold pathEnds
    rw [List.count, List.countP_map]
    rfl
  · intro h k hk id p
    exact mem_entryPaths_of_no_cycle flow h k hk id p
  · intro fuel node d gn hg hc
    exact leaf_terminated env fuel node _ flow._id d w gn hg hc

/-- C13, witness: the chain `A -> W -> B`, ranked by `exampleRank`, with fuel 3. -/
theorem c13_walk_terminates_witness :
    (scheduleEmailsForFlow (stillEnv 1000) 3 chainFlow (worldOf [])).Terminated ∧
      scheduleEmailsForFlow (stillEnv 1000) 3 chainFlow (worldOf []) =
        scheduleEmailsForFlow (stillEnv 1000) (chainFlow.edges.length + 1) chainFlow (worldOf []) :=
  (c13_walk_terminates (stillEnv 1000) chainFlow (worldOf [])).2.1
    (no_cycle_of_ranked chainFlow exampleRank (by unfold RankedBy; decide)) 3 (by decide)

/-! ## The errors of a walk -/

theorem throws_andThen (Q : JsError → Prop) (o : Outcome) (k : World → Outcome)
    (h1 : ∀ e w1, o = .threw e w1 → Q e) (h2 : ∀ w e w1, k w = .threw e w1 → Q e) :
    ∀ e w1, o.andThen k = .threw e w1 → Q e := by
  intro e w1 h
  cases o with
  | ok w => exact h2 w e w1 h
  | threw e0 w0 => exact h1 e w1 h
  | outOfFuel w0 => exact h1 e w1 h

theorem throws_forEachAwait (Q : JsError → Prop) {α : Type} (body : α → World → Outcome)
    (xs : List α) (h : ∀ x ∈ xs, ∀ w e w1, body x w = .threw e w1 → Q e) :
    ∀ w e w1, forEachAwait body xs w = .threw e w1 → Q e := by
  induction xs with
  | nil => intro w e w1 hx; cases hx
  | cons x xs ih =>
    intro w
    exact throws_andThen Q _ _ (h x (List.mem_cons_self _ _) w)
      (ih (fun y hy => h y (List.mem_cons_of_mem _ hy)))

/-- The scheduling step of a node that has a data object, if a Wait or an Action node, raises
nothing but the rejection of `agenda.schedule`. -/
theorem throws_visitCall (env : Env) (nodeObj : GraphNode) (flowId : Nat) (d : JsNum) (w : World)
    (hd : nodeObj.type ≠ .leadSource → (dataObject nodeObj.data).isSome) :
    ∀ e w1, visitCall env nodeObj flowId d w = .threw e w1 →
      e = .scheduleRejected ∧ ∃ k, env.dbOk k = false := by
  intro e w1 h
  unfold visitCall at h
  cases ht : nodeObj.type with
  | leadSource => simp [ht] at h
  | wait =>
    obtain ⟨data, hdo⟩ := Option.isSome_iff_exists.1 (hd (by rw [ht]; decide))
    simp [ht, hdo] at h
  | coldEmail =>
    obtain ⟨data, hdo⟩ := Option.isSome_iff_exists.1 (hd (by rw [ht]; decide))
    cases he : data.email with
    | none => simp [ht, hdo, he] at h
    | some email =>
      simp only [ht, hdo, he] at h
      unfold scheduleEmail at h
      by_cases hk : env.dbOk w.calls.length = true
      · simp [hk] at h
      · simp only [hk] at h
        cases h
        exact ⟨rfl, w.calls.length, by simpa using hk⟩

/-- A walk over a graph whose children are all keys of the graph raises only the errors of
the scheduling steps of its nodes. -/
theorem throws_traverse (env : Env) (graph : Graph) (flowId : Nat) (Q : JsError → Prop)
    (hv : ∀ k gn, graph k = some gn → ∀ d w e w1,
      visitCall env gn flowId d w = .threw e w1 → Q e)
    (hc : ∀ k gn, graph k = some gn → ∀ c ∈ gn.children, (graph c).isSome) :
    ∀ (fuel : Nat) (node : Node) (d : JsNum) (w : World) e w1,
      traverseAndSchedule env fuel (some node) graph flowId d w = .threw e w1 → Q e := by
  intro fuel
  induction fuel with
  | zero => intro node d w e w1 h; cases h
  | succ fuel ih =>
    intro node d w
    cases hg : graph node.id with
    | none =>
      rw [traverse_missing env fuel node graph flowId d w hg]
      intro e w1 h
      cases h
    | some nodeObj =>
      rw [traverse_succ env fuel node graph flowId d w nodeObj hg]
      refine throws_andThen Q _ _ (hv _ _ hg d w) ?_
      intro w0
      refine throws_forEachAwait Q _ _ ?_ w0
      intro c hcm w2
      obtain ⟨gc, hgc⟩ := Option.isSome_iff_exists.1 (hc _ _ hg c hcm)
      simp only [hgc, Option.map_some']
      exact ih gc.toNode _ w2

theorem lastNodeOf_mem {nodes : List Node} {id : String} {node : Node}
    (h : lastNodeOf nodes id = some node) : node ∈ nodes :=
  List.mem_reverse.1 (List.mem_of_find?_eq_some h)

/-- On a flow whose edges all lead to nodes of the flow and whose Wait and Action nodes all
have a data object, the scheduling raises nothing but the rejection of `agenda.schedule`. -/
theorem throws_schedule (env : Env) (flow : Flow)
    (hnt : ∀ e ∈ flow.edges, (nodeOf flow.nodes e.target).isSome) (hdat : NodesHaveData flow)
    (fuel : Nat) (w : World) :
    ∀ e w1, scheduleEmailsForFlow env fuel flow w = .threw e w1 →
      e = .scheduleRejected ∧ ∃ k, env.dbOk k = false := by
  unfold scheduleEmailsForFlow
  refine throws_forEachAwait _ _ _ ?_ w
  intro s _ w0
  refine throws_traverse env _ flow._id _ ?_ ?_ fuel s 0 w0
  · intro k gn hg d w2
    apply throws_visitCall
    intro ht
    rw [buildGraph_apply] at hg
    cases hl : lastNodeOf flow.nodes k with
    | none => simp [hl] at hg
    | some node =>
      simp only [hl, Option.map_some', Option.some.injEq] at hg
      subst hg
      exact hdat node (lastNodeOf_mem hl) ht
  · intro k gn hg c hcm
    rw [graph_children _ _ k gn hg] at hcm
    obtain ⟨e, he, rfl⟩ := List.mem_map.1 hcm
    obtain ⟨n2, hn2⟩ := Option.isSome_iff_exists.1 (hnt e (mem_outEdges he).1)
    obtain ⟨gn2, hgn2⟩ := buildGraph_isSome flow.nodes flow.edges n2 (nodeOf_mem hn2)
    rw [nodeOf_id hn2] at hgn2
    rw [hgn2]
    rfl

theorem waitDelayMs_of_no_unit (delay : String) (hm : includes delay 'm' = false)
    (hh : includes delay 'h' = false) (hd : includes delay 'd' = false) :
    waitDelayMs (some delay) = 0 := by
  unfold waitDelayMs
  by_cases he : delay = ""
  · subst he; decide
  · simp [he, unitDelay, hm, hh, hd]

theorem waitDelayMs_of_zero (delay : String) (h0 : parseInt delay = 0) :
    waitDelayMs (some delay) = 0 := by
  unfold waitDelayMs
  by_cases he : delay = ""
  · subst he; decide
  · simp only [he, if_false, unitDelay, h0]
    split_ifs <;> rfl

/-! ## Claim on malformed duration tokens -/

/-- C6 (amended): a duration token of a Wait node that holds none of the letters `m`, `h`,
`d` (as "abc" does), or whose integer part parses to 0 (as "0m" does), and an absent or
empty token, resolve to exactly 0 milliseconds. No token makes the traversal fail: the
visit of a Wait node that has a data object goes on to the children with the resolved delay
added, whatever the token, and on a flow whose edges all lead to nodes of the flow and
whose Wait and Action nodes all have a data object the scheduling raises no TypeError, and
raises nothing at all when every `agenda.schedule` call resolves. -/
theorem c6_zero_delay_and_no_failure :
    (∀ delay : String, includes delay 'm' = false → includes delay 'h' = false →
      includes delay 'd' = false → waitDelayMs (some delay) = 0) ∧
    (∀ delay : String, parseInt delay = 0 → waitDelayMs (some delay) = 0) ∧
    waitDelayMs none = 0 ∧ waitDelayMs (some "") = 0 ∧
    (∀ (env : Env) (fuel : Nat) (node : Node) (graph : Graph) (flowId : Nat) (d : JsNum)
      (w : World) (nodeObj : GraphNode) (data : NodeData), graph node.id = some nodeObj →
      nodeObj.type = .wait → dataObject nodeObj.data = some data →
      traverseAndSchedule env (fuel + 1) (some node) graph flowId d w =
        forEachAwait (fun childId w2 =>
          traverseAndSchedule env fuel ((graph childId).map (·.toNode)) graph flowId
            (d + waitDelayMs data.delay) w2) nodeObj.children w) ∧
    (∀ (env : Env) (fuel : Nat) (flow : Flow) (w : World),
      (∀ e ∈ flow.edges, (nodeOf flow.nodes e.target).isSome) → NodesHaveData flow →
      (∀ w1, scheduleEmailsForFlow env fuel flow w ≠ .threw .typeError w1) ∧
      ((∀ k, env.dbOk k = true) → ∀ e w1, scheduleEmailsForFlow env fuel flow w ≠ .threw e w1)) := by
  refine ⟨waitDelayMs_of_no_unit, waitDelayMs_of_zero, by decide, by decide, ?_, ?_⟩
  · intro env fuel node graph flowId d w nodeObj data hg ht hd
    rw [traverse_wait env fuel node graph flowId d w nodeObj data hg ht hd, dataObject_delay hd]
  · intro env fuel flow w hnt hdat
    refine ⟨?_, ?_⟩
    · intro w1 h
      have := (throws_schedule env flow hnt hdat fuel w _ w1 h).1
      cases this
    · intro hdb e w1 h
      obtain ⟨k, hk⟩ := (throws_schedule env flow hnt hdat fuel w e w1 h).2
      rw [hdb k] at hk
      cases hk

/-- C6, witness: the tokens "abc" and "0m". -/
theorem c6_zero_delay_and_no_failure_witness :
    waitDelayMs (some "abc") = 0 ∧ waitDelayMs (some "0m") = 0 :=
  ⟨c6_zero_delay_and_no_failure.1 "abc" (by decide) (by decide) (by decide),
    c6_zero_delay_and_no_failure.2.1 "0m" (by decide)⟩

end FlowMail
